import Mathlib

/-!
# Verification development for the consensus core of avalanchego

Shallow embedding of

* `snow/networking/benchlist/benchlist.go` (the query benchlist),
* `snow/engine/avalanche/state/vertex.go` (vertex verification and wire format),
* `snow/engine/avalanche/voter.go` and `snow/engine/snowman/voter.go` (vote bubbling),
* `snow/engine/*/bootstrap/*_job.go` (bootstrap jobs),

followed by the theorems that settle the specification claims about them.

Conventions of the embedding:

* Go maps are association lists (`mapGet`, `mapSet`, `mapDel`), Go sets are
  duplicate-free lists.
* `time.Time` and `time.Duration` are values of `Int` counting nanoseconds; the
  zero `time.Time` is `0`.
* The value of a `float64` is a fraction (`Fraction`). The bound
  `uint64(float64(totalWeight) * maxPortion)` is computed with the rounding of
  `float64` to 53 significant bits (`float64Trunc`); the product
  `rand.Float64() * float64(diff)` is computed exactly and then truncated toward
  zero as the Go conversion to an integer type does.
* A Go string is the list of its bytes.
* Locks, logging and metrics have no effect on the state and are left out.
-/

/-! ## Go maps as association lists -/

/-- Lookup `m[k]`, with `none` when the key is absent. -/
def mapGet {V : Type} : List (Nat × V) → Nat → Option V
  | [], _ => none
  | (k', v) :: t, k => if k' = k then some v else mapGet t k

/-- The Go statement `delete(m, k)`. -/
def mapDel {V : Type} (m : List (Nat × V)) (k : Nat) : List (Nat × V) :=
  m.filter (fun p => decide (p.1 ≠ k))

/-- The Go statement `m[k] = v`. -/
def mapSet {V : Type} (m : List (Nat × V)) (k : Nat) (v : V) : List (Nat × V) :=
  (k, v) :: mapDel m k

/-! ## Benchlist (`snow/networking/benchlist/benchlist.go`) -/

namespace Benchlist

/-- `ids.ShortID`: a 20-byte identifier; only equality of identifiers is used,
so an identifier is represented by the number its bytes denote. -/
abbrev ShortID := Nat

/-- The value of a `float64`, as the fraction `num / den` (with `den` positive). -/
structure Fraction where
  num : Int
  den : Nat
deriving DecidableEq, Repr

/-- The value of the fraction. -/
def Fraction.toRat (f : Fraction) : ℚ :=
  (f.num : ℚ) / (f.den : ℚ)

/-- The conversion of the product `f * float64(x)` to an integer type:
the exact product, truncated toward zero. -/
def Fraction.truncMul (f : Fraction) (x : Int) : Int :=
  Int.tdiv (f.num * x) (f.den : Int)

/-- The largest `uint64`. -/
def maxUint64 : Nat := 2 ^ 64 - 1

/-- Modelled from the spec: the validator set behind the `validators.Set`
interface, whose implementation is outside the sources at hand. The spec speaks
of "stake weights of benched validators" and of `totalStake`; the set is the
table of the stake weight of every validator together with the total that
`Weight()` reports. -/
structure ValidatorSet where
  weights : List (ShortID × Nat)
  totalWeight : Nat
deriving DecidableEq, Repr

/-- Modelled from the spec: `validators.Set.GetWeight`, the stake weight of a
validator and whether it is in the set. -/
def ValidatorSet.GetWeight (s : ValidatorSet) (validatorID : ShortID) : Option Nat :=
  mapGet s.weights validatorID

/-- Modelled from the spec: `validators.Set.Weight`, the total stake. -/
def ValidatorSet.Weight (s : ValidatorSet) : Nat := s.totalWeight

/-- The sum of the stake weights of the validators of `subset` that are in the
validator set. -/
def ValidatorSet.sumWeights (s : ValidatorSet) (subset : List ShortID) : Nat :=
  (subset.map (fun v => (s.GetWeight v).getD 0)).sum

/-- Modelled from the spec: `validators.Set.SubsetWeight`, the sum of the stake
weights of a subset, which fails (`none`) when the sum overflows `uint64`. -/
def ValidatorSet.SubsetWeight (s : ValidatorSet) (subset : List ShortID) : Option Nat :=
  if s.sumWeights subset ≤ maxUint64 then some (s.sumWeights subset) else none

/-- `safemath.Sub64`: subtraction of `uint64` values that fails on underflow. -/
def Sub64 (a b : Nat) : Option Nat :=
  if a < b then none else some (a - b)

structure pendingQuery where
  registered : Int
  msgType : Nat
deriving DecidableEq, Repr

structure failureStreak where
  firstFailure : Int
  consecutive : Int
deriving DecidableEq, Repr

/-- The struct `queryBenchlist`. The field `clock` holds the time that
`b.clock.Time()` returns; the environment sets it before every call. -/
structure queryBenchlist where
  vdrs : ValidatorSet
  pendingQueries : List (ShortID × List (Nat × pendingQuery))
  consecutiveFailures : List (ShortID × failureStreak)
  benchlistTimes : List (ShortID × Int)
  benchlistOrder : List ShortID
  benchlistSet : List ShortID
  threshold : Int
  minimumFailingDuration : Int
  duration : Int
  maxPortion : Fraction
  clock : Int
deriving DecidableEq, Repr

/-- `NewQueryBenchlist`: every map, the order list and the set start empty. -/
def NewQueryBenchlist (validators : ValidatorSet) (threshold : Int)
    (minimumFailingDuration duration : Int) (maxPortion : Fraction) : queryBenchlist :=
  { vdrs := validators
    pendingQueries := []
    consecutiveFailures := []
    benchlistTimes := []
    benchlistOrder := []
    benchlistSet := []
    threshold := threshold
    minimumFailingDuration := minimumFailingDuration
    duration := duration
    maxPortion := maxPortion
    clock := 0 }

/-- `queryBenchlist.reset`. -/
def reset (b : queryBenchlist) : queryBenchlist :=
  { b with
    pendingQueries := []
    consecutiveFailures := []
    benchlistTimes := []
    benchlistOrder := []
    benchlistSet := [] }

/-- The end time `times[key]`, the zero time when the key is absent. -/
def endOf (times : List (ShortID × Int)) (validatorID : ShortID) : Int :=
  (mapGet times validatorID).getD 0

/-- The end time `b.benchlistTimes[key]`. -/
def endTime (b : queryBenchlist) (validatorID : ShortID) : Int :=
  endOf b.benchlistTimes validatorID

/-- The loop of `queryBenchlist.cleanup`. The first argument is what is left of
`benchlistOrder`, read from the front; `updatedWeight` is the loop variable of
that name. The result is `none` when `safemath.Sub64` fails, on which `cleanup`
resets the benchlist. -/
def cleanupLoop (currentTime : Int) (maxBenchlistWeight : Nat) :
    List ShortID → queryBenchlist → Nat → Option queryBenchlist
  | [], b, _ => some { b with benchlistOrder := [] }
  | validatorID :: rest, b, updatedWeight =>
    if currentTime < endTime b validatorID ∧ updatedWeight < maxBenchlistWeight then
      some { b with benchlistOrder := validatorID :: rest }
    else
      let b1 : queryBenchlist :=
        { b with
          benchlistOrder := rest
          benchlistTimes := mapDel b.benchlistTimes validatorID
          benchlistSet := b.benchlistSet.erase validatorID }
      match b.vdrs.GetWeight validatorID with
      | some removeWeight =>
        match Sub64 updatedWeight removeWeight with
        | none => none
        | some newWeight => cleanupLoop currentTime maxBenchlistWeight rest b1 newWeight
      | none => cleanupLoop currentTime maxBenchlistWeight rest b1 updatedWeight

/-- The integer nearest to `a / b`, the even one of the two on a tie: the
rounding of `float64` arithmetic, applied to a significand. -/
def roundHalfEven (a b : Nat) : Nat :=
  if 2 * (a % b) < b then a / b
  else if b < 2 * (a % b) then a / b + 1
  else if a / b % 2 = 0 then a / b
  else a / b + 1

/-- The least `s` with `a < 2 ^ 53 * (b * 2 ^ s)`, searched for `fuel` steps. -/
def shiftDown : Nat → Nat → Nat → Nat
  | 0, _, _ => 0
  | fuel + 1, a, b => if a < 2 ^ 53 * b then 0 else shiftDown fuel a (2 * b) + 1

/-- The least `t` with `2 ^ 52 * b ≤ a * 2 ^ t`, searched for `fuel` steps. -/
def shiftUp : Nat → Nat → Nat → Nat
  | 0, _, _ => 0
  | fuel + 1, a, b => if 2 ^ 52 * b ≤ a then 0 else shiftUp fuel (2 * a) b + 1

/-- The integer part of the `float64` nearest to `a / b` (ties to even): the
quotient is scaled by a power of two into `[2 ^ 52, 2 ^ 53)`, rounded to an
integer, which is the significand of 53 bits, and scaled back. This is what
`uint64(x)` yields for the `float64` `x` that an arithmetic operation with the
exact result `a / b` produces, as long as `x` is below `2 ^ 64`; beyond, the
conversion of Go is implementation-dependent. With `b = 1` it is
`float64(a)` itself, an integer. Subnormal values, which have fewer bits, are
not singled out: they are below `1` and their integer part is `0` either way. -/
def float64Trunc (a b : Nat) : Nat :=
  if a = 0 ∨ b = 0 then 0
  else if 2 ^ 53 * b ≤ a then
    roundHalfEven a (b * 2 ^ shiftDown a a b) * 2 ^ shiftDown a a b
  else
    roundHalfEven (a * 2 ^ shiftUp (53 + b) a b) b / 2 ^ shiftUp (53 + b) a b

/-- The bound `uint64(float64(totalWeight) * b.maxPortion)` of `cleanup`:
`float64(totalWeight)` is `totalWeight` rounded to 53 significant bits, the
product with `maxPortion` is rounded again, and the conversion to `uint64` drops
the fraction. For a negative `maxPortion` the conversion of Go is
implementation-dependent; the bound is `0` here. -/
def maxBenchlistWeight (b : queryBenchlist) : Nat :=
  float64Trunc (b.maxPortion.num.toNat * float64Trunc b.vdrs.Weight 1) b.maxPortion.den

/-- `queryBenchlist.cleanup`. -/
def cleanup (b : queryBenchlist) : queryBenchlist :=
  match b.vdrs.SubsetWeight b.benchlistSet with
  | none => reset b
  | some currentWeight =>
    match cleanupLoop b.clock (maxBenchlistWeight b) b.benchlistOrder b currentWeight with
    | none => reset b
    | some b1 => b1

/-- `queryBenchlist.benched`: whether the validator is benched now; an expired
entry triggers `cleanup`. -/
def benched (b : queryBenchlist) (validatorID : ShortID) : queryBenchlist × Bool :=
  match mapGet b.benchlistTimes validatorID with
  | none => (b, false)
  | some endT => if b.clock < endT then (b, true) else (cleanup b, false)

/-- The local variable `minEndTime` of `bench` after the adjustment to the end
time of the last validator of `benchlistOrder`. -/
def minEndTime (b : queryBenchlist) : Int :=
  let minEndTime0 := b.clock + Int.tdiv b.duration 2
  match b.benchlistOrder.getLast? with
  | some lastValidator =>
    if endTime b lastValidator > minEndTime0 then endTime b lastValidator else minEndTime0
  | none => minEndTime0

/-- The local variable `randomizedEndTime` of `bench`, with `rnd` the value that
`rand.Float64()` returns. -/
def randomizedEndTime (b : queryBenchlist) (rnd : Fraction) : Int :=
  let maxEndTime := b.clock + b.duration
  let diff := maxEndTime - minEndTime b
  minEndTime b + rnd.truncMul diff

/-- The four writes of `bench` that add the validator with its end time, up
to the call of `cleanup`. -/
def benchAdd (b : queryBenchlist) (validatorID : ShortID) (endT : Int) : queryBenchlist :=
  { b with
    benchlistTimes := mapSet b.benchlistTimes validatorID endT
    benchlistOrder := b.benchlistOrder ++ [validatorID]
    benchlistSet := validatorID :: b.benchlistSet
    consecutiveFailures := mapDel b.consecutiveFailures validatorID }

/-- `queryBenchlist.bench`. The argument `rnd` is the value that
`rand.Float64()` returns. -/
def bench (b : queryBenchlist) (validatorID : ShortID) (rnd : Fraction) : queryBenchlist :=
  if validatorID ∈ b.benchlistSet then b
  else cleanup (benchAdd b validatorID (randomizedEndTime b rnd))

/-- `queryBenchlist.removeQuery`: removes the pending query and tells whether it
was present. -/
def removeQuery (b : queryBenchlist) (validatorID : ShortID) (requestID : Nat) :
    queryBenchlist × Bool :=
  match mapGet b.pendingQueries validatorID with
  | none => (b, false)
  | some validatorRequests =>
    match mapGet validatorRequests requestID with
    | none => (b, false)
    | some _ =>
      let remaining := mapDel validatorRequests requestID
      if remaining.length = 0 then
        ({ b with pendingQueries := mapDel b.pendingQueries validatorID }, true)
      else
        ({ b with pendingQueries := mapSet b.pendingQueries validatorID remaining }, true)

/-- `queryBenchlist.RegisterQuery`: the new state and the returned boolean. -/
def RegisterQuery (b : queryBenchlist) (validatorID : ShortID) (requestID : Nat)
    (msgType : Nat) : queryBenchlist × Bool :=
  match benched b validatorID with
  | (b1, true) => (b1, false)
  | (b1, false) =>
    let validatorRequests := (mapGet b1.pendingQueries validatorID).getD []
    ({ b1 with
       pendingQueries := mapSet b1.pendingQueries validatorID
         (mapSet validatorRequests requestID { registered := b1.clock, msgType := msgType }) },
     true)

/-- `queryBenchlist.RegisterResponse`. -/
def RegisterResponse (b : queryBenchlist) (validatorID : ShortID) (requestID : Nat) :
    queryBenchlist :=
  match removeQuery b validatorID requestID with
  | (b1, false) => b1
  | (b1, true) => { b1 with consecutiveFailures := mapDel b1.consecutiveFailures validatorID }

/-- The update of the failure streak in `QueryFailed`: the first failure of a
streak records the time, then the count goes up by one. -/
def recordFailure (streak : failureStreak) (currentTime : Int) : failureStreak :=
  let streak1 : failureStreak :=
    if streak.consecutive = 0 then { streak with firstFailure := currentTime } else streak
  { streak1 with consecutive := streak1.consecutive + 1 }

/-- `queryBenchlist.QueryFailed`. The argument `rnd` is the value that
`rand.Float64()` returns should `bench` draw one. -/
def QueryFailed (b : queryBenchlist) (validatorID : ShortID) (requestID : Nat)
    (rnd : Fraction) : queryBenchlist :=
  match removeQuery b validatorID requestID with
  | (b1, false) => b1
  | (b1, true) =>
    let currentTime := b1.clock
    let streak : failureStreak :=
      recordFailure
        ((mapGet b1.consecutiveFailures validatorID).getD { firstFailure := 0, consecutive := 0 })
        currentTime
    let b2 : queryBenchlist :=
      { b1 with consecutiveFailures := mapSet b1.consecutiveFailures validatorID streak }
    if streak.consecutive ≥ b2.threshold ∧
        ¬ (currentTime < streak.firstFailure + b2.minimumFailingDuration) then
      bench b2 validatorID rnd
    else b2

/-- A call on the benchlist, with the time the clock shows during the call. -/
inductive Call where
  | registerQuery (now : Int) (validatorID : ShortID) (requestID : Nat) (msgType : Nat)
  | registerResponse (now : Int) (validatorID : ShortID) (requestID : Nat)
  | queryFailed (now : Int) (validatorID : ShortID) (requestID : Nat) (rnd : Fraction)
deriving DecidableEq, Repr

/-- The clock reading of a call. -/
def Call.now : Call → Int
  | .registerQuery now _ _ _ => now
  | .registerResponse now _ _ => now
  | .queryFailed now _ _ _ => now

/-- Whether the random draw of a call (if it has one) is a value of `[0, 1)`. -/
def Call.drawOk : Call → Prop
  | .queryFailed _ _ _ rnd => 0 ≤ rnd.num ∧ rnd.num < (rnd.den : Int)
  | _ => True

instance (c : Call) : Decidable c.drawOk := by
  cases c <;> unfold Call.drawOk <;> infer_instance

/-- One call: the clock is set, then the method runs. -/
def step (b : queryBenchlist) : Call → queryBenchlist
  | .registerQuery now v r t => (RegisterQuery { b with clock := now } v r t).1
  | .registerResponse now v r => RegisterResponse { b with clock := now } v r
  | .queryFailed now v r rnd => QueryFailed { b with clock := now } v r rnd

/-- A sequence of calls, in order. -/
def run (b : queryBenchlist) (calls : List Call) : queryBenchlist :=
  calls.foldl step b

/-- The end times of the validators of `benchlistOrder`, front to back. -/
def orderEndTimes (b : queryBenchlist) : List Int :=
  b.benchlistOrder.map (endTime b)

/-- The sum of the stake weights of the validators of `benchlistSet`. -/
def benchedWeight (b : queryBenchlist) : Nat :=
  b.vdrs.sumWeights b.benchlistSet

/-- The three views of the benchlist agree: `benchlistOrder` has no duplicates
and has the members of `benchlistSet` and the keys of `benchlistTimes`. -/
structure Consistent (order : List ShortID) (times : List (ShortID × Int))
    (set : List ShortID) : Prop where
  nodup : order.Nodup
  setNodup : set.Nodup
  mem_iff : ∀ v, v ∈ set ↔ v ∈ order
  times_iff : ∀ v, mapGet times v ≠ none ↔ v ∈ order

/-- The end times along `order` are non-decreasing and at most `B`. -/
structure Ordered (order : List ShortID) (times : List (ShortID × Int)) (B : Int) : Prop where
  sorted : (order.map (endOf times)).Pairwise (· ≤ ·)
  bound : ∀ v ∈ order, endOf times v ≤ B

/-- The fields that `cleanup` never writes are the same in both states. -/
structure SameParams (b b1 : queryBenchlist) : Prop where
  vdrs : b1.vdrs = b.vdrs
  threshold : b1.threshold = b.threshold
  minimumFailingDuration : b1.minimumFailingDuration = b.minimumFailingDuration
  duration : b1.duration = b.duration
  maxPortion : b1.maxPortion = b.maxPortion
  clock : b1.clock = b.clock

/-- The invariant of the benchlist that needs no assumption on the clock. -/
def Inv (b : queryBenchlist) : Prop :=
  Consistent b.benchlistOrder b.benchlistTimes b.benchlistSet

/-- The invariant of the benchlist under a non-decreasing clock: entries are in
the order of their end times, none ends later than `duration` after the clock,
and a negative `duration` keeps the benchlist empty. -/
def OrdInv (b : queryBenchlist) : Prop :=
  Ordered b.benchlistOrder b.benchlistTimes (b.clock + b.duration) ∧
    (b.duration < 0 → b.benchlistOrder = [])

/-- The bench cap as `cleanup` enforces it: no validator is benched, or the
benched weight is below the bound that `cleanup` computes. -/
def Capped (b : queryBenchlist) : Prop :=
  b.benchlistOrder = [] ∨ benchedWeight b < maxBenchlistWeight b

/-- Consistency together with the bench cap. -/
def Good (b : queryBenchlist) : Prop :=
  Inv b ∧ Capped b

/-- Consistency together with the order of the end times. -/
def GoodOrd (b : queryBenchlist) : Prop :=
  Inv b ∧ OrdInv b

end Benchlist

/-! ## Vertex (`snow/engine/avalanche/state/vertex.go`) -/

namespace Vertex

deriving instance DecidableEq for Except

/-- A byte. -/
abbrev Byte := Fin 256

/-- `ids.ID`: an array of 32 bytes. -/
abbrev ID := { l : List Byte // l.length = 32 }

/-- The zero value of `ids.ID`. -/
def zeroID : ID := ⟨List.replicate 32 0, by simp⟩

/-- The errors of vertex parsing and verification; `errVM` stands for an error
that the VM returns from `ParseTx`, `errTooManyParents` and `errTooManyTxs` for
the two `fmt.Errorf` of `Unmarshal`. -/
inductive Error where
  | errBadLength
  | errBadCodec
  | errExtraSpace
  | errBadEpoch
  | errInvalidParents
  | errInvalidTxs
  | errNoTxs
  | errConflictingTxs
  | errTooManyParents
  | errTooManyTxs
  | errVM (code : Nat)
deriving DecidableEq, Repr

/-- `snowstorm.Tx`, as far as a vertex looks at it: `ID()`, `Bytes()` and
`InputIDs()`. -/
structure Tx where
  id : ID
  bytes : List Byte
  inputIDs : List ID
deriving DecidableEq, Repr

/-- The struct `innerVertex`; `height` is a `uint64` and `epoch` a `uint32`. -/
structure innerVertex where
  id : ID
  chainID : ID
  height : Nat
  epoch : Nat
  parentIDs : List ID
  txs : List Tx
  bytes : List Byte
deriving DecidableEq, Repr

def maxSize : Nat := 2 ^ 20

def maxNumParents : Nat := 128

def maxTxsPerVtx : Nat := 128

def version : Nat := 0

/-- `hashing.HashLen`. -/
def HashLen : Nat := 32

/-- `bytes.Compare`: lexicographic comparison, with result -1, 0 or 1. -/
def bytesCompare : List Byte → List Byte → Int
  | [], [] => 0
  | [], _ :: _ => -1
  | _ :: _, [] => 1
  | a :: as, b :: bs => if a < b then -1 else if b < a then 1 else bytesCompare as bs

/-- Modelled from the spec: `ids.IsSortedAndUniqueIDs`, which is outside the
sources at hand; the spec asks that "ParentIDs must be sorted ascending and
unique", which is that every ID compares below its successor. -/
def IsSortedAndUniqueIDs : List ID → Bool
  | a :: b :: rest => decide (bytesCompare a.val b.val = -1) && IsSortedAndUniqueIDs (b :: rest)
  | _ => true

/-- `sortTxsData.Less` on two transactions. -/
def txLess (tx1 tx2 : Tx) : Bool :=
  decide (bytesCompare tx1.id.val tx2.id.val = -1)

/-- `isSortedAndUniqueTxs`, which is `utils.IsSortedAndUnique` on `sortTxsData`:
every transaction is `Less` than its successor (modelled from the spec, which
asks that "txs must be sorted by ID ascending and unique", as
`utils.IsSortedAndUnique` is outside the sources at hand). -/
def isSortedAndUniqueTxs : List Tx → Bool
  | a :: b :: rest => txLess a b && isSortedAndUniqueTxs (b :: rest)
  | _ => true

/-- `ids.Set.Overlaps`: whether the two sets share an element. -/
def Overlaps (inputs big : List ID) : Bool :=
  inputs.any (fun x => decide (x ∈ big))

/-- The loop of `innerVertex.Verify` over the transactions; `inputIDs` is the
set of the input IDs of the transactions seen so far. -/
def verifyInputs : List Tx → List ID → Option Error
  | [], _ => none
  | tx :: rest, inputIDs =>
    let inputs := tx.inputIDs.dedup
    if Overlaps inputs inputIDs then some Error.errConflictingTxs
    else verifyInputs rest (inputIDs ∪ inputs)

/-- `innerVertex.Verify`; `none` is the `nil` error. -/
def Verify (vtx : innerVertex) : Option Error :=
  if vtx.epoch ≠ 0 then some Error.errBadEpoch
  else if ¬ IsSortedAndUniqueIDs vtx.parentIDs then some Error.errInvalidParents
  else if vtx.txs.length = 0 then some Error.errNoTxs
  else if ¬ isSortedAndUniqueTxs vtx.txs then some Error.errInvalidTxs
  else verifyInputs vtx.txs []

/-- The `k` big-endian bytes of `n` (of `n` modulo `256 ^ k`), as
`binary.BigEndian.PutUint16/32/64` write them. -/
def beBytes : Nat → Nat → List Byte
  | 0, _ => []
  | k + 1, n => ⟨(n / 256 ^ k) % 256, Nat.mod_lt _ (by norm_num)⟩ :: beBytes k n

/-- The number that big-endian bytes denote, as `binary.BigEndian.Uint16/32/64`
read it. -/
def beDecode : List Byte → Nat
  | [] => 0
  | b :: t => b.val * 256 ^ t.length + beDecode t

/-- Modelled from the spec: `wrappers.Packer`, which is outside the sources at
hand. The spec gives the wire format as big-endian, length-prefixed fields and
a maximum size of 1 MiB for a vertex; the packer is a byte buffer with a read
and write offset, the size limit for writes and the first error met, after
which every operation is void. -/
structure Packer where
  Err : Option Error
  MaxSize : Nat
  Bytes : List Byte
  Offset : Nat
deriving DecidableEq, Repr

/-- Modelled from the spec: `Errs.Errored`. -/
def Packer.Errored (p : Packer) : Bool := p.Err.isSome

/-- Modelled from the spec: `Errs.Add`, which keeps the first error. -/
def Packer.Add (p : Packer) (err : Option Error) : Packer :=
  if p.Err.isSome then p else { p with Err := err }

/-- Modelled from the spec: `Packer.CheckSpace`, an error when fewer than `n`
bytes are left to read. -/
def Packer.CheckSpace (p : Packer) (n : Nat) : Packer :=
  if p.Bytes.length < p.Offset + n then p.Add (some Error.errBadLength) else p

/-- Modelled from the spec: `Packer.Expand`, which makes room for `n` more
bytes and fails when that exceeds `MaxSize`. -/
def Packer.Expand (p : Packer) (n : Nat) : Packer :=
  if p.Err.isSome then p
  else if n + p.Offset ≤ p.Bytes.length then p
  else if n + p.Offset > p.MaxSize then p.Add (some Error.errBadLength)
  else { p with Bytes := p.Bytes ++ List.replicate (n + p.Offset - p.Bytes.length) 0 }

/-- Modelled from the spec: `Packer.PackFixedBytes`, which writes the bytes at
the offset. -/
def Packer.PackFixedBytes (p : Packer) (data : List Byte) : Packer :=
  let p1 := p.Expand data.length
  if p1.Errored then p1
  else
    { p1 with
      Bytes := p1.Bytes.take p1.Offset ++ data ++ p1.Bytes.drop (p1.Offset + data.length)
      Offset := p1.Offset + data.length }

/-- Modelled from the spec: `Packer.PackShort`. -/
def Packer.PackShort (p : Packer) (val : Nat) : Packer := p.PackFixedBytes (beBytes 2 val)

/-- Modelled from the spec: `Packer.PackInt`. -/
def Packer.PackInt (p : Packer) (val : Nat) : Packer := p.PackFixedBytes (beBytes 4 val)

/-- Modelled from the spec: `Packer.PackLong`. -/
def Packer.PackLong (p : Packer) (val : Nat) : Packer := p.PackFixedBytes (beBytes 8 val)

/-- Modelled from the spec: `Packer.PackBytes`, a `uint32` length and the bytes. -/
def Packer.PackBytes (p : Packer) (data : List Byte) : Packer :=
  (p.PackInt (data.length % 2 ^ 32)).PackFixedBytes data

/-- Modelled from the spec: `Packer.UnpackFixedBytes`; the empty list stands for
the `nil` that an errored packer returns. -/
def Packer.UnpackFixedBytes (p : Packer) (size : Nat) : Packer × List Byte :=
  let p1 := p.CheckSpace size
  if p1.Errored then (p1, [])
  else ({ p1 with Offset := p1.Offset + size }, (p1.Bytes.drop p1.Offset).take size)

/-- Modelled from the spec: `Packer.UnpackShort`. -/
def Packer.UnpackShort (p : Packer) : Packer × Nat :=
  ((p.UnpackFixedBytes 2).1, beDecode (p.UnpackFixedBytes 2).2)

/-- Modelled from the spec: `Packer.UnpackInt`. -/
def Packer.UnpackInt (p : Packer) : Packer × Nat :=
  ((p.UnpackFixedBytes 4).1, beDecode (p.UnpackFixedBytes 4).2)

/-- Modelled from the spec: `Packer.UnpackLong`. -/
def Packer.UnpackLong (p : Packer) : Packer × Nat :=
  ((p.UnpackFixedBytes 8).1, beDecode (p.UnpackFixedBytes 8).2)

/-- Modelled from the spec: `Packer.UnpackBytes`, a `uint32` length and that
many bytes. -/
def Packer.UnpackBytes (p : Packer) : Packer × List Byte :=
  (p.UnpackInt.1).UnpackFixedBytes p.UnpackInt.2

/-- Modelled from the spec: `ids.ToID`, which fails unless it gets 32 bytes. -/
def ToID (bs : List Byte) : ID × Option Error :=
  if h : bs.length = 32 then (⟨bs, h⟩, none) else (zeroID, some Error.errBadLength)

/-- The loop of `Marshal` over the parent IDs. -/
def packParents : List ID → Packer → Packer
  | [], p => p
  | parentID :: rest, p => packParents rest (p.PackFixedBytes parentID.val)

/-- The loop of `Marshal` over the transactions. -/
def packTxs : List Tx → Packer → Packer
  | [], p => p
  | tx :: rest, p => packTxs rest (p.PackBytes tx.bytes)

/-- `innerVertex.Marshal`: the bytes, or the error of the packer. -/
def Marshal (vtx : innerVertex) : Except Error (List Byte) :=
  let p : Packer := { Err := none, MaxSize := maxSize, Bytes := [], Offset := 0 }
  let p := p.PackShort version
  let p := p.PackFixedBytes vtx.chainID.val
  let p := p.PackLong (vtx.height % 2 ^ 64)
  let p := p.PackInt 0
  let p := p.PackInt (vtx.parentIDs.length % 2 ^ 32)
  let p := packParents vtx.parentIDs p
  let p := p.PackInt (vtx.txs.length % 2 ^ 32)
  let p := packTxs vtx.txs p
  match p.Err with
  | some err => Except.error err
  | none => Except.ok p.Bytes

/-- The loop of `Unmarshal` over the parent IDs: at most `n` rounds, none once
the packer has an error. The result lists the IDs read. -/
def unpackParents : Nat → Packer → Packer × List ID
  | 0, p => (p, [])
  | n + 1, p =>
    if p.Errored then (p, [])
    else
      let r := p.UnpackFixedBytes HashLen
      let parsed := ToID r.2
      let rest := unpackParents n (r.1.Add parsed.2)
      (rest.1, parsed.1 :: rest.2)

/-- The loop of `Unmarshal` over the transactions, with `parseTx` the method
`ParseTx` of the VM. The result lists the transactions parsed. -/
def unpackTxs (parseTx : List Byte → Except Error Tx) : Nat → Packer → Packer × List Tx
  | 0, p => (p, [])
  | n + 1, p =>
    if p.Errored then (p, [])
    else
      let r := p.UnpackBytes
      match parseTx r.2 with
      | Except.error err => unpackTxs parseTx n (r.1.Add (some err))
      | Except.ok tx =>
        let rest := unpackTxs parseTx n r.1
        (rest.1, tx :: rest.2)

/-- The statements of `innerVertex.Unmarshal` from `numTxs := p.UnpackInt()` to
the end, given what was read before. -/
def unmarshalTxs (hash : List Byte → ID) (parseTx : List Byte → Except Error Tx)
    (b : List Byte) (chainID : ID) (height epoch : Nat) (parentIDs : List ID) (p : Packer) :
    Except Error innerVertex :=
  let rt := p.UnpackInt
  if rt.2 > maxTxsPerVtx then Except.error Error.errTooManyTxs
  else
    let rx := unpackTxs parseTx rt.2 rt.1
    let p := if rx.1.Offset ≠ b.length then rx.1.Add (some Error.errExtraSpace) else rx.1
    match p.Err with
    | some err => Except.error err
    | none =>
      Except.ok
        { id := hash b
          parentIDs := parentIDs
          chainID := chainID
          height := height
          epoch := epoch
          txs := rx.2
          bytes := b }

/-- The statements of `innerVertex.Unmarshal` from `numParents := p.UnpackInt()`
to the end, given what was read before. -/
def unmarshalParents (hash : List Byte → ID) (parseTx : List Byte → Except Error Tx)
    (b : List Byte) (chainID : ID) (height epoch : Nat) (p : Packer) :
    Except Error innerVertex :=
  let rn := p.UnpackInt
  if rn.2 > maxNumParents then Except.error Error.errTooManyParents
  else
    let rp := unpackParents rn.2 rn.1
    unmarshalTxs hash parseTx b chainID height epoch rp.2 rp.1

/-- `innerVertex.Unmarshal`: the vertex that the call assigns, or the error.
`hash` is `hashing.ComputeHash256Array` and `parseTx` the method `ParseTx` of
the VM. The function reads the codec, the chain ID, the height and the epoch,
and goes on with `unmarshalParents` and `unmarshalTxs`. -/
def Unmarshal (hash : List Byte → ID) (parseTx : List Byte → Except Error Tx)
    (b : List Byte) : Except Error innerVertex :=
  let p : Packer := { Err := none, MaxSize := 0, Bytes := b, Offset := 0 }
  let r := p.UnpackShort
  let p := if r.2 ≠ version then r.1.Add (some Error.errBadCodec) else r.1
  let rc := p.UnpackFixedBytes HashLen
  let chainID := (ToID rc.2).1
  let rh := rc.1.UnpackLong
  let re := rh.1.UnpackInt
  unmarshalParents hash parseTx b chainID rh.2 re.2 re.1

/-- The wire format of the parent IDs: the IDs one after the other. -/
def encodeParents : List ID → List Byte
  | [] => []
  | parentID :: rest => parentID.val ++ encodeParents rest

/-- The wire format of the transactions: for each one a `u32` length and the
bytes. -/
def encodeTxs : List Tx → List Byte
  | [] => []
  | tx :: rest => beBytes 4 tx.bytes.length ++ tx.bytes ++ encodeTxs rest

/-- The wire format of a vertex as the spec lays it out, with the epoch field
as a parameter: `u16 codec=0 | 32B chainID | u64 height | u32 epoch |
u32 numParents | numParents × 32B parentID | u32 numTxs | numTxs × (u32 txLen |
tx bytes)`, every integer big-endian. -/
def wire (vtx : innerVertex) (epoch : Nat) : List Byte :=
  beBytes 2 version ++ vtx.chainID.val ++ beBytes 8 vtx.height ++ beBytes 4 epoch ++
    beBytes 4 vtx.parentIDs.length ++ encodeParents vtx.parentIDs ++
    beBytes 4 vtx.txs.length ++ encodeTxs vtx.txs

/-- The packer after writing `c` from the start, under the size limit `M`. -/
def written (M : Nat) (c : List Byte) : Packer :=
  { Err := none, MaxSize := M, Bytes := c, Offset := c.length }

/-- A run of `PackFixedBytes`, one per chunk. -/
def packChunks (cs : List (List Byte)) (p : Packer) : Packer :=
  cs.foldl Packer.PackFixedBytes p

/-- The chunks that the loop of `Marshal` over the transactions hands to the
packer, in order: for each transaction its length and its bytes. -/
def txChunks : List Tx → List (List Byte)
  | [] => []
  | tx :: rest => beBytes 4 (tx.bytes.length % 2 ^ 32) :: tx.bytes :: txChunks rest

/-- The chunks that `Marshal` hands to the packer, in order. -/
def chunks (vtx : innerVertex) : List (List Byte) :=
  [beBytes 2 version, vtx.chainID.val, beBytes 8 (vtx.height % 2 ^ 64), beBytes 4 0,
    beBytes 4 (vtx.parentIDs.length % 2 ^ 32)] ++ vtx.parentIDs.map (·.val) ++
    [beBytes 4 (vtx.txs.length % 2 ^ 32)] ++ txChunks vtx.txs

/-- The packer that reads `b`, at offset `o`, with error state `e`. -/
def reader (e : Option Error) (b : List Byte) (o : Nat) : Packer :=
  { Err := e, MaxSize := 0, Bytes := b, Offset := o }

/-- A VM whose `ParseTx` returns a transaction whose `Bytes()` are the parsed
bytes. -/
def FaithfulVM (parseTx : List Byte → Except Error Tx) : Prop :=
  ∀ bs tx, parseTx bs = Except.ok tx → tx.bytes = bs

/-- The packer reads `b`: that is its buffer, and it has no size limit set. -/
def IsReader (b : List Byte) (p : Packer) : Prop :=
  p.Bytes = b ∧ p.MaxSize = 0

/-- The order of `bytes.Compare` on IDs: strictly below. -/
def idLess (a b : ID) : Prop := bytesCompare a.val b.val = -1

instance (a b : ID) : Decidable (idLess a b) := by
  unfold idLess
  infer_instance

/-- A VM whose `ParseTx` accepts every byte string and returns a transaction
with exactly these bytes (and the zero ID, and no inputs). -/
def echoVM (bs : List Byte) : Except Error Tx :=
  Except.ok { id := zeroID, bytes := bs, inputIDs := [] }

/-- A hash function for the examples: every input hashes to the zero ID. -/
def zeroHash (_ : List Byte) : ID := zeroID

/-- The ID whose last byte is `n` and whose other bytes are zero. -/
def smallID (n : Byte) : ID := ⟨List.replicate 31 0 ++ [n], by simp⟩

/-- The encoding of a vertex of the zero chain at height 0 with epoch field 1,
no parents and no transactions. -/
def epochOneBytes : List Byte :=
  beBytes 2 0 ++ zeroID.val ++ beBytes 8 0 ++ beBytes 4 1 ++ beBytes 4 0 ++ beBytes 4 0

/-- The vertex that `Unmarshal` builds from `epochOneBytes`. -/
def epochOneVertex : innerVertex :=
  { id := zeroID, chainID := zeroID, height := 0, epoch := 1, parentIDs := [], txs := [],
    bytes := epochOneBytes }

/-- A vertex with epoch 0, two parents and two transactions. -/
def sampleVertex : innerVertex :=
  { id := zeroID, chainID := smallID 7, height := 5, epoch := 0,
    parentIDs := [smallID 1, smallID 2],
    txs := [{ id := smallID 3, bytes := [1, 2, 3], inputIDs := [smallID 9] },
      { id := smallID 4, bytes := [], inputIDs := [] }],
    bytes := [] }

/-- A run of `2 ^ 20` zero bytes. -/
def bigBytes : List Byte := List.replicate (2 ^ 20) 0

/-- A vertex with one transaction of `2 ^ 20` bytes. -/
def bigVertex : innerVertex :=
  { id := zeroID, chainID := zeroID, height := 0, epoch := 0, parentIDs := [],
    txs := [{ id := zeroID, bytes := bigBytes, inputIDs := [] }],
    bytes := [] }

end Vertex

/-! ## Decision status (`snow/choices`) -/

namespace Choices

/-- Modelled from the spec: `choices.Status`, which is outside the sources at
hand; the spec gives "status ∈ {Unknown, Processing, Accepted, Rejected}". -/
inductive Status where
  | Unknown
  | Processing
  | Rejected
  | Accepted
deriving DecidableEq, Repr

/-- Modelled from the spec: `Status.Decided`, true of Accepted and Rejected
(the statuses that the spec calls final). -/
def Status.Decided : Status → Bool
  | .Rejected => true
  | .Accepted => true
  | _ => false

/-- Modelled from the spec: `Status.Fetched`, true of every status but Unknown
(a decision "enters Processing once its bytes parse"). -/
def Status.Fetched : Status → Bool
  | .Processing => true
  | s => s.Decided

end Choices

/-! ## Avalanche voter (`snow/engine/avalanche/voter.go`) -/

namespace AvalancheVoter

open Choices

/-- `ids.ID`; only equality of IDs is used, so an ID is represented by a number. -/
abbrev ID := Nat

/-- An `avalanche.Vertex` as `bubbleVotes` sees it: `ID()`, `Status()`, its
height (which orders the heap) and `Parents()`, which is `none` when the call
returns an error and else the IDs of the parent vertices. -/
structure Vertex where
  id : ID
  status : Status
  height : Nat
  parents : Option (List ID)
deriving DecidableEq, Repr

/-- What `bubbleVotes` reads of the engine: `getVertex` is `Manager.GetVertex`
(`none` for an error), `vertexOf` resolves the ID of a parent to the vertex
object, `vertexIssued` is `Consensus.VertexIssued`. -/
structure Engine where
  getVertex : ID → Option Vertex
  vertexOf : ID → Vertex
  vertexIssued : ID → Bool

/-- `ids.UniqueBag`: for each ID the set of the voters (their indices) that
voted for it. -/
abbrev UniqueBag := List (ID × List Nat)

/-- `UniqueBag.GetSet`: the voters of an ID, none when the ID is absent. -/
def GetSet (b : UniqueBag) (id : ID) : List Nat :=
  (mapGet b id).getD []

/-- `UniqueBag.UnionSet`: adds voters to the set of an ID. -/
def UnionSet (b : UniqueBag) (id : ID) (set : List Nat) : UniqueBag :=
  mapSet b id (GetSet b id ∪ set)

/-- `UniqueBag.RemoveSet`: removes the ID and its voters. -/
def RemoveSet (b : UniqueBag) (id : ID) : UniqueBag :=
  mapDel b id

/-- Whether `a` comes out of the heap before `b`: vertices that are not fetched
first, then greater height first. -/
def heapBefore (a b : Vertex) : Bool :=
  if !a.status.Fetched then true
  else if !b.status.Fetched then false
  else decide (a.height > b.height)

/-- Modelled from the spec: `vertex.Heap.Push`, which is outside the sources at
hand. The heap holds the vertices whose votes are still to be walked up, each
ID at most once; pushing an ID that is in the heap does nothing. -/
def heapPush (h : List Vertex) (v : Vertex) : List Vertex :=
  if h.any (fun x => decide (x.id = v.id)) then h else h ++ [v]

/-- The vertex that comes out first: one that no other vertex of the heap comes
before, the earliest pushed among these. -/
def heapTop : List Vertex → Option Vertex
  | [] => none
  | v :: rest =>
    match heapTop rest with
    | none => some v
    | some w => if heapBefore w v && !heapBefore v w then some w else some v

/-- Modelled from the spec: `vertex.Heap.Pop`, which is outside the sources at
hand: the top vertex and the heap without it. -/
def heapPop (h : List Vertex) : Option (Vertex × List Vertex) :=
  match heapTop h with
  | none => none
  | some v => some (v, h.erase v)

/-- The first loop of `bubbleVotes`: the vertices voted for that the manager
has go into the heap. -/
def pushVotes (e : Engine) : List ID → List Vertex → List Vertex
  | [], h => h
  | vote :: rest, h =>
    match e.getVertex vote with
    | none => pushVotes e rest h
    | some vtx => pushVotes e rest (heapPush h vtx)

/-- The loop of `bubbleVotes` over the parents of a vertex that is not issued. -/
def bubbleToParents (e : Engine) (set : List Nat) :
    List ID → UniqueBag → List Vertex → UniqueBag × List Vertex
  | [], bubbledVotes, h => (bubbledVotes, h)
  | parent :: rest, bubbledVotes, h =>
    bubbleToParents e set rest (UnionSet bubbledVotes (e.vertexOf parent).id set)
      (heapPush h (e.vertexOf parent))

/-- The main loop of `bubbleVotes`, `for vertexHeap.Len() > 0`, with a bound on
the number of rounds. The result is `none` when the bound is too small, and
else the returned bag and whether the call returned an error. -/
def bubbleLoop (e : Engine) (votes : UniqueBag) :
    Nat → List Vertex → UniqueBag → Option (UniqueBag × Bool)
  | 0, _, _ => none
  | fuel + 1, h, bubbledVotes =>
    match heapPop h with
    | none => some (bubbledVotes, false)
    | some (vtx, h1) =>
      let set := GetSet votes vtx.id
      if !vtx.status.Fetched then bubbleLoop e votes fuel h1 (RemoveSet bubbledVotes vtx.id)
      else if vtx.status.Decided then
        bubbleLoop e votes fuel h1 (RemoveSet bubbledVotes vtx.id)
      else if e.vertexIssued vtx.id then
        bubbleLoop e votes fuel h1 (UnionSet bubbledVotes vtx.id set)
      else
        match vtx.parents with
        | none => some (RemoveSet bubbledVotes vtx.id, true)
        | some parents =>
          let r := bubbleToParents e set parents (RemoveSet bubbledVotes vtx.id) h1
          bubbleLoop e votes fuel r.2 r.1

/-- `voter.bubbleVotes`, with a bound on the rounds of its main loop. -/
def bubbleVotes (e : Engine) (votes : UniqueBag) (fuel : Nat) : Option (UniqueBag × Bool) :=
  bubbleLoop e votes fuel (pushVotes e (votes.map (·.1)) []) []

/-- Three vertices in a line: vertex 3 has parent 2, which has parent 1. All are
Processing; only vertex 1 is issued into consensus. -/
def lineEngine : Engine :=
  { getVertex := fun id =>
      if id = 3 then some ⟨3, .Processing, 2, some [2]⟩
      else if id = 2 then some ⟨2, .Processing, 1, some [1]⟩
      else if id = 1 then some ⟨1, .Processing, 0, some []⟩
      else none
    vertexOf := fun id =>
      if id = 3 then ⟨3, .Processing, 2, some [2]⟩
      else if id = 2 then ⟨2, .Processing, 1, some [1]⟩
      else if id = 1 then ⟨1, .Processing, 0, some []⟩
      else ⟨id, .Unknown, 0, some []⟩
    vertexIssued := fun id => decide (id = 1) }

end AvalancheVoter

/-! ## Snowman voter (`snow/engine/snowman/voter.go`) -/

namespace SnowmanVoter

open Choices

/-- `ids.ID`; only equality of IDs is used, so an ID is represented by a number. -/
abbrev ID := Nat

/-- A `snowman.Block` with the chain of its ancestors. The chain ends in a
block that the VM does not have (`missing.Block`, with status Unknown and no
parent); every other block has an ID, a status and a parent. -/
inductive Block where
  | missing (id : ID)
  | block (id : ID) (status : Status) (parent : Block)
deriving DecidableEq, Repr

/-- `Block.ID`. -/
def Block.ID : Block → ID
  | .missing id => id
  | .block id _ _ => id

/-- `Block.Status`. -/
def Block.Status : Block → Status
  | .missing _ => Status.Unknown
  | .block _ status _ => status

/-- `ids.Bag`: for each ID the number of votes. -/
abbrev Bag := List (ID × Nat)

/-- `Bag.Count`. -/
def Count (b : Bag) (id : ID) : Nat :=
  (mapGet b id).getD 0

/-- `Bag.AddCount`, which does nothing for a count that is not positive. -/
def AddCount (b : Bag) (id : ID) (count : Nat) : Bag :=
  if count = 0 then b else mapSet b id (Count b id + count)

/-- `Bag.List`: the IDs of the bag, each once. -/
def Bag.List (b : Bag) : List ID :=
  (b.map (·.1)).dedup

/-- The inner loop of `bubbleVotes`:
`for blk.Status().Fetched() && !Consensus.Issued(blk) { blk = blk.Parent() }`. -/
def walkUp (issued : Block → Bool) : Block → Block
  | .missing id => .missing id
  | .block id status parent =>
    if status.Fetched && !issued (.block id status parent) then walkUp issued parent
    else .block id status parent

/-- The body of the loop of `bubbleVotes` for one vote. -/
def bubbleVote (getBlock : ID → Option Block) (issued : Block → Bool) (votes : Bag)
    (bubbledVotes : Bag) (vote : ID) : Bag :=
  let count := Count votes vote
  match getBlock vote with
  | none => bubbledVotes
  | some blk =>
    let blk := walkUp issued blk
    if !blk.Status.Decided && issued blk then AddCount bubbledVotes blk.ID count
    else bubbledVotes

/-- `voter.bubbleVotes` of the snowman engine; `getBlock` is `VM.GetBlock`
(`none` for an error) and `issued` is `Consensus.Issued`. -/
def bubbleVotes (getBlock : ID → Option Block) (issued : Block → Bool) (votes : Bag) : Bag :=
  (Bag.List votes).foldl (bubbleVote getBlock issued votes) []

/-- The chain of a block: the block, its parent, its grandparent, and so on. -/
def chain : Block → List Block
  | .missing id => [.missing id]
  | .block id status parent => .block id status parent :: chain parent

/-- Where the walk of a vote for `blk` ends: the first block of the chain that
is issued or is not fetched. -/
def walkEnd (issued : Block → Bool) (blk : Block) : Option Block :=
  (chain blk).find? (fun b => issued b || !b.Status.Fetched)

/-- The ID that a vote is credited to, if any: the block where the walk from
the voted block ends, when that block is issued and not decided. -/
def creditedTo (getBlock : ID → Option Block) (issued : Block → Bool) (vote : ID) :
    Option ID :=
  match getBlock vote with
  | none => none
  | some blk =>
    match walkEnd issued blk with
    | none => none
    | some b => if issued b && !b.Status.Decided then some b.ID else none

end SnowmanVoter

/-! ## Bootstrap jobs (`snow/engine/*/bootstrap/*_job.go`) -/

namespace Bootstrap

open Choices

/-- `ids.ID`; only equality of IDs is used, so an ID is represented by a number. -/
abbrev ID := Nat

/-- The errors that `Execute` returns: one constructor for each `errors.New` and
`fmt.Errorf` of the three jobs, and `errExternal` for an error that a method of
the decision returned. -/
inductive Error where
  | errMissingDependencies
  | errBadStatus (status : Status)
  | errVerify (cause : Nat)
  | errAccept (cause : Nat)
  | errExternal (cause : Nat)
deriving DecidableEq, Repr

/-- A decision that a job only asks for its ID and status: a parent block, a
parent vertex, a dependency of a transaction, a transaction of a vertex. -/
structure Dep where
  id : ID
  status : Status
deriving DecidableEq, Repr

/-- The methods of the decision that `Execute` may call. -/
inductive Method where
  | Verify
  | Accept
deriving DecidableEq, Repr

/-- What a call of `Execute` did: the error it returned (`none` for nil), the
methods it called on its decision, in order, and the counters it incremented. -/
structure Outcome where
  err : Option Error
  calls : List Method
  numAccepted : Nat
  numDropped : Nat
deriving DecidableEq, Repr

/-- A `snowman.Block` as `blockJob` sees it: its status, its parent, and the
errors (`none` for nil) that its `Verify` and `Accept` return when called. -/
structure Block where
  id : ID
  status : Status
  parent : Dep
  verifyErr : Option Nat
  acceptErr : Option Nat
deriving DecidableEq, Repr

/-- The IDs of the decisions of the list that are not Accepted (an `ids.Set`). -/
def missingOf (deps : List Dep) : List ID :=
  ((deps.filter (fun d => decide (d.status ≠ Status.Accepted))).map (·.id)).dedup

/-- `blockJob.MissingDependencies`. -/
def blockJob.MissingDependencies (blk : Block) : List ID :=
  missingOf [blk.parent]

/-- `blockJob.Execute`. -/
def blockJob.Execute (blk : Block) : Outcome :=
  let deps := blockJob.MissingDependencies blk
  if deps.length ≠ 0 then
    { err := some Error.errMissingDependencies, calls := [], numAccepted := 0, numDropped := 1 }
  else
    match blk.status with
    | Status.Unknown =>
      { err := some (Error.errBadStatus Status.Unknown), calls := [], numAccepted := 0,
        numDropped := 1 }
    | Status.Rejected =>
      { err := some (Error.errBadStatus Status.Rejected), calls := [], numAccepted := 0,
        numDropped := 1 }
    | Status.Processing =>
      match blk.verifyErr with
      | some cause =>
        { err := some (Error.errVerify cause), calls := [Method.Verify], numAccepted := 0,
          numDropped := 0 }
      | none =>
        match blk.acceptErr with
        | some cause =>
          { err := some (Error.errAccept cause), calls := [Method.Verify, Method.Accept],
            numAccepted := 1, numDropped := 0 }
        | none =>
          { err := none, calls := [Method.Verify, Method.Accept], numAccepted := 1,
            numDropped := 0 }
    | Status.Accepted => { err := none, calls := [], numAccepted := 0, numDropped := 0 }

/-- A `snowstorm.Tx` as `txJob` sees it: its status, its dependencies, and the
errors (`none` for nil) that its `Verify` and `Accept` return when called. -/
structure Tx where
  id : ID
  status : Status
  dependencies : List Dep
  verifyErr : Option Nat
  acceptErr : Option Nat
deriving DecidableEq, Repr

/-- `txJob.MissingDependencies`. -/
def txJob.MissingDependencies (tx : Tx) : List ID :=
  missingOf tx.dependencies

/-- `txJob.Execute`; a failure of `Verify` is only logged. -/
def txJob.Execute (tx : Tx) : Outcome :=
  let deps := txJob.MissingDependencies tx
  if deps.length ≠ 0 then
    { err := some Error.errMissingDependencies, calls := [], numAccepted := 0, numDropped := 1 }
  else
    match tx.status with
    | Status.Unknown =>
      { err := some (Error.errBadStatus Status.Unknown), calls := [], numAccepted := 0,
        numDropped := 1 }
    | Status.Rejected =>
      { err := some (Error.errBadStatus Status.Rejected), calls := [], numAccepted := 0,
        numDropped := 1 }
    | Status.Processing =>
      match tx.acceptErr with
      | some cause =>
        { err := some (Error.errAccept cause), calls := [Method.Verify, Method.Accept],
          numAccepted := 1, numDropped := 0 }
      | none =>
        { err := none, calls := [Method.Verify, Method.Accept], numAccepted := 1,
          numDropped := 0 }
    | Status.Accepted => { err := none, calls := [], numAccepted := 0, numDropped := 0 }

/-- An `avalanche.Vertex` as `vertexJob` sees it: its status, the results of
`Parents()` and `Txs()` (an error, or the parents and the transactions), and
the error (`none` for nil) that its `Accept` returns when called. -/
structure Vertex where
  id : ID
  status : Status
  parents : Except Nat (List Dep)
  txs : Except Nat (List Dep)
  acceptErr : Option Nat

/-- `vertexJob.MissingDependencies`: the set, and the error of `Parents()`. -/
def vertexJob.MissingDependencies (vtx : Vertex) : Except Nat (List ID) :=
  match vtx.parents with
  | Except.error cause => Except.error cause
  | Except.ok parents => Except.ok (missingOf parents)

/-- `vertexJob.Execute`. -/
def vertexJob.Execute (vtx : Vertex) : Outcome :=
  match vertexJob.MissingDependencies vtx with
  | Except.error cause =>
    { err := some (Error.errExternal cause), calls := [], numAccepted := 0, numDropped := 0 }
  | Except.ok deps =>
    if deps.length ≠ 0 then
      { err := some Error.errMissingDependencies, calls := [], numAccepted := 0,
        numDropped := 1 }
    else
      match vtx.txs with
      | Except.error cause =>
        { err := some (Error.errExternal cause), calls := [], numAccepted := 0,
          numDropped := 0 }
      | Except.ok txs =>
        if txs.any (fun tx => decide (tx.status ≠ Status.Accepted)) then
          { err := none, calls := [], numAccepted := 0, numDropped := 1 }
        else
          match vtx.status with
          | Status.Unknown =>
            { err := some (Error.errBadStatus Status.Unknown), calls := [], numAccepted := 0,
              numDropped := 1 }
          | Status.Rejected =>
            { err := some (Error.errBadStatus Status.Rejected), calls := [], numAccepted := 0,
              numDropped := 1 }
          | Status.Processing =>
            match vtx.acceptErr with
            | some cause =>
              { err := some (Error.errAccept cause), calls := [Method.Accept],
                numAccepted := 1, numDropped := 0 }
            | none =>
              { err := none, calls := [Method.Accept], numAccepted := 1, numDropped := 0 }
          | Status.Accepted => { err := none, calls := [], numAccepted := 0, numDropped := 0 }

/-- A vertex that is Rejected, has no parents, and has one transaction that is
Processing. -/
def rejectedVertex : Vertex :=
  { id := 1, status := Status.Rejected, parents := Except.ok [],
    txs := Except.ok [{ id := 2, status := Status.Processing }], acceptErr := none }

end Bootstrap

namespace Vertex

/-- The number of parents that an input declares: the `u32` at offset 46, after
the codec (2 bytes), the chain ID (32), the height (8) and the epoch (4). -/
def declaredParents (b : List Byte) : Nat :=
  beDecode ((b.drop 46).take 4)

/-- The number of transactions that an input declares: the `u32` that follows
the declared number of 32-byte parent IDs. -/
def declaredTxs (b : List Byte) : Nat :=
  beDecode ((b.drop (50 + 32 * declaredParents b)).take 4)

end Vertex

/-! ## Flow checker (`vms/components/avax/flow_checker.go`) -/

namespace Avax

/-- `ids.ID` of an asset: only equality of identifiers is used, so an
identifier is represented by the number its bytes denote. -/
abbrev AssetID := Nat

/-- The largest `uint64`, `math.MaxUint64`. -/
def MaxUint64 : Nat := 2 ^ 64 - 1

/-- The errors of the flow checker: the overflow error of `math.Add64` and
`errInsufficientFunds`. -/
inductive Error where
  | errOverflow
  | errInsufficientFunds
deriving DecidableEq, Repr

/-- Modelled from the spec: `math.Add64` of `utils/math`, which is outside the
sources at hand: the sum of two `uint64` values, or 0 and an error when the sum
overflows. -/
def Add64 (a b : Nat) : Nat × Option Error :=
  if a > MaxUint64 - b then (0, some Error.errOverflow) else (a + b, none)

/-- Modelled from the spec: `wrappers.Errs`, which is outside the sources at
hand: it holds the first error added. -/
structure Errs where
  Err : Option Error
deriving DecidableEq, Repr

/-- Modelled from the spec: `Errs.Errored`. -/
def Errs.Errored (e : Errs) : Bool := e.Err.isSome

/-- Modelled from the spec: `Errs.Add`, which keeps the first error. -/
def Errs.Add (e : Errs) (err : Option Error) : Errs :=
  if e.Err.isSome then e else { Err := err }

/-- The struct `FlowChecker`. -/
structure FlowChecker where
  consumed : List (AssetID × Nat)
  produced : List (AssetID × Nat)
  errs : Errs
deriving DecidableEq, Repr

/-- `NewFlowChecker`. -/
def NewFlowChecker : FlowChecker :=
  { consumed := [], produced := [], errs := { Err := none } }

/-- The map update of `FlowChecker.add`: the new map and the error of
`math.Add64`. The read `value[assetID]` of an absent key is 0. -/
def add (value : List (AssetID × Nat)) (assetID : AssetID) (amount : Nat) :
    List (AssetID × Nat) × Option Error :=
  let r := Add64 ((mapGet value assetID).getD 0) amount
  (mapSet value assetID r.1, r.2)

/-- `FlowChecker.Consume`. -/
def FlowChecker.Consume (fc : FlowChecker) (assetID : AssetID) (amount : Nat) : FlowChecker :=
  let r := add fc.consumed assetID amount
  { fc with consumed := r.1, errs := fc.errs.Add r.2 }

/-- `FlowChecker.Produce`. -/
def FlowChecker.Produce (fc : FlowChecker) (assetID : AssetID) (amount : Nat) : FlowChecker :=
  let r := add fc.produced assetID amount
  { fc with produced := r.1, errs := fc.errs.Add r.2 }

/-- The loop of `FlowChecker.Verify` over the entries of `produced`: whether it
meets an asset of which more was produced than consumed. -/
def insufficient (consumed : List (AssetID × Nat)) : List (AssetID × Nat) → Bool
  | [] => false
  | (assetID, producedAssetAmount) :: rest =>
    if producedAssetAmount > (mapGet consumed assetID).getD 0 then true
    else insufficient consumed rest

/-- `FlowChecker.Verify`: the checker afterwards and the returned error. -/
def FlowChecker.Verify (fc : FlowChecker) : FlowChecker × Option Error :=
  let errs :=
    if ¬ fc.errs.Errored then
      if insufficient fc.consumed fc.produced then
        fc.errs.Add (some Error.errInsufficientFunds)
      else fc.errs
    else fc.errs
  ({ fc with errs := errs }, errs.Err)

/-- A call of `Consume` or `Produce`. -/
inductive Flow where
  | consume (assetID : AssetID) (amount : Nat)
  | produce (assetID : AssetID) (amount : Nat)
deriving DecidableEq, Repr

/-- The amount of a call. -/
def Flow.amount : Flow → Nat
  | .consume _ amount => amount
  | .produce _ amount => amount

/-- One call on the checker. -/
def flowStep (fc : FlowChecker) : Flow → FlowChecker
  | .consume assetID amount => fc.Consume assetID amount
  | .produce assetID amount => fc.Produce assetID amount

/-- A sequence of calls on a new checker, in order. -/
def flowRun (calls : List Flow) : FlowChecker :=
  calls.foldl flowStep NewFlowChecker

/-- The total amount of an asset that the calls consume, as a natural number
(no overflow). -/
def totalConsumed (assetID : AssetID) : List Flow → Nat
  | [] => 0
  | .consume a amount :: rest =>
    (if a = assetID then amount else 0) + totalConsumed assetID rest
  | .produce _ _ :: rest => totalConsumed assetID rest

/-- The total amount of an asset that the calls produce, as a natural number
(no overflow). -/
def totalProduced (assetID : AssetID) : List Flow → Nat
  | [] => 0
  | .produce a amount :: rest =>
    (if a = assetID then amount else 0) + totalProduced assetID rest
  | .consume _ _ :: rest => totalProduced assetID rest

/-- What the maps and the error of the checker hold after the calls. -/
structure Tracks (calls : List Flow) (fc : FlowChecker) : Prop where
  consumedKeys : (fc.consumed.map (·.1)).Nodup
  producedKeys : (fc.produced.map (·.1)).Nodup
  errored : fc.errs.Err ≠ none →
    ∃ a, MaxUint64 < totalConsumed a calls ∨ MaxUint64 < totalProduced a calls
  consumed : fc.errs.Err = none → ∀ a,
    (mapGet fc.consumed a).getD 0 = totalConsumed a calls ∧ totalConsumed a calls ≤ MaxUint64
  produced : fc.errs.Err = none → ∀ a,
    (mapGet fc.produced a).getD 0 = totalProduced a calls ∧ totalProduced a calls ≤ MaxUint64

end Avax

/-! ## Add-validator transaction (`vms/platformvm/add_validator_tx.go`) -/

namespace PlatformVM

/-- The errors that `UnsignedAddValidatorTx.Verify` returns. The errors that
wrap the error of a call outside this file carry a number that stands for the
wrapped error. -/
inductive Error where
  | errNilTx
  | errWeightTooSmall
  | errWeightTooLarge
  | errStakeTooShort
  | errStakeTooLong
  | errInsufficientDelegationFee
  | errTooManyShares
  | errOutputsNotSorted
  | errInvalidAmount
  | errOverflow
  | errBaseTx (wrapped : Nat)
  | errValidatorOrOwner (wrapped : Nat)
  | errOutput (wrapped : Nat)
deriving DecidableEq, Repr

/-- Modelled from the spec: the constant `PercentDenominator`, which is outside
the sources at hand. `Shares` is documented as a percentage times 10,000, so
100 percent is 1,000,000. -/
def PercentDenominator : Nat := 1000000

/-- An `avax.TransferableOutput` of the stake, as `Verify` sees it: the result
of `out.Verify()` (the number stands for the error) and `out.Output().Amount()`. -/
structure TransferableOutput where
  verifyErr : Option Nat
  amount : Nat
deriving DecidableEq, Repr

/-- The struct `UnsignedAddValidatorTx`, as `Verify` sees it. The types
`BaseTx`, `Validator` and `verify.Verifiable` are outside the sources at hand;
the record holds what their methods return: `baseTxErr` is the result of
`tx.BaseTx.Verify(ctx, c)`, `validatorErr` and `rewardsOwnerErr` the results of
`Verify()` on the validator and the rewards owner, `duration` the result of
`tx.Validator.Duration()` and `stakeSorted` the result of
`avax.IsSortedTransferableOutputs(tx.Stake, Codec)`. -/
structure UnsignedAddValidatorTx where
  syntacticallyVerified : Bool
  baseTxErr : Option Nat
  Wght : Nat
  duration : Int
  validatorErr : Option Nat
  rewardsOwnerErr : Option Nat
  Stake : List TransferableOutput
  stakeSorted : Bool
  Shares : Nat
deriving DecidableEq, Repr

/-- Modelled from the spec: `verify.All`, which is outside the sources at hand:
the first error among the results of `Verify()` on its arguments. -/
def verifyAll : List (Option Nat) → Option Nat
  | [] => none
  | some err :: _ => some err
  | none :: rest => verifyAll rest

/-- Modelled from the spec: `safemath.Add64`, which is outside the sources at
hand: the sum of two `uint64` values, or an error when the sum overflows. -/
def Add64 (a b : Nat) : Except Error Nat :=
  if a > 2 ^ 64 - 1 - b then Except.error Error.errOverflow else Except.ok (a + b)

/-- The loop of `Verify` over `tx.Stake`: the value of `totalStakeWeight` after
the loop, or the error on which `Verify` returns. -/
def stakeLoop : List TransferableOutput → Nat → Except Error Nat
  | [], totalStakeWeight => Except.ok totalStakeWeight
  | out :: rest, totalStakeWeight =>
    match out.verifyErr with
    | some err => Except.error (Error.errOutput err)
    | none =>
      match Add64 totalStakeWeight out.amount with
      | Except.error err => Except.error err
      | Except.ok newWeight => stakeLoop rest newWeight

/-- `UnsignedAddValidatorTx.Verify`: the transaction afterwards (the method
sets the flag `syntacticallyVerified`) and the returned error. The receiver is
a pointer, `none` being nil. -/
def Verify (tx : Option UnsignedAddValidatorTx) (minStake maxStake : Nat)
    (minStakeDuration maxStakeDuration : Int) (minDelegationFee : Nat) :
    Option UnsignedAddValidatorTx × Option Error :=
  match tx with
  | none => (none, some Error.errNilTx)
  | some tx =>
    if tx.syntacticallyVerified then (some tx, none)
    else if tx.Wght < minStake then (some tx, some Error.errWeightTooSmall)
    else if tx.Wght > maxStake then (some tx, some Error.errWeightTooLarge)
    else if tx.Shares > PercentDenominator then (some tx, some Error.errTooManyShares)
    else if tx.Shares < minDelegationFee then
      (some tx, some Error.errInsufficientDelegationFee)
    else if tx.duration < minStakeDuration then (some tx, some Error.errStakeTooShort)
    else if tx.duration > maxStakeDuration then (some tx, some Error.errStakeTooLong)
    else
      match tx.baseTxErr with
      | some err => (some tx, some (Error.errBaseTx err))
      | none =>
        match verifyAll [tx.validatorErr, tx.rewardsOwnerErr] with
        | some err => (some tx, some (Error.errValidatorOrOwner err))
        | none =>
          match stakeLoop tx.Stake 0 with
          | Except.error err => (some tx, some err)
          | Except.ok totalStakeWeight =>
            if ¬ tx.stakeSorted then (some tx, some Error.errOutputsNotSorted)
            else if totalStakeWeight ≠ tx.Wght then (some tx, some Error.errInvalidAmount)
            else (some { tx with syntacticallyVerified := true }, none)

/-- A transaction that stakes 5 + 5 units for 10 time units with 20,000 shares,
not verified yet. -/
def sampleTx : UnsignedAddValidatorTx :=
  { syntacticallyVerified := false, baseTxErr := none, Wght := 10, duration := 10,
    validatorErr := none, rewardsOwnerErr := none,
    Stake := [{ verifyErr := none, amount := 5 }, { verifyErr := none, amount := 5 }],
    stakeSorted := true, Shares := 20000 }

end PlatformVM

/-! ## Network IDs (`utils/constants/network_ids.go`) -/

namespace Constants

/-- The largest `uint32`, `math.MaxUint32`. -/
def MaxUint32 : Nat := 2 ^ 32 - 1

/-- A byte of a Go string. A Go string is the list of its bytes; indexing and
slicing (`networkName[8:]`) count bytes. -/
abbrev Byte := Fin 256

/-- The UTF-8 encoding of a character. -/
def utf8 (c : Char) : List Byte :=
  if c.toNat < 128 then [Fin.ofNat c.toNat]
  else if c.toNat < 2048 then
    [Fin.ofNat (192 + c.toNat / 64), Fin.ofNat (128 + c.toNat % 64)]
  else if c.toNat < 65536 then
    [Fin.ofNat (224 + c.toNat / 4096), Fin.ofNat (128 + c.toNat / 64 % 64),
      Fin.ofNat (128 + c.toNat % 64)]
  else
    [Fin.ofNat (240 + c.toNat / 262144), Fin.ofNat (128 + c.toNat / 4096 % 64),
      Fin.ofNat (128 + c.toNat / 64 % 64), Fin.ofNat (128 + c.toNat % 64)]

/-- The bytes of a string constant of the source, which Go keeps in UTF-8. -/
def bytesOf (s : String) : List Byte :=
  (s.toList.map utf8).flatten

/-- The map `NetworkIDToNetworkName`. -/
def NetworkIDToNetworkName : List (Nat × List Byte) :=
  [(1, bytesOf "mainnet"), (2, bytesOf "cascade"), (3, bytesOf "denali"),
    (4, bytesOf "everest"), (6, bytesOf "lirax"), (5, bytesOf "fuji"),
    (10, bytesOf "testing"), (12345, bytesOf "local")]

/-- The map `NetworkNameToNetworkID`. -/
def NetworkNameToNetworkID : List (List Byte × Nat) :=
  [(bytesOf "mainnet", 1), (bytesOf "cascade", 2), (bytesOf "denali", 3),
    (bytesOf "everest", 4), (bytesOf "lirax", 6), (bytesOf "fuji", 5),
    (bytesOf "testnet", 5), (bytesOf "testing", 10), (bytesOf "local", 12345)]

/-- Lookup in a map with string keys, `none` when the key is absent. -/
def nameGet : List (List Byte × Nat) → List Byte → Option Nat
  | [], _ => none
  | (k1, v) :: t, k => if k1 = k then some v else nameGet t k

/-- The byte of a decimal digit. -/
def digitByte (d : Nat) : Byte := Fin.ofNat (48 + d)

/-- The decimal digits of `n`, most significant first, with at most `fuel`
digits. -/
def decimalAux : Nat → Nat → List Byte
  | 0, _ => []
  | fuel + 1, n =>
    if n < 10 then [digitByte n] else decimalAux fuel (n / 10) ++ [digitByte (n % 10)]

/-- The verb `%d` of `fmt.Sprintf` on an unsigned integer of at most 64 bits:
its decimal digits (20 digits are enough). -/
def decimal (n : Nat) : List Byte := decimalAux 20 n

/-- Whether the byte is below `utf8.RuneSelf`, that is, an ASCII character. -/
def isASCII (c : Byte) : Bool := c.val < 128

/-- The lower-case form of an ASCII byte: the letters `A` to `Z` move up by
`'a' - 'A'`. -/
def lowerASCII (c : Byte) : Byte :=
  if 65 ≤ c.val ∧ c.val ≤ 90 then c + 32 else c

/-- `strings.ToLower`. A string of ASCII bytes only is mapped byte by byte
(the first branch of the library function). On any other string the library
returns `strings.Map(unicode.ToLower, s)`, which depends on the Unicode tables;
that function is the argument `unicodeLower`. -/
def ToLower (unicodeLower : List Byte → List Byte) (s : List Byte) : List Byte :=
  if s.all isASCII then s.map lowerASCII else unicodeLower s

/-- Whether the byte is a decimal digit. -/
def isDigit (c : Byte) : Bool := decide (48 ≤ c.val) && decide (c.val ≤ 57)

/-- The number that a run of decimal digits denotes. -/
def parseDigits (s : List Byte) : Nat :=
  s.foldl (fun acc c => acc * 10 + (c.val - 48)) 0

/-- `strconv.ParseUint(s, 10, 0)`: the value of a non-empty run of decimal
digits that fits 64 bits; `none` stands for an error. -/
def ParseUint (s : List Byte) : Option Nat :=
  if s = [] then none
  else if s.all isDigit then
    if parseDigits s > 2 ^ 64 - 1 then none else some (parseDigits s)
  else none

/-- `strconv.Atoi(s)` where `int` has 64 bits: an optional sign (`-` is the
byte 45, `+` the byte 43) and a non-empty run of decimal digits, whose value
fits an `int`; `none` stands for an error. -/
def Atoi (s : List Byte) : Option Int :=
  match s with
  | [] => none
  | c :: rest =>
    let digits := if c = 45 ∨ c = 43 then rest else s
    if digits = [] then none
    else if digits.all isDigit then
      if c = 45 then
        if parseDigits digits > 2 ^ 63 then none else some (-(parseDigits digits : Int))
      else
        if parseDigits digits > 2 ^ 63 - 1 then none else some (parseDigits digits : Int)
    else none

/-- Whether the string starts with a match of the expression
`network-[0-9]+`: the bytes of `network-` and then a digit. -/
def matchesHere (s : List Byte) : Bool :=
  (bytesOf "network-").isPrefixOf s && ((s.drop 8).head?.map isDigit).getD false

/-- `ValidNetworkName.MatchString`: whether the expression `network-[0-9]+`
matches somewhere in the string (the expression has no anchors). -/
def MatchString (s : List Byte) : Bool :=
  s.tails.any matchesHere

/-- The errors of `NetworkID`. -/
inductive Error where
  | errNotInRange
  | errParse
deriving DecidableEq, Repr

/-- `NetworkName`. -/
def NetworkName (networkID : Nat) : List Byte :=
  match mapGet NetworkIDToNetworkName networkID with
  | some name => name
  | none => bytesOf "network-" ++ decimal networkID

/-- `NetworkID`, with the function behind `strings.ToLower` on strings that
are not ASCII as its first argument. The slice `networkName[8:]` drops 8
bytes; the conversion `uint32(id)` keeps the low 32 bits. -/
def NetworkID (unicodeLower : List Byte → List Byte) (networkName : List Byte) :
    Except Error Nat :=
  let networkName := ToLower unicodeLower networkName
  match nameGet NetworkNameToNetworkID networkName with
  | some id => Except.ok id
  | none =>
    match ParseUint networkName with
    | some id => if id > MaxUint32 then Except.error Error.errNotInRange
      else Except.ok (id % 2 ^ 32)
    | none =>
      if MatchString networkName then
        match Atoi (networkName.drop 8) with
        | some id => if id > (MaxUint32 : Int) then Except.error Error.errNotInRange
          else Except.ok (id % 2 ^ 32).toNat
        | none => Except.error Error.errParse
      else Except.error Error.errParse

end Constants

/-! ## Poll set (`snow/consensus/avalanche/poll`, spec section 4.D) -/

namespace PollSet

/-- The ID of a validator (`ids.ShortID`), represented by a number. -/
abbrev NodeID := Nat

/-- The ID of a decision (`ids.ID` of a block or vertex), represented by a number. -/
abbrev DecisionID := Nat

/-- Modelled from the spec: a poll of the poll package, whose implementation
(`set.go` and the no-early-termination poll) is outside the sources at hand;
only its tests are. The spec gives a poll the fields `validators`, `votes` and
`responded`, with "every validator in `validators` responds once" and "a poll
terminates when `responded = validators`". Here the validators polled are a
list, and `responses` holds each validator that has responded together with the
votes of its response, so that `responded` is the list of its first components
and the bag of votes is read off its second components. -/
structure Poll where
  validators : List NodeID
  responses : List (NodeID × List DecisionID)
deriving DecidableEq, Repr

/-- Modelled from the spec: the field `responded` of a poll. -/
def Poll.responded (p : Poll) : List NodeID :=
  p.responses.map (·.1)

/-- Modelled from the spec: whether a vote of `vdr` counts, that is `vdr` is a
validator of the poll that has not responded ("responds once"). -/
def Poll.Awaits (p : Poll) (vdr : NodeID) : Bool :=
  decide (vdr ∈ p.validators) && decide (vdr ∉ p.responded)

/-- Modelled from the spec: the record of a response in a poll. -/
def Poll.Vote (p : Poll) (vdr : NodeID) (votes : List DecisionID) : Poll :=
  { p with responses := (vdr, votes) :: p.responses }

/-- Modelled from the spec: the poll of the `NoEarlyTerm` factory "always waits
for all responses": it is finished when every validator has responded. -/
def Poll.Finished (p : Poll) : Bool :=
  p.validators.all (fun v => decide (v ∈ p.responded))

/-- Modelled from the spec: the number of votes for a decision in the
aggregated result, one for each response that names it. -/
def voteCount (result : List (NodeID × List DecisionID)) (d : DecisionID) : Nat :=
  (result.filter (fun r => decide (d ∈ r.2))).length

/-- Modelled from the spec: the poll set, `current: ordered map<requestID, Poll>`. -/
structure Set where
  current : List (Nat × Poll)
deriving DecidableEq, Repr

/-- Modelled from the spec: the poll set of `NewSet`, with no poll. -/
def NewSet : Set := { current := [] }

/-- Modelled from the spec: `add(requestID, validators)`: "fail if requestID
already present; otherwise register". -/
def Set.Add (s : Set) (requestID : Nat) (vdrs : List NodeID) : Set × Bool :=
  match mapGet s.current requestID with
  | some _ => (s, false)
  | none => ({ current := s.current ++ [(requestID, { validators := vdrs, responses := [] })] },
      true)

/-- Modelled from the spec: the replacement of the poll of a request, in place. -/
def replacePoll (current : List (Nat × Poll)) (requestID : Nat) (p : Poll) :
    List (Nat × Poll) :=
  current.map (fun e => if e.1 = requestID then (requestID, p) else e)

/-- Modelled from the spec: `vote(requestID, validator, votes)`: "record; if
this brings the poll to ... full completion, finalize and return the aggregated
bag". A vote for a request without a poll, from a validator that was not
polled, or from one that has responded already, is not recorded. The result is
the set afterwards and, when the poll finishes, its responses. -/
def Set.Vote (s : Set) (requestID : Nat) (vdr : NodeID) (votes : List DecisionID) :
    Set × Option (List (NodeID × List DecisionID)) :=
  match mapGet s.current requestID with
  | none => (s, none)
  | some p =>
    if p.Awaits vdr then
      if (p.Vote vdr votes).Finished then
        ({ current := mapDel s.current requestID }, some (p.Vote vdr votes).responses)
      else ({ current := replacePoll s.current requestID (p.Vote vdr votes) }, none)
    else (s, none)

/-- Modelled from the spec: the number of polls of the set, `Len()`. -/
def Set.Len (s : Set) : Nat := s.current.length

end PollSet

namespace Bootstrap

open Choices

/-- A Processing transaction with an Accepted dependency, whose `Verify` returns
an error and whose `Accept` returns nil. -/
def unverifiedTx : Tx :=
  { id := 1, status := Status.Processing,
    dependencies := [{ id := 2, status := Status.Accepted }],
    verifyErr := some 7, acceptErr := none }

end Bootstrap

/-! ## Benchlist manager (`snow/networking/benchlist/benchlist_manager.go`) -/

namespace Benchlist

/-- `snow.Context`, as `RegisterChain` reads it: the IDs of the chain and of
its subnet, each represented by a number. -/
structure Context where
  ChainID : Nat
  SubnetID : Nat
deriving DecidableEq, Repr

/-- The struct `Config`. The field `Validators` is a `validators.Manager`, which
is outside the sources at hand; it is the table that `GetValidators` looks the
subnet up in. -/
structure Config where
  Validators : List (Nat × ValidatorSet)
  Threshold : Int
  MinimumFailingDuration : Int
  Duration : Int
  MaxPortion : Fraction
deriving DecidableEq, Repr

/-- The struct `benchlistManager`: the benchlist of each registered chain. -/
structure benchlistManager where
  config : Config
  chainBenchlists : List (Nat × queryBenchlist)
deriving DecidableEq, Repr

/-- The errors of `RegisterChain`: `errUnknownValidators` and the error that
`NewQueryBenchlist` passes on from the initialisation of its metrics. -/
inductive ManagerError where
  | errUnknownValidators
  | errMetrics (cause : Nat)
deriving DecidableEq, Repr

/-- `NewManager`. -/
def NewManager (config : Config) : benchlistManager :=
  { config := config, chainBenchlists := [] }

/-- `benchlistManager.RegisterChain`. The argument `metricsErr` is the error
(`none` for nil) that `NewQueryBenchlist` returns, which comes from the
registration of the metrics. -/
def benchlistManager.RegisterChain (bm : benchlistManager) (ctx : Context)
    (metricsErr : Option Nat) : benchlistManager × Option ManagerError :=
  match mapGet bm.chainBenchlists ctx.ChainID with
  | some _ => (bm, none)
  | none =>
    match mapGet bm.config.Validators ctx.SubnetID with
    | none => (bm, some ManagerError.errUnknownValidators)
    | some vdrs =>
      match metricsErr with
      | some cause => (bm, some (ManagerError.errMetrics cause))
      | none =>
        ({ bm with
           chainBenchlists := mapSet bm.chainBenchlists ctx.ChainID
             (NewQueryBenchlist vdrs bm.config.Threshold bm.config.MinimumFailingDuration
               bm.config.Duration bm.config.MaxPortion) },
         none)

/-- `benchlistManager.RegisterQuery`; `now` is the time that the clock of the
benchlist of the chain shows during the call. -/
def benchlistManager.RegisterQuery (bm : benchlistManager) (now : Int) (chainID : Nat)
    (validatorID : ShortID) (requestID : Nat) (msgType : Nat) : benchlistManager × Bool :=
  match mapGet bm.chainBenchlists chainID with
  | none => (bm, false)
  | some chain =>
    let res := Benchlist.RegisterQuery { chain with clock := now } validatorID requestID msgType
    ({ bm with chainBenchlists := mapSet bm.chainBenchlists chainID res.1 }, res.2)

/-- `benchlistManager.RegisterResponse`. -/
def benchlistManager.RegisterResponse (bm : benchlistManager) (now : Int) (chainID : Nat)
    (validatorID : ShortID) (requestID : Nat) : benchlistManager :=
  match mapGet bm.chainBenchlists chainID with
  | none => bm
  | some chain =>
    { bm with
      chainBenchlists := mapSet bm.chainBenchlists chainID
        (Benchlist.RegisterResponse { chain with clock := now } validatorID requestID) }

/-- `benchlistManager.QueryFailed`; `rnd` is the value that `rand.Float64()`
returns should the benchlist draw one. -/
def benchlistManager.QueryFailed (bm : benchlistManager) (now : Int) (chainID : Nat)
    (validatorID : ShortID) (requestID : Nat) (rnd : Fraction) : benchlistManager :=
  match mapGet bm.chainBenchlists chainID with
  | none => bm
  | some chain =>
    { bm with
      chainBenchlists := mapSet bm.chainBenchlists chainID
        (Benchlist.QueryFailed { chain with clock := now } validatorID requestID rnd) }

/-- The struct `noBenchlist`, which has no field. -/
structure noBenchlist where
deriving DecidableEq, Repr

/-- `NewNoBenchlist`. -/
def NewNoBenchlist : noBenchlist := {}

/-- `noBenchlist.RegisterChain`. -/
def noBenchlist.RegisterChain (_ : noBenchlist) (_ : Context) : Option ManagerError := none

/-- `noBenchlist.RegisterQuery`. -/
def noBenchlist.RegisterQuery (_ : noBenchlist) (_ : Nat) (_ : ShortID) (_ : Nat) (_ : Nat) :
    Bool := true

/-- `noBenchlist.RegisterResponse`, which does nothing. -/
def noBenchlist.RegisterResponse (nb : noBenchlist) (_ : Nat) (_ : ShortID) (_ : Nat) :
    noBenchlist := nb

/-- `noBenchlist.QueryFailed`, which does nothing. -/
def noBenchlist.QueryFailed (nb : noBenchlist) (_ : Nat) (_ : ShortID) (_ : Nat) :
    noBenchlist := nb

/-- A call on the benchlist manager. -/
inductive ManagerCall where
  | registerChain (ctx : Context) (metricsErr : Option Nat)
  | registerQuery (now : Int) (chainID : Nat) (validatorID : ShortID) (requestID : Nat)
      (msgType : Nat)
  | registerResponse (now : Int) (chainID : Nat) (validatorID : ShortID) (requestID : Nat)
  | queryFailed (now : Int) (chainID : Nat) (validatorID : ShortID) (requestID : Nat)
      (rnd : Fraction)
deriving DecidableEq, Repr

/-- Whether the call is `RegisterChain` for the chain. -/
def ManagerCall.registers (chainID : Nat) : ManagerCall → Bool
  | .registerChain ctx _ => decide (ctx.ChainID = chainID)
  | _ => false

/-- One call on the manager. -/
def managerStep (bm : benchlistManager) : ManagerCall → benchlistManager
  | .registerChain ctx metricsErr => (bm.RegisterChain ctx metricsErr).1
  | .registerQuery now chainID v r t => (bm.RegisterQuery now chainID v r t).1
  | .registerResponse now chainID v r => bm.RegisterResponse now chainID v r
  | .queryFailed now chainID v r rnd => bm.QueryFailed now chainID v r rnd

/-- A sequence of calls on the manager, in order. -/
def managerRun (bm : benchlistManager) (calls : List ManagerCall) : benchlistManager :=
  calls.foldl managerStep bm

end Benchlist

namespace SnowmanVoter

/-- `Bag.Len`: the number of votes in the bag, the sum of the counts of its IDs. -/
def Bag.Len (b : Bag) : Nat :=
  ((Bag.List b).map (Count b)).sum

end SnowmanVoter

/-! ## Snowman issuer (`snow/engine/snowman/issuer.go`) -/

namespace SnowmanIssuer

/-- `ids.ID`; only equality of IDs is used, so an ID is represented by a number. -/
abbrev ID := Nat

/-- The calls that the issuer makes on parts of the engine that are outside the
sources at hand: `t.blocked.Abandon(blkID)` and `t.deliver(blk)`. -/
inductive Effect where
  | blockedAbandon (blkID : ID)
  | deliver (blkID : ID)
deriving DecidableEq, Repr

/-- The engine `Transitive` as the issuer sees it: the set `pending`, whether
`errs` holds an error, and the calls that the issuer has made on the engine so
far, oldest first. -/
structure Engine where
  pending : List ID
  errored : Bool
  effects : List Effect
deriving DecidableEq, Repr

/-- The struct `issuer`; `blk` is the ID of its block. -/
structure issuer where
  blk : ID
  abandoned : Bool
  deps : List ID
deriving DecidableEq, Repr

/-- `issuer.Abandon`. -/
def issuer.Abandon (i : issuer) (t : Engine) (_ : ID) : issuer × Engine :=
  if ¬ i.abandoned then
    ({ i with abandoned := true },
     { t with
       pending := t.pending.erase i.blk
       effects := t.effects ++ [Effect.blockedAbandon i.blk] })
  else ({ i with abandoned := true }, t)

/-- `issuer.Update`; `deliverErr` is the error (`none` for nil) that `t.deliver`
returns if it is called. -/
def issuer.Update (i : issuer) (t : Engine) (deliverErr : Option Nat) : issuer × Engine :=
  if i.abandoned ∨ i.deps.length ≠ 0 ∨ t.errored then (i, t)
  else
    (i, { t with
          errored := deliverErr.isSome
          effects := t.effects ++ [Effect.deliver i.blk] })

/-- `issuer.Fulfill`. -/
def issuer.Fulfill (i : issuer) (t : Engine) (id : ID) (deliverErr : Option Nat) :
    issuer × Engine :=
  issuer.Update { i with deps := i.deps.erase id } t deliverErr

/-- A call on the issuer. -/
inductive Call where
  | fulfill (id : ID) (deliverErr : Option Nat)
  | abandon (id : ID)
  | update (deliverErr : Option Nat)
deriving DecidableEq, Repr

/-- One call on the issuer. -/
def step (s : issuer × Engine) : Call → issuer × Engine
  | .fulfill id deliverErr => s.1.Fulfill s.2 id deliverErr
  | .abandon id => s.1.Abandon s.2 id
  | .update deliverErr => s.1.Update s.2 deliverErr

/-- A sequence of calls on the issuer, in order. -/
def run (s : issuer × Engine) (calls : List Call) : issuer × Engine :=
  calls.foldl step s

end SnowmanIssuer

/-! ## Snowman voter step (`voter.Update` of `snow/engine/snowman/voter.go`) -/

namespace SnowmanVoter

/-- `ids.Empty`, the zero ID. -/
def Empty : ID := 0

/-- The calls that `voter.Update` makes on the engine, whose parts (the poll
set, the consensus instance, the VM, `repoll`) are outside the sources at hand. -/
inductive Effect where
  | pollsDrop (requestID : Nat) (vdr : Nat)
  | pollsVote (requestID : Nat) (vdr : Nat) (response : ID)
  | recordPoll (results : Bag)
  | errsAdd (cause : Nat)
  | setPreference
  | repoll
deriving DecidableEq, Repr

/-- The struct `voter`, without its engine. -/
structure voter where
  vdr : Nat
  requestID : Nat
  response : ID
  deps : List ID
deriving DecidableEq, Repr

/-- The engine as `voter.Update` sees it, through what its calls return:
`errored` is `t.errs.Errored()`, `pollResult` what `polls.Drop` or `polls.Vote`
returns, `getBlock` is `VM.GetBlock`, `issued` is `Consensus.Issued`,
`recordPollErr` the error (`none` for nil) of `Consensus.RecordPoll`, and
`finalized` is `Consensus.Finalized()`. -/
structure Engine where
  errored : Bool
  pollResult : Bag × Bool
  getBlock : ID → Option Block
  issued : Block → Bool
  recordPollErr : Option Nat
  finalized : Bool

/-- `voter.Update`: the calls it makes on the engine, in order. -/
def voter.Update (v : voter) (t : Engine) : List Effect :=
  if v.deps.length ≠ 0 ∨ t.errored then []
  else
    let register :=
      if v.response = Empty then Effect.pollsDrop v.requestID v.vdr
      else Effect.pollsVote v.requestID v.vdr v.response
    let results := t.pollResult.1
    let finished := t.pollResult.2
    if ¬ finished then [register]
    else
      let results := bubbleVotes t.getBlock t.issued results
      match t.recordPollErr with
      | some cause => [register, Effect.recordPoll results, Effect.errsAdd cause]
      | none =>
        if t.finalized then [register, Effect.recordPoll results, Effect.setPreference]
        else [register, Effect.recordPoll results, Effect.setPreference, Effect.repoll]

/-- Whether the call is a call of `Consensus.RecordPoll`. -/
def Effect.isRecordPoll : Effect → Bool
  | .recordPoll _ => true
  | _ => false

/-- Whether the call registers the response with the poll set. -/
def Effect.isPolls : Effect → Bool
  | .pollsDrop _ _ => true
  | .pollsVote _ _ _ => true
  | _ => false

end SnowmanVoter

/-! ## Best uniform sampler (`utils/sampler/uniform_best.go`) -/

namespace Sampler

/-- The largest `time.Duration`, `math.MaxInt64`. -/
def MaxInt64 : Int := 2 ^ 63 - 1

/-- The smallest `time.Duration`. -/
def MinInt64 : Int := -(2 ^ 63)

/-- `time.Time.Sub` on times in nanoseconds: the difference, or the largest
(smallest) duration when the difference does not fit a duration. -/
def Sub (t u : Int) : Int :=
  if t - u > MaxInt64 then MaxInt64 else if t - u < MinInt64 then MinInt64 else t - u

/-- The error of `uniformBest.Initialize`. -/
inductive Error where
  | errNoValidUniformSamplers
deriving DecidableEq, Repr

/-- The interface `Uniform` as `uniformBest.Initialize` uses a candidate; the
implementations are outside the sources at hand. `InitializeErr length` tells
whether `Initialize(length)` returns an error, and `SampleErr size i` whether
call number `i` (from 0) of `Sample(size)` after it returns an error. -/
structure Uniform where
  InitializeErr : Nat → Bool
  SampleErr : Int → Nat → Bool

/-- The struct `uniformBest`. The field `Uniform` is the position in `samplers`
of the sampler chosen (`none` for nil). The field `clock` gives, for the position
of a sampler, the times that `s.clock.Time()` returns before and after its
benchmark. -/
structure uniformBest where
  Uniform : Option Nat
  samplers : List Sampler.Uniform
  maxSampleSize : Int
  benchmarkIterations : Int
  clock : Nat → Int × Int

/-- The local variable `sampleSize` of `Initialize`: `maxSampleSize`, or
`int(length)` when `length < uint64(maxSampleSize)`; both conversions keep the
64 bits. -/
def sampleSizeOf (maxSampleSize : Int) (length : Nat) : Int :=
  if (length : Int) < maxSampleSize % 2 ^ 64 then ((length : Int) + 2 ^ 63) % 2 ^ 64 - 2 ^ 63
  else maxSampleSize

/-- The benchmark loop of `Initialize`, `remaining` iterations from iteration
`i`: whether every call of `Sample(sampleSize)` returns no error. -/
def benchmark (sampler : Uniform) (sampleSize : Int) : Nat → Nat → Bool
  | 0, _ => true
  | remaining + 1, i =>
    if sampler.SampleErr sampleSize i then false
    else benchmark sampler sampleSize remaining (i + 1)

/-- The loop `samplerLoop` of `Initialize` over the samplers from position
`idx` on: the values of `bestDuration` and of `s.Uniform` after the loop. -/
def samplerLoop (clock : Nat → Int × Int) (length : Nat) (sampleSize : Int)
    (benchmarkIterations : Int) : List Uniform → Nat → Int → Option Nat → Int × Option Nat
  | [], _, bestDuration, best => (bestDuration, best)
  | sampler :: rest, idx, bestDuration, best =>
    if sampler.InitializeErr length then
      samplerLoop clock length sampleSize benchmarkIterations rest (idx + 1) bestDuration best
    else if ¬ benchmark sampler sampleSize benchmarkIterations.toNat 0 then
      samplerLoop clock length sampleSize benchmarkIterations rest (idx + 1) bestDuration best
    else
      let duration := Sub (clock idx).2 (clock idx).1
      if duration < bestDuration then
        samplerLoop clock length sampleSize benchmarkIterations rest (idx + 1) duration
          (some idx)
      else
        samplerLoop clock length sampleSize benchmarkIterations rest (idx + 1) bestDuration
          best

/-- `uniformBest.Initialize`: the sampler afterwards and the returned error. -/
def uniformBest.Initialize (s : uniformBest) (length : Nat) : uniformBest × Option Error :=
  let sampleSize := sampleSizeOf s.maxSampleSize length
  let r := samplerLoop s.clock length sampleSize s.benchmarkIterations s.samplers 0 MaxInt64
    none
  match r.2 with
  | none => ({ s with Uniform := none }, some Error.errNoValidUniformSamplers)
  | some idx => ({ s with Uniform := some idx }, none)

/-- A candidate qualifies: it initialises for the length and completes all
benchmark iterations of `Sample(size)` without error. -/
def qualifies (length : Nat) (size : Int) (iterations : Int) (c : Uniform) : Prop :=
  c.InitializeErr length = false ∧ ∀ i < iterations.toNat, c.SampleErr size i = false

/-- The benchmark duration measured for the candidate at a position. -/
def measured (clock : Nat → Int × Int) (idx : Nat) : Int :=
  Sub (clock idx).2 (clock idx).1

/-- A candidate that never fails. -/
def steady : Uniform :=
  { InitializeErr := fun _ => false, SampleErr := fun _ _ => false }

/-- A candidate that fails to sample a negative number of elements. -/
def strict : Uniform :=
  { InitializeErr := fun _ => false, SampleErr := fun size _ => decide (size < 0) }

/-- A candidate that fails to initialise. -/
def broken : Uniform :=
  { InitializeErr := fun _ => true, SampleErr := fun _ _ => false }

/-- A sampler with the single candidate `steady`, whose benchmark the clock
measures as the largest duration. -/
def slowBest : uniformBest :=
  { Uniform := none, samplers := [steady], maxSampleSize := 1, benchmarkIterations := 100,
    clock := fun _ => (0, 2 ^ 63 - 1) }

/-- A sampler with the single candidate `strict` and a negative `maxSampleSize`. -/
def negativeBest : uniformBest :=
  { Uniform := none, samplers := [strict], maxSampleSize := -1, benchmarkIterations := 100,
    clock := fun _ => (0, 5) }

/-- A sampler with three candidates: the first fails to initialise, the second
takes 7 time units and the third 5. -/
def sampleBest : uniformBest :=
  { Uniform := none, samplers := [broken, steady, steady], maxSampleSize := 3,
    benchmarkIterations := 100, clock := fun idx => (0, if idx = 1 then 7 else 5) }

end Sampler

/-! ## Lemmas on maps -/

theorem mapGet_mapDel_self {V : Type} (m : List (Nat × V)) (k : Nat) :
    mapGet (mapDel m k) k = none := by
  induction m with
  | nil => rfl
  | cons p t ih =>
    obtain ⟨k', v⟩ := p
    by_cases h : k' = k
    · simpa [mapDel, List.filter, h] using ih
    · simpa [mapDel, List.filter, h, mapGet] using ih

theorem mapGet_mapDel_ne {V : Type} (m : List (Nat × V)) {k k' : Nat} (h : k' ≠ k) :
    mapGet (mapDel m k) k' = mapGet m k' := by
  induction m with
  | nil => rfl
  | cons p t ih =>
    obtain ⟨k0, v⟩ := p
    by_cases h0 : k0 = k
    · have h1 : ¬ k0 = k' := fun e => h (e ▸ h0)
      simpa [mapDel, List.filter, h0, mapGet, h1, Ne.symm h] using ih
    · by_cases h1 : k0 = k'
      · subst h1
        simp [mapDel, List.filter, h0, mapGet]
      · simpa [mapDel, List.filter, h0, mapGet, h1] using ih

theorem mapGet_mapSet_self {V : Type} (m : List (Nat × V)) (k : Nat) (v : V) :
    mapGet (mapSet m k v) k = some v := by
  simp [mapSet, mapGet]

theorem mapGet_mapSet_ne {V : Type} (m : List (Nat × V)) {k k' : Nat} (v : V) (h : k' ≠ k) :
    mapGet (mapSet m k v) k' = mapGet m k' := by
  simp [mapSet, mapGet, Ne.symm h, mapGet_mapDel_ne m h]

namespace Vertex

/-! ## Lemmas on the big-endian encoding -/

theorem beBytes_length (k n : Nat) : (beBytes k n).length = k := by
  induction k with
  | zero => rfl
  | succ k ih => simp [beBytes, ih]

theorem beDecode_lt (l : List Byte) : beDecode l < 256 ^ l.length := by
  induction l with
  | nil => simp [beDecode]
  | cons b t ih =>
    have hb : b.val < 256 := b.isLt
    simp only [beDecode, List.length_cons, pow_succ]
    have hpos : 0 < 256 ^ t.length := by positivity
    nlinarith

theorem beDecode_beBytes (k n : Nat) : beDecode (beBytes k n) = n % 256 ^ k := by
  induction k with
  | zero => simp [beBytes, beDecode, Nat.mod_one]
  | succ k ih =>
    simp only [beBytes, beDecode, beBytes_length, ih, pow_succ]
    rw [Nat.mod_mul]
    ring

theorem beBytes_add_mul (k n m : Nat) : beBytes k (n + m * 256 ^ k) = beBytes k n := by
  induction k generalizing m with
  | zero => rfl
  | succ k ih =>
    simp only [beBytes]
    have h1 : n + m * 256 ^ (k + 1) = n + (m * 256) * 256 ^ k := by ring
    rw [h1, ih (m * 256)]
    congr 1
    apply Fin.ext
    simp only
    rw [Nat.add_mul_div_right _ _ (by positivity), Nat.add_mul_mod_self_right]

theorem beBytes_mod (k n : Nat) : beBytes k (n % 256 ^ k) = beBytes k n := by
  conv_rhs => rw [← Nat.mod_add_div n (256 ^ k)]
  rw [mul_comm (256 ^ k), beBytes_add_mul]

theorem beBytes_beDecode (l : List Byte) : beBytes l.length (beDecode l) = l := by
  induction l with
  | nil => rfl
  | cons b t ih =>
    have hlt := beDecode_lt t
    have hpos : 0 < 256 ^ t.length := by positivity
    simp only [List.length_cons, beBytes, beDecode]
    have h1 : b.val * 256 ^ t.length + beDecode t = beDecode t + b.val * 256 ^ t.length := by
      ring
    refine congrArg₂ List.cons (Fin.ext ?_) ?_
    · simp only
      rw [h1, Nat.add_mul_div_right _ _ hpos, Nat.div_eq_of_lt hlt, Nat.zero_add]
      exact Nat.mod_eq_of_lt b.isLt
    · rw [h1, beBytes_add_mul, ih]

/-! ## Lemmas on packing -/

theorem pack_errored (p : Packer) (d : List Byte) (h : p.Err.isSome = true) :
    p.PackFixedBytes d = p := by
  simp [Packer.PackFixedBytes, Packer.Expand, Packer.Errored, h]

theorem pack_written (M : Nat) (c d : List Byte) (h : c.length + d.length ≤ M) :
    (written M c).PackFixedBytes d = written M (c ++ d) := by
  unfold Packer.PackFixedBytes Packer.Expand written Packer.Errored
  by_cases hd : d.length = 0
  · have hnil : d = [] := List.length_eq_zero.mp hd
    subst hnil
    simp
  · have h1 : ¬ d.length + c.length ≤ c.length := by omega
    have h2 : ¬ d.length + c.length > M := by omega
    simp [h1, h2]

theorem pack_written_over (M : Nat) (c d : List Byte) (hc : c.length ≤ M)
    (h : M < c.length + d.length) :
    ((written M c).PackFixedBytes d).Err = some Error.errBadLength := by
  unfold Packer.PackFixedBytes Packer.Expand written Packer.Errored Packer.Add
  have h1 : ¬ d.length + c.length ≤ c.length := by omega
  have h2 : d.length + c.length > M := by omega
  simp [h1, h2]

theorem packChunks_errored (cs : List (List Byte)) (p : Packer) (h : p.Err.isSome = true) :
    packChunks cs p = p := by
  induction cs with
  | nil => rfl
  | cons d rest ih =>
    unfold packChunks at ih ⊢
    rw [List.foldl_cons, pack_errored p d h]
    exact ih

theorem packChunks_written (M : Nat) (cs : List (List Byte)) :
    ∀ c : List Byte, c.length ≤ M →
      (c.length + cs.flatten.length ≤ M →
        packChunks cs (written M c) = written M (c ++ cs.flatten)) ∧
      (M < c.length + cs.flatten.length →
        (packChunks cs (written M c)).Err.isSome = true) := by
  induction cs with
  | nil =>
    intro c hc
    refine ⟨fun _ => by simp [packChunks], fun h => ?_⟩
    simp at h
    omega
  | cons d rest ih =>
    intro c hc
    have hstep : packChunks (d :: rest) (written M c) =
        packChunks rest ((written M c).PackFixedBytes d) := rfl
    rw [hstep]
    simp only [List.flatten_cons, List.length_append]
    by_cases hd : c.length + d.length ≤ M
    · rw [pack_written M c d hd]
      have hcd : (c ++ d).length ≤ M := by simpa using hd
      obtain ⟨ih1, ih2⟩ := ih (c ++ d) hcd
      refine ⟨fun h => ?_, fun h => ?_⟩
      · rw [ih1 (by simp only [List.length_append]; omega), List.append_assoc]
      · exact ih2 (by simp only [List.length_append]; omega)
    · have herr := pack_written_over M c d hc (by omega)
      have hsome : ((written M c).PackFixedBytes d).Err.isSome = true := by simp [herr]
      rw [packChunks_errored rest _ hsome]
      exact ⟨fun h => absurd h (by omega), fun _ => hsome⟩

theorem packParents_eq (ps : List ID) (p : Packer) :
    packParents ps p = packChunks (ps.map (·.val)) p := by
  induction ps generalizing p with
  | nil => rfl
  | cons a rest ih => exact ih _

theorem packTxs_eq (ts : List Tx) (p : Packer) : packTxs ts p = packChunks (txChunks ts) p := by
  induction ts generalizing p with
  | nil => rfl
  | cons a rest ih => exact ih _

theorem Marshal_eq (vtx : innerVertex) :
    Marshal vtx =
      match (packChunks (chunks vtx) (written maxSize [])).Err with
      | some err => Except.error err
      | none => Except.ok (packChunks (chunks vtx) (written maxSize [])).Bytes := by
  unfold Marshal
  simp only [packParents_eq, packTxs_eq]
  simp only [chunks, packChunks, List.foldl_append, List.foldl_cons, List.foldl_nil,
    Packer.PackShort, Packer.PackInt, Packer.PackLong, List.cons_append, List.nil_append]
  rfl

theorem beBytes_mod32 (n : Nat) : beBytes 4 (n % 2 ^ 32) = beBytes 4 n := by
  have h := beBytes_mod 4 n
  norm_num at h ⊢
  exact h

theorem beBytes_mod64 (n : Nat) : beBytes 8 (n % 2 ^ 64) = beBytes 8 n := by
  have h := beBytes_mod 8 n
  norm_num at h ⊢
  exact h

theorem encodeParents_eq (ps : List ID) : (ps.map (·.val)).flatten = encodeParents ps := by
  induction ps with
  | nil => rfl
  | cons a rest ih =>
    rw [List.map_cons, List.flatten_cons, ih]
    rfl

theorem encodeTxs_eq (ts : List Tx) : (txChunks ts).flatten = encodeTxs ts := by
  induction ts with
  | nil => rfl
  | cons a rest ih =>
    simp only [txChunks, List.flatten_cons, ih, encodeTxs, beBytes_mod32, List.append_assoc]

theorem chunks_flatten (vtx : innerVertex) : (chunks vtx).flatten = wire vtx 0 := by
  simp only [chunks, wire, List.flatten_append, List.flatten_cons, List.flatten_nil,
    encodeParents_eq, encodeTxs_eq, beBytes_mod32, beBytes_mod64, List.append_assoc,
    List.append_nil, List.cons_append, List.nil_append]

/-- `Marshal` succeeds exactly when the wire format of the vertex (with epoch 0)
fits in `maxSize`, and then returns it. -/
theorem Marshal_ok_iff (vtx : innerVertex) (bs : List Byte) :
    Marshal vtx = Except.ok bs ↔ bs = wire vtx 0 ∧ (wire vtx 0).length ≤ maxSize := by
  rw [Marshal_eq]
  obtain ⟨h1, h2⟩ := packChunks_written maxSize (chunks vtx) [] (Nat.zero_le _)
  rw [chunks_flatten] at h1 h2
  simp only [List.length_nil, Nat.zero_add, List.nil_append] at h1 h2
  by_cases hlen : (wire vtx 0).length ≤ maxSize
  · rw [h1 hlen]
    simp only [written, Except.ok.injEq]
    constructor
    · intro h; exact ⟨h.symm, hlen⟩
    · intro h; exact h.1.symm
  · have h3 := h2 (by omega)
    cases herr : (packChunks (chunks vtx) (written maxSize [])).Err with
    | none => rw [herr] at h3; simp at h3
    | some e =>
      simp only
      constructor
      · intro h; cases h
      · intro h; exact absurd h.2 hlen

/-! ## Lemmas on unpacking -/

theorem reader_add_some (e : Error) (x : Option Error) (b : List Byte) (o : Nat) :
    (reader (some e) b o).Add x = reader (some e) b o := by
  simp [Packer.Add, reader]

theorem reader_add_none (x : Option Error) (b : List Byte) (o : Nat) :
    (reader none b o).Add x = reader x b o := by
  simp [Packer.Add, reader]

theorem unpack_errored (e : Error) (b : List Byte) (o n : Nat) :
    (reader (some e) b o).UnpackFixedBytes n = (reader (some e) b o, []) := by
  simp [Packer.UnpackFixedBytes, Packer.CheckSpace, Packer.Add, Packer.Errored, reader]

theorem unpack_ok (b : List Byte) (o n : Nat) (h : o + n ≤ b.length) :
    (reader none b o).UnpackFixedBytes n = (reader none b (o + n), (b.drop o).take n) := by
  have h1 : ¬ b.length < o + n := by omega
  simp [Packer.UnpackFixedBytes, Packer.CheckSpace, Packer.Errored, reader, h1]

theorem unpack_short (b : List Byte) (o n : Nat) (h : b.length < o + n) :
    (reader none b o).UnpackFixedBytes n = (reader (some Error.errBadLength) b o, []) := by
  simp [Packer.UnpackFixedBytes, Packer.CheckSpace, Packer.Add, Packer.Errored, reader, h]

theorem unpackInt_errored (e : Error) (b : List Byte) (o : Nat) :
    (reader (some e) b o).UnpackInt = (reader (some e) b o, 0) := by
  simp [Packer.UnpackInt, unpack_errored, beDecode]

theorem unpackLong_errored (e : Error) (b : List Byte) (o : Nat) :
    (reader (some e) b o).UnpackLong = (reader (some e) b o, 0) := by
  simp [Packer.UnpackLong, unpack_errored, beDecode]

theorem unpackParents_errored (e : Error) (b : List Byte) (o n : Nat) :
    unpackParents n (reader (some e) b o) = (reader (some e) b o, []) := by
  cases n <;> simp [unpackParents, Packer.Errored, reader]

theorem unpackTxs_errored (parseTx : List Byte → Except Error Tx) (e : Error) (b : List Byte)
    (o n : Nat) : unpackTxs parseTx n (reader (some e) b o) = (reader (some e) b o, []) := by
  cases n <;> simp [unpackTxs, Packer.Errored, reader]

theorem drop_split (b : List Byte) (o n : Nat) (h : o + n ≤ b.length) :
    b.drop o = (b.drop o).take n ++ b.drop (o + n) ∧ ((b.drop o).take n).length = n := by
  refine ⟨?_, ?_⟩
  · rw [← List.drop_drop, List.take_append_drop]
  · rw [List.length_take, List.length_drop]
    omega

theorem ToID_of_length (bs : List Byte) (h : bs.length = 32) : ToID bs = (⟨bs, h⟩, none) := by
  simp [ToID, h]

theorem unpackParents_ok (b : List Byte) :
    ∀ (n o : Nat), o ≤ b.length → (unpackParents n (reader none b o)).1.Err = none →
      ∃ o1, (unpackParents n (reader none b o)).1 = reader none b o1 ∧ o1 ≤ b.length ∧
        (unpackParents n (reader none b o)).2.length = n ∧
        b.drop o = encodeParents (unpackParents n (reader none b o)).2 ++ b.drop o1 := by
  intro n
  induction n with
  | zero =>
    intro o ho _
    exact ⟨o, rfl, ho, rfl, by simp [unpackParents, encodeParents]⟩
  | succ n ih =>
    intro o ho herr
    have hne : (reader none b o).Errored = false := rfl
    rw [unpackParents] at herr ⊢
    simp only [hne, Bool.false_eq_true, if_false] at herr ⊢
    by_cases hsp : o + HashLen ≤ b.length
    · obtain ⟨hd1, hd2⟩ := drop_split b o HashLen hsp
      rw [unpack_ok b o HashLen hsp] at herr ⊢
      simp only [ToID_of_length _ hd2, reader_add_none] at herr ⊢
      obtain ⟨o1, h1, h2, h3, h4⟩ := ih (o + HashLen) hsp herr
      refine ⟨o1, h1, h2, by simp [h3], ?_⟩
      simp only [encodeParents, List.append_assoc, ← h4]
      exact hd1
    · have hshort := unpack_short b o HashLen (by omega)
      simp only [hshort, reader_add_some, unpackParents_errored] at herr
      exact absurd herr (by simp [reader])

theorem unpackInt_ok (b : List Byte) (o : Nat) (h : o + 4 ≤ b.length) :
    (reader none b o).UnpackInt = (reader none b (o + 4), beDecode ((b.drop o).take 4)) := by
  simp [Packer.UnpackInt, unpack_ok b o 4 h]

theorem unpackInt_short (b : List Byte) (o : Nat) (h : b.length < o + 4) :
    (reader none b o).UnpackInt = (reader (some Error.errBadLength) b o, 0) := by
  simp [Packer.UnpackInt, unpack_short b o 4 h, beDecode]

theorem unpackLong_ok (b : List Byte) (o : Nat) (h : o + 8 ≤ b.length) :
    (reader none b o).UnpackLong = (reader none b (o + 8), beDecode ((b.drop o).take 8)) := by
  simp [Packer.UnpackLong, unpack_ok b o 8 h]

theorem unpackLong_short (b : List Byte) (o : Nat) (h : b.length < o + 8) :
    (reader none b o).UnpackLong = (reader (some Error.errBadLength) b o, 0) := by
  simp [Packer.UnpackLong, unpack_short b o 8 h, beDecode]

theorem unpackShort_ok (b : List Byte) (o : Nat) (h : o + 2 ≤ b.length) :
    (reader none b o).UnpackShort = (reader none b (o + 2), beDecode ((b.drop o).take 2)) := by
  simp [Packer.UnpackShort, unpack_ok b o 2 h]

theorem unpackShort_short (b : List Byte) (o : Nat) (h : b.length < o + 2) :
    (reader none b o).UnpackShort = (reader (some Error.errBadLength) b o, 0) := by
  simp [Packer.UnpackShort, unpack_short b o 2 h, beDecode]

theorem unpackBytes_errored (e : Error) (b : List Byte) (o : Nat) :
    (reader (some e) b o).UnpackBytes = (reader (some e) b o, []) := by
  simp [Packer.UnpackBytes, unpackInt_errored, unpack_errored]

theorem unpackTxs_ok (parseTx : List Byte → Except Error Tx) (hvm : FaithfulVM parseTx)
    (b : List Byte) :
    ∀ (n o : Nat), o ≤ b.length → (unpackTxs parseTx n (reader none b o)).1.Err = none →
      ∃ o1, (unpackTxs parseTx n (reader none b o)).1 = reader none b o1 ∧ o1 ≤ b.length ∧
        (unpackTxs parseTx n (reader none b o)).2.length = n ∧
        b.drop o = encodeTxs (unpackTxs parseTx n (reader none b o)).2 ++ b.drop o1 := by
  intro n
  induction n with
  | zero =>
    intro o ho _
    exact ⟨o, rfl, ho, rfl, by simp [unpackTxs, encodeTxs]⟩
  | succ n ih =>
    intro o ho herr
    have hne : (reader none b o).Errored = false := rfl
    rw [unpackTxs] at herr ⊢
    simp only [hne, Bool.false_eq_true, if_false] at herr ⊢
    have hbad : ∀ (e : Error) (bs : List Byte) (o2 : Nat),
        (match parseTx bs with
          | Except.error err => unpackTxs parseTx n ((reader (some e) b o2).Add (some err))
          | Except.ok tx =>
            ((unpackTxs parseTx n (reader (some e) b o2)).1,
              tx :: (unpackTxs parseTx n (reader (some e) b o2)).2)).1.Err = none → False := by
      intro e bs o2 h
      cases hp : parseTx bs with
      | error err =>
        simp only [hp, reader_add_some, unpackTxs_errored] at h
        exact absurd h (by simp [reader])
      | ok tx =>
        simp only [hp, unpackTxs_errored] at h
        exact absurd h (by simp [reader])
    by_cases h4 : o + 4 ≤ b.length
    · obtain ⟨hd1, hd2⟩ := drop_split b o 4 h4
      have hint := unpackInt_ok b o h4
      by_cases hsz : o + 4 + beDecode ((b.drop o).take 4) ≤ b.length
      · obtain ⟨he1, he2⟩ := drop_split b (o + 4) (beDecode ((b.drop o).take 4)) hsz
        have hub : (reader none b o).UnpackBytes =
            (reader none b (o + 4 + beDecode ((b.drop o).take 4)),
              (b.drop (o + 4)).take (beDecode ((b.drop o).take 4))) := by
          simp only [Packer.UnpackBytes, hint]
          exact unpack_ok b (o + 4) _ hsz
        rw [hub] at herr ⊢
        cases hp : parseTx ((b.drop (o + 4)).take (beDecode ((b.drop o).take 4))) with
        | error err =>
          simp only [hp, reader_add_none, unpackTxs_errored] at herr
          exact absurd herr (by simp [reader])
        | ok tx =>
          simp only [hp] at herr ⊢
          obtain ⟨o1, h1, h2, h3, h5⟩ := ih _ hsz herr
          refine ⟨o1, h1, h2, by simp [h3], ?_⟩
          have hb := hvm _ _ hp
          simp only [encodeTxs, List.append_assoc, ← h5]
          rw [hb, he2]
          have hc4 := beBytes_beDecode ((b.drop o).take 4)
          rw [hd2] at hc4
          rw [hc4, ← he1]
          exact hd1
      · have hub : (reader none b o).UnpackBytes =
            (reader (some Error.errBadLength) b (o + 4), []) := by
          simp only [Packer.UnpackBytes, hint]
          exact unpack_short b (o + 4) _ (by omega)
        rw [hub] at herr
        exact absurd herr (fun h => hbad _ _ _ h)
    · have hub : (reader none b o).UnpackBytes =
          (reader (some Error.errBadLength) b o, []) := by
        simp only [Packer.UnpackBytes, unpackInt_short b o (by omega)]
        exact unpack_errored _ b o 0
      rw [hub] at herr
      exact absurd herr (fun h => hbad _ _ _ h)

theorem IsReader_eq {b : List Byte} {p : Packer} (h : IsReader b p) :
    p = reader p.Err b p.Offset := by
  obtain ⟨h1, h2⟩ := h
  cases p
  simp only at h1 h2
  subst h1 h2
  rfl

theorem isReader_reader (e : Option Error) (b : List Byte) (o : Nat) :
    IsReader b (reader e b o) := ⟨rfl, rfl⟩

theorem isReader_add {b : List Byte} {p : Packer} (h : IsReader b p) (x : Option Error) :
    IsReader b (p.Add x) := by
  unfold Packer.Add
  split
  · exact h
  · exact h

theorem isReader_unpack {b : List Byte} {p : Packer} (h : IsReader b p) (n : Nat) :
    IsReader b (p.UnpackFixedBytes n).1 := by
  unfold Packer.UnpackFixedBytes Packer.CheckSpace
  simp only
  split <;> split <;> first | exact h | exact isReader_add h _

theorem isReader_unpackBytes {b : List Byte} {p : Packer} (h : IsReader b p) :
    IsReader b p.UnpackBytes.1 := by
  unfold Packer.UnpackBytes Packer.UnpackInt
  exact isReader_unpack (isReader_unpack h 4) _

theorem isReader_unpackParents {b : List Byte} :
    ∀ (n : Nat) {p : Packer}, IsReader b p → IsReader b (unpackParents n p).1 := by
  intro n
  induction n with
  | zero => intro p h; exact h
  | succ n ih =>
    intro p h
    rw [unpackParents]
    split
    · exact h
    · exact ih (isReader_add (isReader_unpack h _) _)

theorem isReader_unpackTxs {b : List Byte} (parseTx : List Byte → Except Error Tx) :
    ∀ (n : Nat) {p : Packer}, IsReader b p → IsReader b (unpackTxs parseTx n p).1 := by
  intro n
  induction n with
  | zero => intro p h; exact h
  | succ n ih =>
    intro p h
    rw [unpackTxs]
    split
    · exact h
    · simp only
      split
      · exact ih (isReader_add (isReader_unpackBytes h) _)
      · exact ih (isReader_unpackBytes h)

theorem field_split (b : List Byte) (o n : Nat) (h : o + n ≤ b.length) :
    b.drop o = beBytes n (beDecode ((b.drop o).take n)) ++ b.drop (o + n) ∧
      beDecode ((b.drop o).take n) < 256 ^ n := by
  obtain ⟨h1, h2⟩ := drop_split b o n h
  have h3 := beBytes_beDecode ((b.drop o).take n)
  have h4 := beDecode_lt ((b.drop o).take n)
  rw [h2] at h3 h4
  rw [h3]
  exact ⟨h1, h4⟩

theorem unmarshalTxs_inv (hash : List Byte → ID) (parseTx : List Byte → Except Error Tx)
    (hvm : FaithfulVM parseTx) (b : List Byte) (chainID : ID) (height epoch : Nat)
    (parentIDs : List ID) (o : Nat) (v : innerVertex)
    (h : unmarshalTxs hash parseTx b chainID height epoch parentIDs (reader none b o) =
      Except.ok v) :
    b.drop o = beBytes 4 v.txs.length ++ encodeTxs v.txs ∧ v.txs.length ≤ maxTxsPerVtx ∧
      v.id = hash b ∧ v.parentIDs = parentIDs ∧ v.chainID = chainID ∧ v.height = height ∧
      v.epoch = epoch ∧ v.bytes = b := by
  unfold unmarshalTxs at h
  by_cases h4 : o + 4 ≤ b.length
  · obtain ⟨hf1, hf2⟩ := field_split b o 4 h4
    simp only [unpackInt_ok b o h4] at h
    split at h
    · cases h
    · rename_i hnt
      have hr := isReader_unpackTxs parseTx (beDecode ((b.drop o).take 4))
        (isReader_reader none b (o + 4))
      cases herr : (unpackTxs parseTx (beDecode ((b.drop o).take 4))
          (reader none b (o + 4))).1.Err with
      | some e =>
        rw [IsReader_eq hr, herr] at h
        simp only [reader_add_some, ite_self] at h
        simp [reader] at h
      | none =>
        obtain ⟨o1, h1, h2, h3, h5⟩ := unpackTxs_ok parseTx hvm b _ (o + 4) h4 herr
        rw [h1] at h
        by_cases hend : o1 = b.length
        · have hp : (if (reader none b o1).Offset ≠ b.length then
              (reader none b o1).Add (some Error.errExtraSpace)
            else reader none b o1) = reader none b o1 := by
            simp [reader, hend]
          rw [hp] at h
          simp only [show (reader none b o1).Err = none from rfl, Except.ok.injEq] at h
          subst h
          rw [hend, List.drop_length, List.append_nil] at h5
          refine ⟨?_, ?_, rfl, rfl, rfl, rfl, rfl, rfl⟩
          · show b.drop o = beBytes 4 (unpackTxs parseTx (beDecode ((b.drop o).take 4))
              (reader none b (o + 4))).2.length ++ encodeTxs (unpackTxs parseTx
                (beDecode ((b.drop o).take 4)) (reader none b (o + 4))).2
            rw [h3, ← h5]
            exact hf1
          · show (unpackTxs parseTx (beDecode ((b.drop o).take 4))
              (reader none b (o + 4))).2.length ≤ maxTxsPerVtx
            rw [h3]
            omega
        · have hp : (if (reader none b o1).Offset ≠ b.length then
              (reader none b o1).Add (some Error.errExtraSpace)
            else reader none b o1) = reader (some Error.errExtraSpace) b o1 := by
            simp [reader, hend, Packer.Add]
          rw [hp] at h
          simp [reader] at h
  · simp only [unpackInt_short b o (by omega), unpackTxs_errored, reader_add_some] at h
    simp [reader, maxTxsPerVtx] at h

theorem unmarshalTxs_errored (hash : List Byte → ID) (parseTx : List Byte → Except Error Tx)
    (b : List Byte) (chainID : ID) (height epoch : Nat) (parentIDs : List ID) (e : Error)
    (o : Nat) (v : innerVertex) :
    unmarshalTxs hash parseTx b chainID height epoch parentIDs (reader (some e) b o) ≠
      Except.ok v := by
  unfold unmarshalTxs
  simp only [unpackInt_errored, unpackTxs_errored, reader_add_some]
  simp [reader, maxTxsPerVtx]

theorem unmarshalParents_errored (hash : List Byte → ID)
    (parseTx : List Byte → Except Error Tx) (b : List Byte) (chainID : ID)
    (height epoch : Nat) (e : Error) (o : Nat) (v : innerVertex) :
    unmarshalParents hash parseTx b chainID height epoch (reader (some e) b o) ≠
      Except.ok v := by
  unfold unmarshalParents
  simp only [unpackInt_errored, unpackParents_errored]
  simp only [maxNumParents, gt_iff_lt, Nat.not_lt_zero, if_false]
  exact unmarshalTxs_errored hash parseTx b chainID height epoch [] e o v

theorem unmarshalParents_inv (hash : List Byte → ID) (parseTx : List Byte → Except Error Tx)
    (hvm : FaithfulVM parseTx) (b : List Byte) (chainID : ID) (height epoch : Nat)
    (o : Nat) (v : innerVertex)
    (h : unmarshalParents hash parseTx b chainID height epoch (reader none b o) =
      Except.ok v) :
    b.drop o = beBytes 4 v.parentIDs.length ++ encodeParents v.parentIDs ++
        beBytes 4 v.txs.length ++ encodeTxs v.txs ∧
      v.parentIDs.length ≤ maxNumParents ∧ v.txs.length ≤ maxTxsPerVtx ∧
      v.id = hash b ∧ v.chainID = chainID ∧ v.height = height ∧
      v.epoch = epoch ∧ v.bytes = b := by
  unfold unmarshalParents at h
  by_cases h4 : o + 4 ≤ b.length
  · obtain ⟨hf1, hf2⟩ := field_split b o 4 h4
    simp only [unpackInt_ok b o h4] at h
    split at h
    · cases h
    · rename_i hnp
      have hr := isReader_unpackParents (beDecode ((b.drop o).take 4))
        (isReader_reader none b (o + 4))
      cases herr : (unpackParents (beDecode ((b.drop o).take 4))
          (reader none b (o + 4))).1.Err with
      | some e =>
        rw [IsReader_eq hr, herr] at h
        exact absurd h (unmarshalTxs_errored _ _ _ _ _ _ _ _ _ _)
      | none =>
        obtain ⟨o1, h1, h2, h3, h5⟩ := unpackParents_ok b _ (o + 4) h4 herr
        rw [h1] at h
        obtain ⟨g1, g2, g3, g4, g5, g6, g7, g8⟩ :=
          unmarshalTxs_inv hash parseTx hvm b chainID height epoch _ o1 v h
        refine ⟨?_, ?_, g2, g3, g5, g6, g7, g8⟩
        · rw [g4, h3]
          simp only [List.append_assoc]
          rw [← g1, ← h5]
          exact hf1
        · rw [g4, h3]
          omega
  · simp only [unpackInt_short b o (by omega)] at h
    split at h
    · cases h
    · simp only [unpackParents_errored] at h
      exact absurd h (unmarshalTxs_errored _ _ _ _ _ _ _ _ _ _)

theorem Unmarshal_inv (hash : List Byte → ID) (parseTx : List Byte → Except Error Tx)
    (hvm : FaithfulVM parseTx) (b : List Byte) (v : innerVertex)
    (h : Unmarshal hash parseTx b = Except.ok v) :
    b = wire v v.epoch ∧ v.height < 2 ^ 64 ∧ v.epoch < 2 ^ 32 ∧
      v.parentIDs.length ≤ maxNumParents ∧ v.txs.length ≤ maxTxsPerVtx ∧
      v.bytes = b ∧ v.id = hash b := by
  unfold Unmarshal at h
  have hp0 : ({ Err := none, MaxSize := 0, Bytes := b, Offset := 0 } : Packer) =
      reader none b 0 := rfl
  simp only [hp0, HashLen] at h
  by_cases h2 : 0 + 2 ≤ b.length
  · obtain ⟨hf1, hf2⟩ := field_split b 0 2 h2
    simp only [unpackShort_ok b 0 h2] at h
    by_cases hcodec : beDecode ((b.drop 0).take 2) = version
    · simp only [hcodec, ne_eq, not_true_eq_false, if_false] at h
      by_cases h32 : 0 + 2 + 32 ≤ b.length
      · obtain ⟨hc1, hc2⟩ := drop_split b (0 + 2) 32 h32
        simp only [unpack_ok b (0 + 2) 32 h32, ToID_of_length _ hc2] at h
        by_cases h8 : 0 + 2 + 32 + 8 ≤ b.length
        · obtain ⟨hh1, hh2⟩ := field_split b (0 + 2 + 32) 8 h8
          simp only [unpackLong_ok b _ h8] at h
          by_cases h4 : 0 + 2 + 32 + 8 + 4 ≤ b.length
          · obtain ⟨he1, he2⟩ := field_split b (0 + 2 + 32 + 8) 4 h4
            simp only [unpackInt_ok b _ h4] at h
            obtain ⟨g1, g2, g3, g4, g5, g6, g7, g8⟩ :=
              unmarshalParents_inv hash parseTx hvm b _ _ _ _ v h
            refine ⟨?_, ?_, ?_, g2, g3, g8, g4⟩
            · unfold wire
              rw [g5, g6, g7]
              simp only [List.append_assoc] at g1 ⊢
              rw [← g1, ← he1, ← hh1, ← hc1, ← hcodec, ← hf1]
              rfl
            · rw [g6]; exact hh2
            · rw [g7]; exact he2
          · simp only [unpackInt_short b (0 + 2 + 32 + 8) (by omega)] at h
            exact absurd h (unmarshalParents_errored _ _ _ _ _ _ _ _ _)
        · simp only [unpackLong_short b (0 + 2 + 32) (by omega), unpackInt_errored] at h
          exact absurd h (unmarshalParents_errored _ _ _ _ _ _ _ _ _)
      · simp only [unpack_short b (0 + 2) 32 (by omega), unpackLong_errored,
          unpackInt_errored] at h
        exact absurd h (unmarshalParents_errored _ _ _ _ _ _ _ _ _)
    · simp only [hcodec, ne_eq, not_false_eq_true, if_true, reader_add_none, unpack_errored,
        unpackLong_errored, unpackInt_errored] at h
      exact absurd h (unmarshalParents_errored _ _ _ _ _ _ _ _ _)
  · simp only [unpackShort_short b 0 (by omega), reader_add_some, ite_self, unpack_errored,
      unpackLong_errored, unpackInt_errored] at h
    exact absurd h (unmarshalParents_errored _ _ _ _ _ _ _ _ _)

theorem unpack_wire (b : List Byte) (o : Nat) (chunk rest : List Byte) (ho : o ≤ b.length)
    (h : b.drop o = chunk ++ rest) :
    (reader none b o).UnpackFixedBytes chunk.length = (reader none b (o + chunk.length), chunk) ∧
      b.drop (o + chunk.length) = rest ∧ o + chunk.length ≤ b.length := by
  have hlen : (b.drop o).length = chunk.length + rest.length := by rw [h, List.length_append]
  rw [List.length_drop] at hlen
  have hsp : o + chunk.length ≤ b.length := by omega
  refine ⟨?_, ?_, hsp⟩
  · rw [unpack_ok b o _ hsp, h, List.take_left]
  · rw [← List.drop_drop, h, List.drop_left]

theorem unpackField_wire (b : List Byte) (o n val : Nat) (rest : List Byte) (ho : o ≤ b.length)
    (hval : val < 256 ^ n) (h : b.drop o = beBytes n val ++ rest) :
    (reader none b o).UnpackFixedBytes n = (reader none b (o + n), beBytes n val) ∧
      beDecode (beBytes n val) = val ∧ b.drop (o + n) = rest ∧ o + n ≤ b.length := by
  obtain ⟨h1, h2, h3⟩ := unpack_wire b o _ rest ho h
  rw [beBytes_length] at h1 h2 h3
  exact ⟨h1, by rw [beDecode_beBytes, Nat.mod_eq_of_lt hval], h2, h3⟩

theorem unpackInt_wire (b : List Byte) (o val : Nat) (rest : List Byte) (ho : o ≤ b.length)
    (hval : val < 2 ^ 32) (h : b.drop o = beBytes 4 val ++ rest) :
    (reader none b o).UnpackInt = (reader none b (o + 4), val) ∧
      b.drop (o + 4) = rest ∧ o + 4 ≤ b.length := by
  obtain ⟨h1, h2, h3, h4⟩ := unpackField_wire b o 4 val rest ho (by norm_num; exact hval) h
  refine ⟨?_, h3, h4⟩
  simp only [Packer.UnpackInt, h1, h2]

theorem unpackParents_wire (b : List Byte) :
    ∀ (ps : List ID) (o : Nat) (rest : List Byte), o ≤ b.length →
      b.drop o = encodeParents ps ++ rest →
      unpackParents ps.length (reader none b o) =
          (reader none b (o + (encodeParents ps).length), ps) ∧
        b.drop (o + (encodeParents ps).length) = rest ∧
        o + (encodeParents ps).length ≤ b.length := by
  intro ps
  induction ps with
  | nil =>
    intro o rest ho h
    simp only [encodeParents, List.nil_append] at h
    exact ⟨rfl, h, ho⟩
  | cons a ps ih =>
    intro o rest ho h
    simp only [encodeParents, List.append_assoc] at h
    obtain ⟨h1, h2, h3⟩ := unpack_wire b o a.val _ ho h
    rw [a.property] at h1 h2 h3
    obtain ⟨g1, g2, g3⟩ := ih (o + 32) rest h3 h2
    have hne : (reader none b o).Errored = false := rfl
    have hto : ToID a.val = (a, none) := by
      rw [ToID_of_length a.val a.property]
    have hlen : (encodeParents (a :: ps)).length = 32 + (encodeParents ps).length := by
      simp only [encodeParents, List.length_append, a.property]
    rw [hlen, ← Nat.add_assoc]
    refine ⟨?_, g2, g3⟩
    rw [List.length_cons, unpackParents]
    simp only [hne, Bool.false_eq_true, if_false, HashLen, h1, hto, reader_add_none, g1]

theorem unpackTxs_wire (parseTx : List Byte → Except Error Tx) (b : List Byte) :
    ∀ (ts : List Tx) (o : Nat) (rest : List Byte), o ≤ b.length →
      (∀ t ∈ ts, t.bytes.length < 2 ^ 32 ∧
        ∃ t1, parseTx t.bytes = Except.ok t1 ∧ t1.bytes = t.bytes) →
      b.drop o = encodeTxs ts ++ rest →
      ∃ ts1, unpackTxs parseTx ts.length (reader none b o) =
          (reader none b (o + (encodeTxs ts).length), ts1) ∧
        ts1.map (·.bytes) = ts.map (·.bytes) ∧
        b.drop (o + (encodeTxs ts).length) = rest ∧
        o + (encodeTxs ts).length ≤ b.length := by
  intro ts
  induction ts with
  | nil =>
    intro o rest ho _ h
    simp only [encodeTxs, List.nil_append] at h
    exact ⟨[], rfl, rfl, h, ho⟩
  | cons a ts ih =>
    intro o rest ho hts h
    simp only [encodeTxs, List.append_assoc] at h
    obtain ⟨hlt, t1, hp1, hp2⟩ := hts a (List.mem_cons_self _ _)
    obtain ⟨h1, h2, h3⟩ := unpackInt_wire b o _ _ ho hlt h
    obtain ⟨k1, k2, k3⟩ := unpack_wire b (o + 4) a.bytes _ h3 h2
    obtain ⟨ts1, g1, g2, g3, g4⟩ := ih (o + 4 + a.bytes.length) rest k3
      (fun t ht => hts t (List.mem_cons_of_mem _ ht)) k2
    have hne : (reader none b o).Errored = false := rfl
    have hub : (reader none b o).UnpackBytes =
        (reader none b (o + 4 + a.bytes.length), a.bytes) := by
      simp only [Packer.UnpackBytes, h1]
      exact k1
    have hlen : (encodeTxs (a :: ts)).length = 4 + a.bytes.length + (encodeTxs ts).length := by
      simp only [encodeTxs, List.length_append, beBytes_length]
    rw [hlen, ← Nat.add_assoc, ← Nat.add_assoc]
    refine ⟨t1 :: ts1, ?_, ?_, g3, g4⟩
    · rw [List.length_cons, unpackTxs]
      simp only [hne, Bool.false_eq_true, if_false, hub, hp1, g1]
    · simp only [List.map_cons, hp2, g2]

theorem length_le_encodeTxs (ts : List Tx) : ∀ t ∈ ts, t.bytes.length ≤ (encodeTxs ts).length := by
  induction ts with
  | nil => intro t ht; exact absurd ht (List.not_mem_nil _)
  | cons a ts ih =>
    intro t ht
    simp only [encodeTxs, List.length_append]
    rcases List.mem_cons.mp ht with h | h
    · rw [h]; omega
    · have := ih t h
      omega

theorem Unmarshal_wire (hash : List Byte → ID) (parseTx : List Byte → Except Error Tx)
    (v : innerVertex) (e : Nat) (hh : v.height < 2 ^ 64) (he : e < 2 ^ 32)
    (hp : v.parentIDs.length ≤ maxNumParents) (ht : v.txs.length ≤ maxTxsPerVtx)
    (hts : ∀ t ∈ v.txs, t.bytes.length < 2 ^ 32 ∧
      ∃ t1, parseTx t.bytes = Except.ok t1 ∧ t1.bytes = t.bytes) :
    ∃ v1, Unmarshal hash parseTx (wire v e) = Except.ok v1 ∧ v1.chainID = v.chainID ∧
      v1.height = v.height ∧ v1.epoch = e ∧ v1.parentIDs = v.parentIDs ∧
      v1.txs.map (·.bytes) = v.txs.map (·.bytes) ∧ v1.bytes = wire v e ∧
      v1.id = hash (wire v e) := by
  have hb : (wire v e).drop 0 = beBytes 2 version ++ (v.chainID.val ++ (beBytes 8 v.height ++
      (beBytes 4 e ++ (beBytes 4 v.parentIDs.length ++ (encodeParents v.parentIDs ++
        (beBytes 4 v.txs.length ++ (encodeTxs v.txs ++ []))))))) := by
    simp only [wire, List.drop_zero, List.append_assoc, List.append_nil]
  generalize wire v e = b at hb ⊢
  obtain ⟨a1, a2, a3, a4⟩ := unpackField_wire b 0 2 version _ (Nat.zero_le _)
    (by norm_num [version]) hb
  obtain ⟨b1, b2, b3⟩ := unpack_wire b (0 + 2) v.chainID.val _ a4 a3
  rw [v.chainID.property] at b1 b2 b3
  obtain ⟨c1, c2, c3, c4⟩ := unpackField_wire b (0 + 2 + 32) 8 v.height _ b3
    (by norm_num; exact hh) b2
  obtain ⟨d1, d2, d3⟩ := unpackInt_wire b (0 + 2 + 32 + 8) e _ c4 he c3
  obtain ⟨e1, e2, e3⟩ := unpackInt_wire b (0 + 2 + 32 + 8 + 4) v.parentIDs.length _ d3
    (by unfold maxNumParents at hp; omega) d2
  obtain ⟨f1, f2, f3⟩ := unpackParents_wire b v.parentIDs _ _ e3 e2
  obtain ⟨g1, g2, g3⟩ := unpackInt_wire b _ v.txs.length _ f3
    (by unfold maxTxsPerVtx at ht; omega) f2
  obtain ⟨ts1, k1, k2, k3, k4⟩ := unpackTxs_wire parseTx b v.txs _ _ g3 hts g2
  have hend : 0 + 2 + 32 + 8 + 4 + 4 + (encodeParents v.parentIDs).length + 4 +
      (encodeTxs v.txs).length = b.length := by
    have := congrArg List.length k3
    rw [List.length_drop, List.length_nil] at this
    omega
  have hto : ToID v.chainID.val = (v.chainID, none) := by
    rw [ToID_of_length v.chainID.val v.chainID.property]
  have hp0 : ({ Err := none, MaxSize := 0, Bytes := b, Offset := 0 } : Packer) =
      reader none b 0 := rfl
  have hfinal : (if (reader none b (0 + 2 + 32 + 8 + 4 + 4 + (encodeParents v.parentIDs).length
        + 4 + (encodeTxs v.txs).length)).Offset ≠ b.length then
        (reader none b (0 + 2 + 32 + 8 + 4 + 4 + (encodeParents v.parentIDs).length
        + 4 + (encodeTxs v.txs).length)).Add (some Error.errExtraSpace)
      else reader none b (0 + 2 + 32 + 8 + 4 + 4 + (encodeParents v.parentIDs).length
        + 4 + (encodeTxs v.txs).length)) = reader none b b.length := by
    rw [hend]
    simp [reader]
  refine ⟨innerVertex.mk (hash b) v.chainID v.height e v.parentIDs ts1 b,
    ?_, rfl, rfl, rfl, rfl, k2, rfl, rfl⟩
  unfold Unmarshal
  simp only [hp0, HashLen, Packer.UnpackShort, Packer.UnpackLong, a1, a2, b1, c1, c2, d1, hto,
    ne_eq, not_true_eq_false, if_false]
  unfold unmarshalParents
  have hnp : ¬ v.parentIDs.length > maxNumParents := by omega
  simp only [e1, hnp, if_false, f1]
  unfold unmarshalTxs
  have hnt : ¬ v.txs.length > maxTxsPerVtx := by omega
  simp only [g1, hnt, if_false, k1, hfinal]
  rfl

/-! ## Lemmas on `Verify` -/

theorem bytesCompare_trans : ∀ (a b c : List Byte),
    bytesCompare a b = -1 → bytesCompare b c = -1 → bytesCompare a c = -1 := by
  intro a
  induction a with
  | nil =>
    intro b c h1 h2
    cases b with
    | nil => simp [bytesCompare] at h1
    | cons y ys =>
      cases c with
      | nil => simp [bytesCompare] at h2
      | cons z zs => simp [bytesCompare]
  | cons x xs ih =>
    intro b c h1 h2
    cases b with
    | nil => simp [bytesCompare] at h1
    | cons y ys =>
      cases c with
      | nil => simp [bytesCompare] at h2
      | cons z zs =>
        simp only [bytesCompare] at h1 h2 ⊢
        rcases lt_trichotomy x y with hxy | hxy | hxy
        · rcases lt_trichotomy y z with hyz | hyz | hyz
          · simp [lt_trans hxy hyz]
          · subst hyz; simp [hxy]
          · simp [hyz, not_lt_of_gt hyz] at h2
        · subst hxy
          rcases lt_trichotomy x z with hxz | hxz | hxz
          · simp [hxz]
          · subst hxz
            simp only [lt_irrefl, if_false] at h1 h2 ⊢
            exact ih ys zs h1 h2
          · simp [hxz, not_lt_of_gt hxz] at h2
        · simp [hxy, not_lt_of_gt hxy] at h1

theorem IsSortedAndUniqueIDs_chain (l : List ID) :
    IsSortedAndUniqueIDs l = true ↔ l.Chain' idLess := by
  induction l with
  | nil => simp [IsSortedAndUniqueIDs]
  | cons a t ih =>
    cases t with
    | nil => simp [IsSortedAndUniqueIDs]
    | cons b rest =>
      rw [IsSortedAndUniqueIDs, List.chain'_cons, Bool.and_eq_true, ih, decide_eq_true_iff]
      rfl

theorem IsSortedAndUniqueIDs_iff (l : List ID) :
    IsSortedAndUniqueIDs l = true ↔ l.Sorted idLess := by
  haveI : IsTrans ID idLess :=
    ⟨fun a b c h1 h2 => bytesCompare_trans a.val b.val c.val h1 h2⟩
  unfold List.Sorted
  rw [← List.chain'_iff_pairwise]
  exact IsSortedAndUniqueIDs_chain l

theorem isSortedAndUniqueTxs_chain (l : List Tx) :
    isSortedAndUniqueTxs l = true ↔ l.Chain' (fun a b => idLess a.id b.id) := by
  induction l with
  | nil => simp [isSortedAndUniqueTxs]
  | cons a t ih =>
    cases t with
    | nil => simp [isSortedAndUniqueTxs]
    | cons b rest =>
      rw [isSortedAndUniqueTxs, List.chain'_cons, Bool.and_eq_true, ih, txLess,
        decide_eq_true_iff]
      rfl

theorem isSortedAndUniqueTxs_iff (l : List Tx) :
    isSortedAndUniqueTxs l = true ↔ l.Sorted (fun a b => idLess a.id b.id) := by
  haveI : IsTrans Tx (fun a b => idLess a.id b.id) :=
    ⟨fun a b c h1 h2 => bytesCompare_trans a.id.val b.id.val c.id.val h1 h2⟩
  unfold List.Sorted
  rw [← List.chain'_iff_pairwise]
  exact isSortedAndUniqueTxs_chain l

theorem verifyInputs_iff : ∀ (txs : List Tx) (acc : List ID),
    verifyInputs txs acc = none ↔
      (∀ t ∈ txs, ∀ x ∈ t.inputIDs, x ∉ acc) ∧
        txs.Pairwise (fun a b => ∀ x, x ∈ a.inputIDs → x ∉ b.inputIDs) := by
  intro txs
  induction txs with
  | nil => intro acc; simp [verifyInputs]
  | cons t rest ih =>
    intro acc
    rw [verifyInputs]
    by_cases hov : Overlaps t.inputIDs.dedup acc = true
    · simp only [hov, if_true]
      constructor
      · intro h; cases h
      · rintro ⟨h1, _⟩
        unfold Overlaps at hov
        rw [List.any_eq_true] at hov
        obtain ⟨x, hx, hx2⟩ := hov
        exact absurd (of_decide_eq_true hx2)
          (h1 t (List.mem_cons_self _ _) x (List.mem_dedup.mp hx))
    · simp only [hov, if_false, Bool.false_eq_true]
      have hno : ∀ x ∈ t.inputIDs, x ∉ acc := by
        intro x hx hacc
        apply hov
        unfold Overlaps
        rw [List.any_eq_true]
        exact ⟨x, List.mem_dedup.mpr hx, decide_eq_true hacc⟩
      rw [ih, List.pairwise_cons]
      constructor
      · rintro ⟨h1, h2⟩
        refine ⟨?_, ?_, h2⟩
        · intro u hu x hx
          rcases List.mem_cons.mp hu with rfl | hu
          · exact hno x hx
          · intro hacc
            exact h1 u hu x hx (List.mem_union_iff.mpr (Or.inl hacc))
        · intro u hu x hx hxu
          exact h1 u hu x hxu (List.mem_union_iff.mpr (Or.inr (List.mem_dedup.mpr hx)))
      · rintro ⟨h1, h2, h3⟩
        refine ⟨?_, h3⟩
        intro u hu x hx hmem
        rcases List.mem_union_iff.mp hmem with hacc | hin
        · exact h1 u (List.mem_cons_of_mem _ hu) x hx hacc
        · exact h2 u hu x (List.mem_dedup.mp hin) hx

/-- C5. `innerVertex.Verify` returns nil exactly when the epoch is 0, the parent
IDs are strictly ascending, there is at least one transaction, the
transactions are strictly ascending by ID, and no two transactions of the
vertex share an input ID. -/
theorem Verify_nil_iff (vtx : innerVertex) :
    Verify vtx = none ↔
      vtx.epoch = 0 ∧ vtx.parentIDs.Sorted idLess ∧ vtx.txs ≠ [] ∧
        vtx.txs.Sorted (fun a b => idLess a.id b.id) ∧
        vtx.txs.Pairwise (fun a b => ∀ x, x ∈ a.inputIDs → x ∉ b.inputIDs) := by
  unfold Verify
  by_cases h1 : vtx.epoch = 0
  · by_cases h2 : IsSortedAndUniqueIDs vtx.parentIDs = true
    · by_cases h3 : vtx.txs.length = 0
      · have h3n : vtx.txs = [] := List.length_eq_zero.mp h3
        simp [h1, h2, h3, h3n]
      · have h3n : vtx.txs ≠ [] := fun hn => h3 (by rw [hn]; rfl)
        by_cases h4 : isSortedAndUniqueTxs vtx.txs = true
        · simp only [h1, h2, h3, h4, ne_eq, not_true_eq_false, if_false, verifyInputs_iff]
          rw [IsSortedAndUniqueIDs_iff] at h2
          rw [isSortedAndUniqueTxs_iff] at h4
          simp [h2, h3n, h4]
        · have h4n := h4
          rw [isSortedAndUniqueTxs_iff] at h4n
          simp [h1, h2, h3, h4, h4n]
    · have h2n := h2
      rw [IsSortedAndUniqueIDs_iff] at h2n
      simp [h1, h2, h2n]
  · simp [h1]

theorem echoVM_faithful : FaithfulVM echoVM := by
  intro bs tx h
  unfold echoVM at h
  cases h
  rfl

/-- C3, counterexample: `Unmarshal` accepts the 54 bytes `epochOneBytes`, whose
epoch field is 1, with a VM that returns the parsed bytes; `Marshal` of the
resulting vertex succeeds but writes epoch 0, so it does not return the input. -/
theorem Marshal_Unmarshal_counterexample :
    FaithfulVM echoVM ∧
      Unmarshal zeroHash echoVM epochOneBytes = Except.ok epochOneVertex ∧
      Marshal epochOneVertex = Except.ok (wire epochOneVertex 0) ∧
      wire epochOneVertex 0 ≠ epochOneBytes :=
  ⟨echoVM_faithful, by decide, by decide, by decide⟩

/-- C3, amended. For every byte string `b` of at most `maxSize` bytes that
`Unmarshal` accepts with epoch field 0 (with a VM whose `ParseTx` returns a
transaction whose bytes are the parsed bytes), `Marshal` of the resulting
vertex succeeds and returns `b`. -/
theorem Marshal_Unmarshal (hash : List Byte → ID) (parseTx : List Byte → Except Error Tx)
    (hvm : FaithfulVM parseTx) (b : List Byte) (vtx : innerVertex)
    (h : Unmarshal hash parseTx b = Except.ok vtx) (hepoch : vtx.epoch = 0)
    (hsize : b.length ≤ maxSize) : Marshal vtx = Except.ok b := by
  obtain ⟨h1, _⟩ := Unmarshal_inv hash parseTx hvm b vtx h
  rw [hepoch] at h1
  rw [Marshal_ok_iff]
  refine ⟨h1, ?_⟩
  rw [← h1]
  exact hsize

set_option maxRecDepth 100000 in
/-- Witness of C3 amended: the encoding of `sampleVertex`. -/
theorem Marshal_Unmarshal_witness :
    Unmarshal zeroHash echoVM (wire sampleVertex 0) =
        Except.ok
          { id := zeroID, chainID := smallID 7, height := 5, epoch := 0,
            parentIDs := [smallID 1, smallID 2],
            txs := [{ id := zeroID, bytes := [1, 2, 3], inputIDs := [] },
              { id := zeroID, bytes := [], inputIDs := [] }],
            bytes := wire sampleVertex 0 } ∧
      Marshal
          { id := zeroID, chainID := smallID 7, height := 5, epoch := 0,
            parentIDs := [smallID 1, smallID 2],
            txs := [{ id := zeroID, bytes := [1, 2, 3], inputIDs := [] },
              { id := zeroID, bytes := [], inputIDs := [] }],
            bytes := wire sampleVertex 0 } =
        Except.ok (wire sampleVertex 0) :=
  ⟨by decide,
    Marshal_Unmarshal zeroHash echoVM echoVM_faithful (wire sampleVertex 0) _ (by decide) rfl
      (by decide)⟩

/-- C4, counterexample: `Marshal` succeeds on the vertex `epochOneVertex`, whose
epoch is 1, and `Unmarshal` of the result yields a vertex with epoch 0. -/
theorem Unmarshal_Marshal_counterexample :
    Marshal epochOneVertex = Except.ok (wire epochOneVertex 0) ∧
      Unmarshal zeroHash echoVM (wire epochOneVertex 0) =
        Except.ok { epochOneVertex with epoch := 0, bytes := wire epochOneVertex 0 } ∧
      ({ epochOneVertex with epoch := 0, bytes := wire epochOneVertex 0 } : innerVertex).epoch ≠
        epochOneVertex.epoch :=
  ⟨by decide, by decide, by decide⟩

/-- C4, amended. For every vertex `v` with epoch 0, a `uint64` height, at most
`maxNumParents` parents and at most `maxTxsPerVtx` transactions whose `Marshal`
succeeds, and a VM whose `ParseTx` accepts the bytes of each transaction of `v`
and returns a transaction with these bytes, `Unmarshal` applied to `Marshal(v)`
succeeds and yields a vertex with the chain ID, height, epoch and parent IDs of
`v` and with transactions that have the bytes of those of `v`. -/
theorem Unmarshal_Marshal (hash : List Byte → ID) (parseTx : List Byte → Except Error Tx)
    (vtx : innerVertex) (bs : List Byte) (h : Marshal vtx = Except.ok bs)
    (hepoch : vtx.epoch = 0) (hheight : vtx.height < 2 ^ 64)
    (hparents : vtx.parentIDs.length ≤ maxNumParents)
    (htxs : vtx.txs.length ≤ maxTxsPerVtx)
    (hvm : ∀ t ∈ vtx.txs, ∃ t1, parseTx t.bytes = Except.ok t1 ∧ t1.bytes = t.bytes) :
    ∃ v1, Unmarshal hash parseTx bs = Except.ok v1 ∧ v1.chainID = vtx.chainID ∧
      v1.height = vtx.height ∧ v1.epoch = vtx.epoch ∧ v1.parentIDs = vtx.parentIDs ∧
      v1.txs.map (·.bytes) = vtx.txs.map (·.bytes) := by
  obtain ⟨h1, h2⟩ := (Marshal_ok_iff vtx bs).mp h
  have hts : ∀ t ∈ vtx.txs, t.bytes.length < 2 ^ 32 ∧
      ∃ t1, parseTx t.bytes = Except.ok t1 ∧ t1.bytes = t.bytes := by
    intro t ht
    refine ⟨?_, hvm t ht⟩
    have h3 := length_le_encodeTxs vtx.txs t ht
    have h4 : (encodeTxs vtx.txs).length ≤ (wire vtx 0).length := by
      simp only [wire, List.length_append]
      omega
    unfold maxSize at h2
    omega
  obtain ⟨v1, g1, g2, g3, g4, g5, g6, _⟩ :=
    Unmarshal_wire hash parseTx vtx 0 hheight (by norm_num) hparents htxs hts
  rw [h1]
  exact ⟨v1, g1, g2, g3, by rw [g4, hepoch], g5, g6⟩

set_option maxRecDepth 100000 in
/-- Witness of C4 amended: `sampleVertex`. -/
theorem Unmarshal_Marshal_witness :
    Marshal sampleVertex = Except.ok (wire sampleVertex 0) ∧
      ∃ v1, Unmarshal zeroHash echoVM (wire sampleVertex 0) = Except.ok v1 ∧
        v1.chainID = sampleVertex.chainID ∧ v1.height = sampleVertex.height ∧
        v1.epoch = sampleVertex.epoch ∧ v1.parentIDs = sampleVertex.parentIDs ∧
        v1.txs.map (·.bytes) = sampleVertex.txs.map (·.bytes) :=
  ⟨by decide,
    Unmarshal_Marshal zeroHash echoVM sampleVertex (wire sampleVertex 0) (by decide) rfl
      (by decide) (by decide) (by decide) (fun t _ => ⟨_, rfl, rfl⟩)⟩

theorem bigBytes_length : bigBytes.length = 2 ^ 20 := by
  rw [bigBytes, List.length_replicate]

theorem wire_length (v : innerVertex) (e : Nat) :
    (wire v e).length =
      54 + (encodeParents v.parentIDs).length + (encodeTxs v.txs).length := by
  simp only [wire, List.length_append, beBytes_length, v.chainID.property]
  omega

/-- `Unmarshal` sets no size limit on its packer: it accepts the encoding of
`bigVertex`, which is longer than `maxSize`, and `Marshal` of the vertex it
yields fails. -/
theorem Unmarshal_oversize :
    maxSize < (wire bigVertex 0).length ∧
      ∃ v1, Unmarshal zeroHash echoVM (wire bigVertex 0) = Except.ok v1 ∧
        ∀ bs, Marshal v1 ≠ Except.ok bs := by
  have hlen : maxSize < (wire bigVertex 0).length := by
    rw [wire_length]
    have h2 : bigBytes.length ≤ (encodeTxs bigVertex.txs).length :=
      length_le_encodeTxs bigVertex.txs _ (List.mem_singleton.mpr rfl)
    rw [bigBytes_length] at h2
    unfold maxSize
    omega
  refine ⟨hlen, ?_⟩
  obtain ⟨v1, g1, _, _, g4, _⟩ := Unmarshal_wire zeroHash echoVM bigVertex 0
    (Nat.pos_of_ne_zero (by norm_num)) (by norm_num) (Nat.zero_le _)
    (by show 1 ≤ 128; omega)
    (by
      intro t ht
      have ht1 : t = { id := zeroID, bytes := bigBytes, inputIDs := [] } :=
        List.mem_singleton.mp ht
      subst ht1
      refine ⟨?_, _, rfl, rfl⟩
      show bigBytes.length < 2 ^ 32
      rw [bigBytes_length]
      norm_num)
  refine ⟨v1, g1, ?_⟩
  intro bs hbs
  obtain ⟨h1, _⟩ := Unmarshal_inv zeroHash echoVM echoVM_faithful _ v1 g1
  obtain ⟨k1, k2⟩ := (Marshal_ok_iff v1 bs).mp hbs
  rw [g4] at h1
  rw [← h1] at k2
  omega

end Vertex

namespace Benchlist

/-! ## Lemmas on the benchlist -/

theorem endOf_mapDel_ne (times : List (ShortID × Int)) {v x : ShortID} (h : x ≠ v) :
    endOf (mapDel times v) x = endOf times x := by
  simp [endOf, mapGet_mapDel_ne times h]

theorem endOf_mapSet_ne (times : List (ShortID × Int)) {v x : ShortID} (e : Int) (h : x ≠ v) :
    endOf (mapSet times v e) x = endOf times x := by
  simp [endOf, mapGet_mapSet_ne times e h]

theorem endOf_mapSet_self (times : List (ShortID × Int)) (v : ShortID) (e : Int) :
    endOf (mapSet times v e) v = e := by
  simp [endOf, mapGet_mapSet_self]

theorem sumWeights_erase (s : ValidatorSet) {set : List ShortID} {v : ShortID} (h : v ∈ set) :
    (s.GetWeight v).getD 0 + s.sumWeights (set.erase v) = s.sumWeights set := by
  unfold ValidatorSet.sumWeights
  exact List.sum_map_erase (fun v => (s.GetWeight v).getD 0) h

theorem Consistent_tail {v : ShortID} {rest : List ShortID} {times : List (ShortID × Int)}
    {set : List ShortID} (h : Consistent (v :: rest) times set) :
    Consistent rest (mapDel times v) (set.erase v) := by
  have hv : v ∉ rest := (List.nodup_cons.mp h.nodup).1
  refine ⟨(List.nodup_cons.mp h.nodup).2, h.setNodup.erase v, ?_, ?_⟩
  · intro x
    rw [h.setNodup.mem_erase_iff, h.mem_iff]
    constructor
    · rintro ⟨hne, hx⟩
      rcases List.mem_cons.mp hx with hx | hx
      · exact absurd hx hne
      · exact hx
    · intro hx
      exact ⟨ne_of_mem_of_not_mem hx hv, List.mem_cons_of_mem _ hx⟩
  · intro x
    by_cases hx : x = v
    · subst hx
      simp [mapGet_mapDel_self, hv]
    · rw [mapGet_mapDel_ne times hx, h.times_iff]
      simp [hx]

theorem Ordered_tail {v : ShortID} {rest : List ShortID} {times : List (ShortID × Int)}
    {B : Int} (hn : (v :: rest).Nodup) (h : Ordered (v :: rest) times B) :
    Ordered rest (mapDel times v) B := by
  have hv : v ∉ rest := (List.nodup_cons.mp hn).1
  have hmap : rest.map (endOf (mapDel times v)) = rest.map (endOf times) := by
    apply List.map_congr_left
    intro x hx
    exact endOf_mapDel_ne times (ne_of_mem_of_not_mem hx hv)
  refine ⟨?_, ?_⟩
  · rw [hmap]
    have := h.sorted
    rw [List.map_cons, List.pairwise_cons] at this
    exact this.2
  · intro x hx
    rw [endOf_mapDel_ne times (ne_of_mem_of_not_mem hx hv)]
    exact h.bound x (List.mem_cons_of_mem _ hx)

theorem cleanupLoop_spec (ct : Int) (mw : Nat) :
    ∀ (order : List ShortID) (b : queryBenchlist) (w : Nat) (b1 : queryBenchlist),
      Consistent order b.benchlistTimes b.benchlistSet →
      w = b.vdrs.sumWeights b.benchlistSet →
      cleanupLoop ct mw order b w = some b1 →
      Consistent b1.benchlistOrder b1.benchlistTimes b1.benchlistSet ∧
      (b1.benchlistOrder = [] ∨ b1.vdrs.sumWeights b1.benchlistSet < mw) ∧
      SameParams b b1 ∧
      b1.pendingQueries = b.pendingQueries ∧
      b1.consecutiveFailures = b.consecutiveFailures ∧
      (∀ B, Ordered order b.benchlistTimes B →
        Ordered b1.benchlistOrder b1.benchlistTimes B) := by
  intro order
  induction order with
  | nil =>
    intro b w b1 hc _ h
    simp only [cleanupLoop, Option.some.injEq] at h
    subst h
    exact ⟨hc, Or.inl rfl, ⟨rfl, rfl, rfl, rfl, rfl, rfl⟩, rfl, rfl, fun B hB => hB⟩
  | cons v rest ih =>
    intro b w b1 hc hw h
    rw [cleanupLoop] at h
    split at h
    · rename_i hbreak
      simp only [Option.some.injEq] at h
      subst h
      refine ⟨hc, Or.inr ?_, ⟨rfl, rfl, rfl, rfl, rfl, rfl⟩, rfl, rfl, fun B hB => hB⟩
      show b.vdrs.sumWeights b.benchlistSet < mw
      rw [← hw]
      exact hbreak.2
    · have hvs : v ∈ b.benchlistSet := (hc.mem_iff v).mpr (List.mem_cons_self _ _)
      have hsum := sumWeights_erase b.vdrs hvs
      have key : ∀ nw, nw = b.vdrs.sumWeights (b.benchlistSet.erase v) →
          cleanupLoop ct mw rest
            { b with
              benchlistOrder := rest
              benchlistTimes := mapDel b.benchlistTimes v
              benchlistSet := b.benchlistSet.erase v } nw = some b1 →
          Consistent b1.benchlistOrder b1.benchlistTimes b1.benchlistSet ∧
          (b1.benchlistOrder = [] ∨ b1.vdrs.sumWeights b1.benchlistSet < mw) ∧
          SameParams b b1 ∧
          b1.pendingQueries = b.pendingQueries ∧
          b1.consecutiveFailures = b.consecutiveFailures ∧
          (∀ B, Ordered (v :: rest) b.benchlistTimes B →
            Ordered b1.benchlistOrder b1.benchlistTimes B) := by
        intro nw hnw hloop
        obtain ⟨h1, h2, h3, h4, h5, h6⟩ := ih _ nw b1 (Consistent_tail hc) hnw hloop
        exact ⟨h1, h2, ⟨h3.vdrs, h3.threshold, h3.minimumFailingDuration, h3.duration,
          h3.maxPortion, h3.clock⟩, h4, h5, fun B hB => h6 B (Ordered_tail hc.nodup hB)⟩
      cases hgw : b.vdrs.GetWeight v with
      | none =>
        simp only [hgw] at h
        apply key w _ h
        rw [hw, ← hsum, hgw]
        simp
      | some rw =>
        simp only [hgw] at h
        by_cases hlt : w < rw
        · simp [Sub64, hlt] at h
        · simp only [Sub64, hlt, if_false] at h
          apply key (w - rw) _ h
          rw [hw, ← hsum, hgw]
          simp

theorem Consistent_empty : Consistent [] [] [] :=
  ⟨List.nodup_nil, List.nodup_nil, fun _ => Iff.rfl, fun _ => by simp [mapGet]⟩

theorem Ordered_empty (times : List (ShortID × Int)) (B : Int) : Ordered [] times B :=
  ⟨by simp, fun _ h => absurd h (List.not_mem_nil _)⟩

theorem cleanup_cases (b : queryBenchlist) :
    cleanup b = reset b ∨
    ∃ b1, cleanupLoop b.clock (maxBenchlistWeight b) b.benchlistOrder b
        (b.vdrs.sumWeights b.benchlistSet) = some b1 ∧ cleanup b = b1 := by
  unfold cleanup ValidatorSet.SubsetWeight
  split
  · left; rfl
  · rename_i w hsw
    split at hsw
    · have hw := Option.some.inj hsw
      subst hw
      split
      · left; rfl
      · rename_i b1 hloop
        right
        exact ⟨b1, hloop, rfl⟩
    · exact absurd hsw (by simp)

theorem cleanupLoop_params (ct : Int) (mw : Nat) :
    ∀ (order : List ShortID) (b : queryBenchlist) (w : Nat) (b1 : queryBenchlist),
      cleanupLoop ct mw order b w = some b1 → SameParams b b1 := by
  intro order
  induction order with
  | nil =>
    intro b w b1 h
    simp only [cleanupLoop, Option.some.injEq] at h
    subst h
    exact ⟨rfl, rfl, rfl, rfl, rfl, rfl⟩
  | cons v rest ih =>
    intro b w b1 h
    rw [cleanupLoop] at h
    split at h
    · simp only [Option.some.injEq] at h
      subst h
      exact ⟨rfl, rfl, rfl, rfl, rfl, rfl⟩
    · cases hgw : b.vdrs.GetWeight v with
      | none =>
        simp only [hgw] at h
        have h3 := ih _ _ _ h
        exact ⟨h3.vdrs, h3.threshold, h3.minimumFailingDuration, h3.duration,
          h3.maxPortion, h3.clock⟩
      | some rw =>
        simp only [hgw] at h
        by_cases hlt : w < rw
        · simp [Sub64, hlt] at h
        · simp only [Sub64, hlt, if_false] at h
          have h3 := ih _ _ _ h
          exact ⟨h3.vdrs, h3.threshold, h3.minimumFailingDuration, h3.duration,
            h3.maxPortion, h3.clock⟩

theorem cleanup_spec_params (b : queryBenchlist) : SameParams b (cleanup b) := by
  rcases cleanup_cases b with h | ⟨b1, hloop, h⟩
  · rw [h]
    exact ⟨rfl, rfl, rfl, rfl, rfl, rfl⟩
  · rw [h]
    exact cleanupLoop_params _ _ _ _ _ _ hloop

theorem cleanup_spec (b : queryBenchlist) (hc : Inv b) :
    Inv (cleanup b) ∧
    ((cleanup b).benchlistOrder = [] ∨
      (cleanup b).vdrs.sumWeights (cleanup b).benchlistSet < maxBenchlistWeight b) ∧
    SameParams b (cleanup b) ∧
    (∀ B, Ordered b.benchlistOrder b.benchlistTimes B →
      Ordered (cleanup b).benchlistOrder (cleanup b).benchlistTimes B) := by
  rcases cleanup_cases b with h | ⟨b1, hloop, h⟩
  · rw [h]
    exact ⟨Consistent_empty, Or.inl rfl, ⟨rfl, rfl, rfl, rfl, rfl, rfl⟩,
      fun B _ => Ordered_empty _ B⟩
  · rw [h]
    obtain ⟨h1, h2, h3, _, _, h6⟩ := cleanupLoop_spec _ _ _ b _ b1 hc rfl hloop
    exact ⟨h1, h2, h3, h6⟩

theorem set_nil_of_order_nil {order : List ShortID} {times : List (ShortID × Int)}
    {set : List ShortID} (h : Consistent order times set) (ho : order = []) : set = [] := by
  apply List.eq_nil_iff_forall_not_mem.mpr
  intro v hv
  have := (h.mem_iff v).mp hv
  rw [ho] at this
  exact absurd this (List.not_mem_nil _)

theorem roundHalfEven_mul_lt (a b : Nat) (hb : 0 < b) : roundHalfEven a b * b < a + b := by
  have h1 := Nat.div_add_mod a b
  have h2 := Nat.mod_lt a hb
  have h3 : a / b * b ≤ a := Nat.div_mul_le_self a b
  have h4 : (a / b + 1) * b = a / b * b + b := by ring
  have h5 : a / b * b + a % b = a := by rw [Nat.mul_comm]; exact h1
  unfold roundHalfEven
  split
  · omega
  · split
    · rw [h4]; omega
    · split
      · omega
      · rw [h4]; omega

theorem roundHalfEven_one (a : Nat) : roundHalfEven a 1 = a := by
  unfold roundHalfEven
  simp [Nat.mod_one]

theorem float64Trunc_one (n : Nat) (h : n < 2 ^ 53) : float64Trunc n 1 = n := by
  unfold float64Trunc
  rcases Nat.eq_zero_or_pos n with h0 | h0
  · simp [h0]
  · have h1 : ¬ (n = 0 ∨ (1 : Nat) = 0) := by omega
    have h2 : ¬ (2 ^ 53 * 1 ≤ n) := by omega
    rw [if_neg h1, if_neg h2, roundHalfEven_one]
    exact Nat.mul_div_cancel _ (by positivity)

theorem float64Trunc_mul_lt (a b : Nat) (hb : 0 < b) (h : a < 2 ^ 53 * b) :
    float64Trunc a b * b < a + b := by
  unfold float64Trunc
  split
  · simp; omega
  · rw [if_neg (by omega)]
    generalize shiftUp (53 + b) a b = t
    have h1 := roundHalfEven_mul_lt (a * 2 ^ t) b hb
    have h2 : roundHalfEven (a * 2 ^ t) b / 2 ^ t * 2 ^ t ≤ roundHalfEven (a * 2 ^ t) b :=
      Nat.div_mul_le_self _ _
    have hp : 0 < 2 ^ t := by positivity
    have h3 : roundHalfEven (a * 2 ^ t) b / 2 ^ t * b * 2 ^ t < (a + b) * 2 ^ t := by
      calc roundHalfEven (a * 2 ^ t) b / 2 ^ t * b * 2 ^ t
          = roundHalfEven (a * 2 ^ t) b / 2 ^ t * 2 ^ t * b := by ring
        _ ≤ roundHalfEven (a * 2 ^ t) b * b := Nat.mul_le_mul_right _ h2
        _ < a * 2 ^ t + b := h1
        _ ≤ a * 2 ^ t + b * 2 ^ t := by
            have : b ≤ b * 2 ^ t := Nat.le_mul_of_pos_right _ hp
            omega
        _ = (a + b) * 2 ^ t := by ring
    exact Nat.lt_of_mul_lt_mul_right h3


theorem shiftDown_spec : ∀ (fuel a b : Nat), a < 2 ^ 53 * (b * 2 ^ fuel) →
    a < 2 ^ 53 * (b * 2 ^ shiftDown fuel a b) ∧
      (shiftDown fuel a b = 0 ∨ 2 ^ 53 * (b * 2 ^ (shiftDown fuel a b - 1)) ≤ a) := by
  intro fuel
  induction fuel with
  | zero => intro a b h; exact ⟨h, Or.inl rfl⟩
  | succ fuel ih =>
    intro a b h
    unfold shiftDown
    split
    · rename_i hlt
      exact ⟨by simpa using hlt, Or.inl rfl⟩
    · rename_i hge
      have h1 : a < 2 ^ 53 * (2 * b * 2 ^ fuel) := by
        have : 2 * b * 2 ^ fuel = b * 2 ^ (fuel + 1) := by ring
        rw [this]; exact h
      obtain ⟨g1, g2⟩ := ih a (2 * b) h1
      refine ⟨?_, Or.inr ?_⟩
      · have : b * 2 ^ (shiftDown fuel a (2 * b) + 1) = 2 * b * 2 ^ shiftDown fuel a (2 * b) := by
          ring
        rw [this]; exact g1
      · rw [Nat.add_sub_cancel]
        cases hs : shiftDown fuel a (2 * b) with
        | zero => simpa using Nat.le_of_not_lt hge
        | succ k =>
          rw [hs] at g2
          rcases g2 with g2 | g2
          · omega
          · rw [Nat.add_sub_cancel] at g2
            have : b * 2 ^ (k + 1) = 2 * b * 2 ^ k := by ring
            rw [this]; exact g2

theorem shiftUp_spec : ∀ (fuel a b : Nat), 2 ^ 52 * b ≤ a * 2 ^ fuel →
    2 ^ 52 * b ≤ a * 2 ^ shiftUp fuel a b ∧
      (shiftUp fuel a b = 0 ∨ a * 2 ^ (shiftUp fuel a b - 1) < 2 ^ 52 * b) := by
  intro fuel
  induction fuel with
  | zero => intro a b h; exact ⟨h, Or.inl rfl⟩
  | succ fuel ih =>
    intro a b h
    unfold shiftUp
    split
    · rename_i hle
      exact ⟨by simpa using hle, Or.inl rfl⟩
    · rename_i hlt
      have h1 : 2 ^ 52 * b ≤ 2 * a * 2 ^ fuel := by
        have : 2 * a * 2 ^ fuel = a * 2 ^ (fuel + 1) := by ring
        rw [this]; exact h
      obtain ⟨g1, g2⟩ := ih (2 * a) b h1
      refine ⟨?_, Or.inr ?_⟩
      · have : a * 2 ^ (shiftUp fuel (2 * a) b + 1) = 2 * a * 2 ^ shiftUp fuel (2 * a) b := by
          ring
        rw [this]; exact g1
      · rw [Nat.add_sub_cancel]
        cases hs : shiftUp fuel (2 * a) b with
        | zero => simpa using Nat.lt_of_not_le hlt
        | succ k =>
          rw [hs] at g2
          rcases g2 with g2 | g2
          · omega
          · rw [Nat.add_sub_cancel] at g2
            have : a * 2 ^ (k + 1) = 2 * a * 2 ^ k := by ring
            rw [this]; exact g2

/-- The fuel of `float64Trunc` is enough: the scaled value lies in
`[2 ^ 52, 2 ^ 53)`, so the rounding is to 53 significant bits. -/
theorem float64Trunc_normal (a b : Nat) (ha : 0 < a) (hb : 0 < b) :
    (2 ^ 53 * b ≤ a →
      2 ^ 52 * (b * 2 ^ shiftDown a a b) ≤ a ∧ a < 2 ^ 53 * (b * 2 ^ shiftDown a a b)) ∧
    (a < 2 ^ 53 * b →
      2 ^ 52 * b ≤ a * 2 ^ shiftUp (53 + b) a b ∧ a * 2 ^ shiftUp (53 + b) a b < 2 ^ 53 * b) := by
  constructor
  · intro h
    have hfuel : a < 2 ^ 53 * (b * 2 ^ a) := by
      have h1 : a < 2 ^ a := Nat.lt_two_pow a
      have h2 : 2 ^ a ≤ b * 2 ^ a := Nat.le_mul_of_pos_left _ hb
      have h3 : b * 2 ^ a ≤ 2 ^ 53 * (b * 2 ^ a) := Nat.le_mul_of_pos_left _ (by positivity)
      omega
    obtain ⟨g1, g2⟩ := shiftDown_spec a a b hfuel
    refine ⟨?_, g1⟩
    cases hs : shiftDown a a b with
    | zero =>
      rw [hs] at g1
      simp at g1
      omega
    | succ k =>
      rw [hs] at g2
      rcases g2 with g2 | g2
      · omega
      · rw [Nat.add_sub_cancel] at g2
        have : 2 ^ 52 * (b * 2 ^ (k + 1)) = 2 ^ 53 * (b * 2 ^ k) := by ring
        rw [this]; exact g2
  · intro h
    have hfuel : 2 ^ 52 * b ≤ a * 2 ^ (53 + b) := by
      have h1 : b < 2 ^ b := Nat.lt_two_pow b
      have h2 : 2 ^ (53 + b) ≤ a * 2 ^ (53 + b) := Nat.le_mul_of_pos_left _ ha
      have h3 : 2 ^ (53 + b) = 2 ^ 53 * 2 ^ b := by ring
      have h4 : 2 ^ 52 * b ≤ 2 ^ 53 * 2 ^ b := by
        apply Nat.mul_le_mul (by norm_num) (le_of_lt h1)
      omega
    obtain ⟨g1, g2⟩ := shiftUp_spec (53 + b) a b hfuel
    refine ⟨g1, ?_⟩
    cases hs : shiftUp (53 + b) a b with
    | zero => simpa using h
    | succ k =>
      rw [hs] at g2
      rcases g2 with g2 | g2
      · omega
      · rw [Nat.add_sub_cancel] at g2
        have : a * 2 ^ (k + 1) = 2 * (a * 2 ^ k) := by ring
        rw [this]; omega

theorem float64Trunc_pow (b : Nat) (hb : 0 < b) : float64Trunc (2 ^ 53 * b) b = 2 ^ 53 := by
  have ha : 0 < 2 ^ 53 * b := by positivity
  have hn := (float64Trunc_normal (2 ^ 53 * b) b ha hb).1 (le_refl _)
  obtain ⟨s, hs⟩ : ∃ s, s = shiftDown (2 ^ 53 * b) (2 ^ 53 * b) b := ⟨_, rfl⟩
  rw [← hs] at hn
  have h1 : s = 1 := by
    obtain ⟨g1, g2⟩ := hn
    have g3 : 2 ^ 52 * 2 ^ s ≤ 2 ^ 53 := by
      have : 2 ^ 52 * (b * 2 ^ s) = 2 ^ 52 * 2 ^ s * b := by ring
      rw [this] at g1
      exact Nat.le_of_mul_le_mul_right g1 hb
    have g4 : 2 ^ 53 < 2 ^ 53 * 2 ^ s := by
      have : 2 ^ 53 * (b * 2 ^ s) = 2 ^ 53 * 2 ^ s * b := by ring
      rw [this] at g2
      exact Nat.lt_of_mul_lt_mul_right g2
    rcases Nat.lt_or_ge s 1 with h | h
    · have : s = 0 := by omega
      rw [this] at g4
      omega
    · rcases Nat.lt_or_ge 1 s with h2 | h2
      · have : 2 ^ 2 ≤ 2 ^ s := Nat.pow_le_pow_right (by norm_num) h2
        omega
      · omega
  unfold float64Trunc
  rw [if_neg (by omega), if_pos (le_refl _), ← hs, h1]
  have hdiv : 2 ^ 53 * b = 2 ^ 52 * (b * 2 ^ 1) := by ring
  unfold roundHalfEven
  have hb2 : 0 < b * 2 ^ 1 := by positivity
  rw [hdiv, Nat.mul_mod_left, Nat.mul_div_cancel _ hb2]
  rw [if_pos (by omega)]
  norm_num

theorem float64Trunc_exact (n : Nat) (h : n ≤ 2 ^ 53) : float64Trunc n 1 = n := by
  rcases Nat.lt_or_ge n (2 ^ 53) with h1 | h1
  · exact float64Trunc_one n h1
  · have : n = 2 ^ 53 * 1 := by omega
    rw [this]
    exact float64Trunc_pow 1 (by norm_num)

theorem float64Trunc_mul_lt_of_le (a b : Nat) (hb : 0 < b) (h : a ≤ 2 ^ 53 * b) :
    float64Trunc a b * b < a + b := by
  rcases Nat.lt_or_ge a (2 ^ 53 * b) with h1 | h1
  · exact float64Trunc_mul_lt a b hb h1
  · have : a = 2 ^ 53 * b := by omega
    rw [this, float64Trunc_pow b hb]
    omega

theorem sum_getD_le (m : List (ShortID × Nat)) : ∀ (l : List ShortID), l.Nodup →
    (l.map (fun v => (mapGet m v).getD 0)).sum ≤ (m.map Prod.snd).sum := by
  induction m with
  | nil =>
    intro l _
    simp [mapGet]
  | cons e t ih =>
    intro l hl
    obtain ⟨k, x⟩ := e
    have hne : ∀ (l1 : List ShortID), k ∉ l1 →
        l1.map (fun v => (mapGet ((k, x) :: t) v).getD 0) =
          l1.map (fun v => (mapGet t v).getD 0) := by
      intro l1 hk
      apply List.map_congr_left
      intro v hv
      have : k ≠ v := fun h => hk (h ▸ hv)
      simp [mapGet, this]
    by_cases hk : k ∈ l
    · have hperm := List.perm_cons_erase hk
      have hsum := (hperm.map (fun v => (mapGet ((k, x) :: t) v).getD 0)).sum_eq
      rw [hsum, List.map_cons, List.sum_cons]
      have hk2 : k ∉ l.erase k := fun h => (List.Nodup.mem_erase_iff hl).mp h |>.1 rfl
      rw [hne _ hk2]
      have := ih (l.erase k) (hl.erase k)
      simp [mapGet]
      omega
    · rw [hne _ hk]
      have := ih l hl
      simp
      omega

theorem Consistent_push {order : List ShortID} {times : List (ShortID × Int)}
    {set : List ShortID} (h : Consistent order times set) {v : ShortID} (hv : v ∉ set)
    (e : Int) : Consistent (order ++ [v]) (mapSet times v e) (v :: set) := by
  have hvo : v ∉ order := fun hx => hv ((h.mem_iff v).mpr hx)
  refine ⟨?_, List.nodup_cons.mpr ⟨hv, h.setNodup⟩, ?_, ?_⟩
  · rw [List.nodup_append]
    refine ⟨h.nodup, List.nodup_singleton v, ?_⟩
    intro x hx hx1
    rw [List.mem_singleton] at hx1
    exact hvo (hx1 ▸ hx)
  · intro x
    simp only [List.mem_cons, List.mem_append, List.mem_singleton, h.mem_iff]
    tauto
  · intro x
    by_cases hx : x = v
    · subst hx
      simp [mapGet_mapSet_self]
    · rw [mapGet_mapSet_ne times e hx, h.times_iff]
      simp [hx]

theorem Ordered_push {order : List ShortID} {times : List (ShortID × Int)}
    {set : List ShortID} (hc : Consistent order times set) {v : ShortID} (hv : v ∉ set)
    {B e : Int} (h : Ordered order times B) (hle : ∀ x ∈ order, endOf times x ≤ e)
    (he : e ≤ B) : Ordered (order ++ [v]) (mapSet times v e) B := by
  have hvo : v ∉ order := fun hx => hv ((hc.mem_iff v).mpr hx)
  have hmap : order.map (endOf (mapSet times v e)) = order.map (endOf times) := by
    apply List.map_congr_left
    intro x hx
    exact endOf_mapSet_ne times e (ne_of_mem_of_not_mem hx hvo)
  refine ⟨?_, ?_⟩
  · rw [List.map_append, hmap, List.pairwise_append]
    refine ⟨h.sorted, by simp, ?_⟩
    intro a ha c hc1
    simp only [List.map_cons, List.map_nil, List.mem_singleton] at hc1
    rw [hc1, endOf_mapSet_self]
    obtain ⟨x, hx, rfl⟩ := List.mem_map.mp ha
    exact hle x hx
  · intro x hx
    rcases List.mem_append.mp hx with hx | hx
    · rw [endOf_mapSet_ne times e (ne_of_mem_of_not_mem hx hvo)]
      exact h.bound x hx
    · rw [List.mem_singleton] at hx
      rw [hx, endOf_mapSet_self]
      exact he

theorem le_last_of_sorted {order : List ShortID} {f : ShortID → Int}
    (h : (order.map f).Pairwise (· ≤ ·)) {last : ShortID}
    (hl : order.getLast? = some last) : ∀ x ∈ order, f x ≤ f last := by
  obtain ⟨ys, rfl⟩ := List.getLast?_eq_some_iff.mp hl
  rw [List.map_append, List.pairwise_append] at h
  intro x hx
  rcases List.mem_append.mp hx with hx | hx
  · exact h.2.2 (f x) (List.mem_map_of_mem f hx) (f last) (by simp)
  · rw [List.mem_singleton] at hx
    rw [hx]

theorem truncMul_bounds (rnd : Fraction) (h0 : 0 ≤ rnd.num) (h1 : rnd.num < (rnd.den : Int))
    (x : Int) (hx : 0 ≤ x) : 0 ≤ rnd.truncMul x ∧ rnd.truncMul x ≤ x := by
  unfold Fraction.truncMul
  have hp : 0 ≤ rnd.num * x := mul_nonneg h0 hx
  rw [Int.tdiv_eq_ediv hp (Int.ofNat_nonneg _)]
  have hd : (0 : Int) < (rnd.den : Int) := lt_of_le_of_lt h0 h1
  refine ⟨Int.ediv_nonneg hp (le_of_lt hd), Int.ediv_le_of_le_mul hd ?_⟩
  nlinarith

theorem truncMul_nonpos (rnd : Fraction) (h0 : 0 ≤ rnd.num) (x : Int) (hx : x ≤ 0) :
    rnd.truncMul x ≤ 0 := by
  unfold Fraction.truncMul
  have hp : 0 ≤ -(rnd.num * x) := by nlinarith
  have h2 := @Int.tdiv_nonneg (-(rnd.num * x)) (rnd.den : Int) hp (Int.ofNat_nonneg _)
  rw [Int.neg_tdiv] at h2
  omega

theorem tdiv_two_nonneg (d : Int) (h : 0 ≤ d) : 0 ≤ Int.tdiv d 2 ∧ Int.tdiv d 2 ≤ d := by
  rw [Int.tdiv_eq_ediv h (by norm_num)]
  omega

theorem tdiv_two_neg (d : Int) (h : d < 0) : Int.tdiv d 2 ≤ 0 ∧ d ≤ Int.tdiv d 2 := by
  have hd : d = -(-d) := by omega
  rw [hd, Int.neg_tdiv, Int.tdiv_eq_ediv (by omega) (by norm_num)]
  omega

theorem cleanup_capped (b : queryBenchlist) (hc : Inv b) : Capped (cleanup b) := by
  obtain ⟨_, h2, h3, _⟩ := cleanup_spec b hc
  have : maxBenchlistWeight (cleanup b) = maxBenchlistWeight b := by
    unfold maxBenchlistWeight
    rw [h3.maxPortion, h3.vdrs]
  unfold Capped benchedWeight
  rw [this]
  exact h2

theorem cleanup_single_expired (b : queryBenchlist) (v : ShortID)
    (ho : b.benchlistOrder = [v]) (he : ¬ b.clock < endTime b v) :
    (cleanup b).benchlistOrder = [] := by
  rcases cleanup_cases b with h | ⟨b1, hloop, h⟩
  · rw [h]; rfl
  · rw [h]
    rw [ho, cleanupLoop] at hloop
    have hcond : ¬ (b.clock < endTime b v ∧
        b.vdrs.sumWeights b.benchlistSet < maxBenchlistWeight b) := fun hh => he hh.1
    rw [if_neg hcond] at hloop
    cases hgw : b.vdrs.GetWeight v with
    | none =>
      simp only [hgw, cleanupLoop, Option.some.injEq] at hloop
      rw [← hloop]
    | some rw =>
      simp only [hgw] at hloop
      cases hs : Sub64 (b.vdrs.sumWeights b.benchlistSet) rw with
      | none => simp [hs] at hloop
      | some nw =>
        simp only [hs, cleanupLoop, Option.some.injEq] at hloop
        rw [← hloop]

theorem cleanup_ordInv (b : queryBenchlist) (hc : Inv b)
    (ho : Ordered b.benchlistOrder b.benchlistTimes (b.clock + b.duration))
    (hneg : b.duration < 0 → (cleanup b).benchlistOrder = []) : OrdInv (cleanup b) := by
  obtain ⟨_, _, h3, h4⟩ := cleanup_spec b hc
  refine ⟨?_, ?_⟩
  · rw [h3.clock, h3.duration]
    exact h4 _ ho
  · rw [h3.duration]
    exact hneg

theorem cleanup_ordInv_of_ordInv (b : queryBenchlist) (hc : Inv b) (ho : OrdInv b) :
    OrdInv (cleanup b) := by
  apply cleanup_ordInv b hc ho.1
  intro hd
  have hnil := ho.2 hd
  rcases cleanup_cases b with h | ⟨b1, hloop, h⟩
  · rw [h]; rfl
  · rw [h]
    rw [hnil, cleanupLoop] at hloop
    rw [← Option.some.inj hloop]

theorem minEndTime_ge_last (b : queryBenchlist) {last : ShortID}
    (hl : b.benchlistOrder.getLast? = some last) : endTime b last ≤ minEndTime b := by
  unfold minEndTime
  simp only [hl]
  split <;> omega

theorem minEndTime_le_max (b : queryBenchlist) (hd : 0 ≤ b.duration)
    (hb : ∀ v ∈ b.benchlistOrder, endTime b v ≤ b.clock + b.duration) :
    minEndTime b ≤ b.clock + b.duration := by
  have h2 := tdiv_two_nonneg b.duration hd
  unfold minEndTime
  cases hl : b.benchlistOrder.getLast? with
  | none => simp only; omega
  | some last =>
    have hmem : last ∈ b.benchlistOrder := by
      obtain ⟨ys, hys⟩ := List.getLast?_eq_some_iff.mp hl
      rw [hys]; simp
    have := hb last hmem
    simp only
    split <;> omega

theorem randomizedEndTime_bounds (b : queryBenchlist) (rnd : Fraction) (hd : 0 ≤ b.duration)
    (hb : ∀ v ∈ b.benchlistOrder, endTime b v ≤ b.clock + b.duration)
    (h0 : 0 ≤ rnd.num) (h1 : rnd.num < (rnd.den : Int)) :
    minEndTime b ≤ randomizedEndTime b rnd ∧ randomizedEndTime b rnd ≤ b.clock + b.duration := by
  have hm := minEndTime_le_max b hd hb
  have ht := truncMul_bounds rnd h0 h1 (b.clock + b.duration - minEndTime b) (by omega)
  unfold randomizedEndTime
  simp only
  omega

theorem randomizedEndTime_neg (b : queryBenchlist) (rnd : Fraction) (hd : b.duration < 0)
    (ho : b.benchlistOrder = []) (h0 : 0 ≤ rnd.num) : randomizedEndTime b rnd ≤ b.clock := by
  have h2 := tdiv_two_neg b.duration hd
  have hm : minEndTime b = b.clock + Int.tdiv b.duration 2 := by
    unfold minEndTime
    rw [ho]
    rfl
  have ht := truncMul_nonpos rnd h0 (b.clock + b.duration - minEndTime b) (by omega)
  unfold randomizedEndTime
  simp only
  omega

theorem benchAdd_inv (b : queryBenchlist) (v : ShortID) (e : Int) (hc : Inv b)
    (hv : v ∉ b.benchlistSet) : Inv (benchAdd b v e) :=
  Consistent_push hc hv e

theorem bench_inv (b : queryBenchlist) (v : ShortID) (rnd : Fraction) (hc : Inv b) :
    Inv (bench b v rnd) := by
  unfold bench
  split
  · exact hc
  · rename_i hv
    exact (cleanup_spec _ (benchAdd_inv b v _ hc hv)).1

theorem bench_capped (b : queryBenchlist) (v : ShortID) (rnd : Fraction) (hc : Inv b)
    (hcap : Capped b) : Capped (bench b v rnd) := by
  unfold bench
  split
  · exact hcap
  · rename_i hv
    exact cleanup_capped _ (benchAdd_inv b v _ hc hv)

theorem bench_ordInv (b : queryBenchlist) (v : ShortID) (rnd : Fraction) (hc : Inv b)
    (ho : OrdInv b) (h0 : 0 ≤ rnd.num) (h1 : rnd.num < (rnd.den : Int)) :
    OrdInv (bench b v rnd) := by
  unfold bench
  split
  · exact ho
  · rename_i hv
    have hpush := benchAdd_inv b v (randomizedEndTime b rnd) hc hv
    rcases lt_or_le b.duration 0 with hd | hd
    · have hnil := ho.2 hd
      have hexp := randomizedEndTime_neg b rnd hd hnil h0
      have hempty : (cleanup (benchAdd b v (randomizedEndTime b rnd))).benchlistOrder = [] := by
        apply cleanup_single_expired _ v
        · show b.benchlistOrder ++ [v] = [v]
          rw [hnil]; rfl
        · show ¬ b.clock < endOf (mapSet b.benchlistTimes v (randomizedEndTime b rnd)) v
          rw [endOf_mapSet_self]
          omega
      refine ⟨?_, fun _ => hempty⟩
      rw [hempty]
      exact Ordered_empty _ _
    · have hbounds := randomizedEndTime_bounds b rnd hd ho.1.bound h0 h1
      apply cleanup_ordInv _ hpush
      · apply Ordered_push hc hv ho.1 _ hbounds.2
        intro x hx
        cases hl : b.benchlistOrder.getLast? with
        | none =>
          rw [List.getLast?_eq_none_iff] at hl
          rw [hl] at hx
          exact absurd hx (List.not_mem_nil _)
        | some last =>
          have h5 := le_last_of_sorted ho.1.sorted hl x hx
          have h6 := minEndTime_ge_last b hl
          unfold endTime at h6
          omega
      · intro hneg
        exact absurd hneg (not_lt.mpr hd)

theorem Ordered_mono {order : List ShortID} {times : List (ShortID × Int)} {B B1 : Int}
    (h : Ordered order times B) (hB : B ≤ B1) : Ordered order times B1 :=
  ⟨h.sorted, fun v hv => le_trans (h.bound v hv) hB⟩

theorem removeQuery_shape (b : queryBenchlist) (v : ShortID) (r : Nat) :
    ∃ pq, (removeQuery b v r).1 = { b with pendingQueries := pq } := by
  unfold removeQuery
  split
  · exact ⟨b.pendingQueries, rfl⟩
  · split
    · exact ⟨b.pendingQueries, rfl⟩
    · dsimp only
      split
      · exact ⟨_, rfl⟩
      · exact ⟨_, rfl⟩

theorem benched_shape (b : queryBenchlist) (v : ShortID) :
    benched b v = (b, false) ∨ benched b v = (b, true) ∨ benched b v = (cleanup b, false) := by
  unfold benched
  split
  · left; rfl
  · split
    · right; left; rfl
    · right; right; rfl

theorem RegisterQuery_shape (b : queryBenchlist) (v : ShortID) (r t : Nat) :
    ∃ pq, (RegisterQuery b v r t).1 = { b with pendingQueries := pq } ∨
      (RegisterQuery b v r t).1 = { cleanup b with pendingQueries := pq } := by
  unfold RegisterQuery
  rcases benched_shape b v with h | h | h <;> rw [h]
  · exact ⟨_, Or.inl rfl⟩
  · exact ⟨b.pendingQueries, Or.inl rfl⟩
  · exact ⟨_, Or.inr rfl⟩

theorem RegisterResponse_shape (b : queryBenchlist) (v : ShortID) (r : Nat) :
    ∃ pq cf, RegisterResponse b v r =
      { b with pendingQueries := pq, consecutiveFailures := cf } := by
  unfold RegisterResponse
  obtain ⟨pq, hpq⟩ := removeQuery_shape b v r
  cases hr : removeQuery b v r with
  | mk b1 ok =>
    rw [hr] at hpq
    simp only at hpq
    subst hpq
    cases ok
    · exact ⟨pq, b.consecutiveFailures, rfl⟩
    · exact ⟨pq, _, rfl⟩

theorem QueryFailed_shape (b : queryBenchlist) (v : ShortID) (r : Nat) (rnd : Fraction) :
    ∃ pq cf, QueryFailed b v r rnd =
        { b with pendingQueries := pq, consecutiveFailures := cf } ∨
      QueryFailed b v r rnd =
        bench { b with pendingQueries := pq, consecutiveFailures := cf } v rnd := by
  unfold QueryFailed
  obtain ⟨pq, hpq⟩ := removeQuery_shape b v r
  cases hr : removeQuery b v r with
  | mk b1 ok =>
    rw [hr] at hpq
    simp only at hpq
    subst hpq
    cases ok
    · exact ⟨pq, b.consecutiveFailures, Or.inl rfl⟩
    · simp only
      split
      · exact ⟨pq, _, Or.inr rfl⟩
      · exact ⟨pq, _, Or.inl rfl⟩

theorem cleanup_good (b : queryBenchlist) (h : Inv b) : Good (cleanup b) :=
  ⟨(cleanup_spec b h).1, cleanup_capped b h⟩

theorem bench_good (b : queryBenchlist) (v : ShortID) (rnd : Fraction) (h : Good b) :
    Good (bench b v rnd) := by
  unfold bench
  split
  · exact h
  · rename_i hv
    exact cleanup_good _ (benchAdd_inv b v _ h.1 hv)

theorem step_good (b : queryBenchlist) (c : Call) (h : Good b) : Good (step b c) := by
  cases c with
  | registerQuery now v r t =>
    obtain ⟨pq, hs | hs⟩ := RegisterQuery_shape { b with clock := now } v r t
    · show Good (RegisterQuery { b with clock := now } v r t).1
      rw [hs]
      exact h
    · show Good (RegisterQuery { b with clock := now } v r t).1
      rw [hs]
      exact cleanup_good { b with clock := now } h.1
  | registerResponse now v r =>
    obtain ⟨pq, cf, hs⟩ := RegisterResponse_shape { b with clock := now } v r
    show Good (RegisterResponse { b with clock := now } v r)
    rw [hs]
    exact h
  | queryFailed now v r rnd =>
    obtain ⟨pq, cf, hs | hs⟩ := QueryFailed_shape { b with clock := now } v r rnd
    · show Good (QueryFailed { b with clock := now } v r rnd)
      rw [hs]
      exact h
    · show Good (QueryFailed { b with clock := now } v r rnd)
      rw [hs]
      exact bench_good _ v rnd h

theorem goodOrd_setClock (b : queryBenchlist) (now : Int) (h : GoodOrd b)
    (hnow : b.clock ≤ now) : GoodOrd { b with clock := now } := by
  refine ⟨h.1, ?_, h.2.2⟩
  exact Ordered_mono h.2.1 (by show b.clock + b.duration ≤ now + b.duration; omega)

theorem step_goodOrd (b : queryBenchlist) (c : Call) (h : GoodOrd b)
    (hnow : b.clock ≤ c.now) (hdraw : c.drawOk) : GoodOrd (step b c) := by
  cases c with
  | registerQuery now v r t =>
    have h1 := goodOrd_setClock b now h hnow
    obtain ⟨pq, hs | hs⟩ := RegisterQuery_shape { b with clock := now } v r t
    · show GoodOrd (RegisterQuery { b with clock := now } v r t).1
      rw [hs]
      exact h1
    · show GoodOrd (RegisterQuery { b with clock := now } v r t).1
      rw [hs]
      exact ⟨(cleanup_spec _ h1.1).1, cleanup_ordInv_of_ordInv _ h1.1 h1.2⟩
  | registerResponse now v r =>
    have h1 := goodOrd_setClock b now h hnow
    obtain ⟨pq, cf, hs⟩ := RegisterResponse_shape { b with clock := now } v r
    show GoodOrd (RegisterResponse { b with clock := now } v r)
    rw [hs]
    exact h1
  | queryFailed now v r rnd =>
    have h1 := goodOrd_setClock b now h hnow
    obtain ⟨pq, cf, hs | hs⟩ := QueryFailed_shape { b with clock := now } v r rnd
    · show GoodOrd (QueryFailed { b with clock := now } v r rnd)
      rw [hs]
      exact h1
    · show GoodOrd (QueryFailed { b with clock := now } v r rnd)
      rw [hs]
      refine ⟨bench_inv _ v rnd ?_, bench_ordInv _ v rnd ?_ ?_ hdraw.1 hdraw.2⟩
      · exact h1.1
      · exact h1.1
      · exact h1.2

theorem step_clock (b : queryBenchlist) (c : Call) : (step b c).clock = c.now := by
  cases c with
  | registerQuery now v r t =>
    obtain ⟨pq, hs | hs⟩ := RegisterQuery_shape { b with clock := now } v r t
    · show (RegisterQuery { b with clock := now } v r t).1.clock = now
      rw [hs]
    · show (RegisterQuery { b with clock := now } v r t).1.clock = now
      rw [hs]
      exact (cleanup_spec_params _).clock
  | registerResponse now v r =>
    obtain ⟨pq, cf, hs⟩ := RegisterResponse_shape { b with clock := now } v r
    show (RegisterResponse { b with clock := now } v r).clock = now
    rw [hs]
  | queryFailed now v r rnd =>
    obtain ⟨pq, cf, hs | hs⟩ := QueryFailed_shape { b with clock := now } v r rnd
    · show (QueryFailed { b with clock := now } v r rnd).clock = now
      rw [hs]
    · show (QueryFailed { b with clock := now } v r rnd).clock = now
      rw [hs]
      unfold bench
      split
      · rfl
      · exact (cleanup_spec_params _).clock

theorem step_setClock (b : queryBenchlist) (t : Int) (c : Call) :
    step { b with clock := t } c = step b c := by
  cases c <;> rfl

theorem bench_params (b : queryBenchlist) (v : ShortID) (rnd : Fraction) :
    SameParams b (bench b v rnd) := by
  unfold bench
  split
  · exact ⟨rfl, rfl, rfl, rfl, rfl, rfl⟩
  · have h := cleanup_spec_params (benchAdd b v (randomizedEndTime b rnd))
    exact ⟨h.vdrs, h.threshold, h.minimumFailingDuration, h.duration, h.maxPortion, h.clock⟩

theorem step_config (b : queryBenchlist) (c : Call) :
    (step b c).vdrs = b.vdrs ∧ (step b c).maxPortion = b.maxPortion := by
  cases c with
  | registerQuery now v r t =>
    obtain ⟨pq, hs | hs⟩ := RegisterQuery_shape { b with clock := now } v r t
    · show (RegisterQuery { b with clock := now } v r t).1.vdrs = _ ∧
        (RegisterQuery { b with clock := now } v r t).1.maxPortion = _
      rw [hs]
      exact ⟨rfl, rfl⟩
    · show (RegisterQuery { b with clock := now } v r t).1.vdrs = _ ∧
        (RegisterQuery { b with clock := now } v r t).1.maxPortion = _
      rw [hs]
      have h := cleanup_spec_params { b with clock := now }
      exact ⟨h.vdrs, h.maxPortion⟩
  | registerResponse now v r =>
    obtain ⟨pq, cf, hs⟩ := RegisterResponse_shape { b with clock := now } v r
    show (RegisterResponse { b with clock := now } v r).vdrs = _ ∧
      (RegisterResponse { b with clock := now } v r).maxPortion = _
    rw [hs]
    exact ⟨rfl, rfl⟩
  | queryFailed now v r rnd =>
    obtain ⟨pq, cf, hs | hs⟩ := QueryFailed_shape { b with clock := now } v r rnd
    · show (QueryFailed { b with clock := now } v r rnd).vdrs = _ ∧
        (QueryFailed { b with clock := now } v r rnd).maxPortion = _
      rw [hs]
      exact ⟨rfl, rfl⟩
    · show (QueryFailed { b with clock := now } v r rnd).vdrs = _ ∧
        (QueryFailed { b with clock := now } v r rnd).maxPortion = _
      rw [hs]
      have h := bench_params
        { b with clock := now, pendingQueries := pq, consecutiveFailures := cf } v rnd
      exact ⟨h.vdrs, h.maxPortion⟩

theorem run_good : ∀ (calls : List Call) (b : queryBenchlist), Good b → Good (run b calls) := by
  intro calls
  induction calls with
  | nil => intro b h; exact h
  | cons c cs ih => intro b h; exact ih (step b c) (step_good b c h)

theorem run_config : ∀ (calls : List Call) (b : queryBenchlist),
    (run b calls).vdrs = b.vdrs ∧ (run b calls).maxPortion = b.maxPortion := by
  intro calls
  induction calls with
  | nil => intro b; exact ⟨rfl, rfl⟩
  | cons c cs ih =>
    intro b
    have h1 := ih (step b c)
    have h2 := step_config b c
    exact ⟨h1.1.trans h2.1, h1.2.trans h2.2⟩

theorem run_goodOrd : ∀ (calls : List Call) (b : queryBenchlist), GoodOrd b →
    List.Chain (· ≤ ·) b.clock (calls.map Call.now) → (∀ c ∈ calls, c.drawOk) →
    GoodOrd (run b calls) := by
  intro calls
  induction calls with
  | nil => intro b h _ _; exact h
  | cons c cs ih =>
    intro b h hchain hdraw
    rw [List.map_cons, List.chain_cons] at hchain
    apply ih (step b c) (step_goodOrd b c h hchain.1 (hdraw c (List.mem_cons_self _ _)))
    · rw [step_clock]
      exact hchain.2
    · intro c1 hc1
      exact hdraw c1 (List.mem_cons_of_mem _ hc1)

theorem new_good (validators : ValidatorSet) (threshold : Int)
    (minimumFailingDuration duration : Int) (maxPortion : Fraction) :
    Good (NewQueryBenchlist validators threshold minimumFailingDuration duration maxPortion) :=
  ⟨Consistent_empty, Or.inl rfl⟩

/-- C1. Benchlist order invariant: after any sequence of RegisterQuery,
RegisterResponse and QueryFailed calls on a new benchlist, made with a
non-decreasing clock (and draws of the random source in `[0, 1)`), the end
times of the validators of `benchlistOrder`, read front to back, are
non-decreasing. -/
theorem benchlist_order_sorted (validators : ValidatorSet) (threshold : Int)
    (minimumFailingDuration duration : Int) (maxPortion : Fraction) (calls : List Call)
    (hclock : List.Chain' (· ≤ ·) (calls.map Call.now))
    (hdraw : ∀ c ∈ calls, c.drawOk) :
    List.Sorted (· ≤ ·)
      (orderEndTimes
        (run (NewQueryBenchlist validators threshold minimumFailingDuration duration maxPortion)
          calls)) := by
  cases calls with
  | nil =>
    show List.Sorted (· ≤ ·) []
    exact List.sorted_nil
  | cons c cs =>
    have h0 : GoodOrd { NewQueryBenchlist validators threshold minimumFailingDuration duration
        maxPortion with clock := c.now } :=
      ⟨Consistent_empty, Ordered_empty _ _, fun _ => rfl⟩
    have h1 := run_goodOrd (c :: cs) _ h0 (by
      rw [List.map_cons]
      exact List.Chain.cons (le_refl _) hclock) hdraw
    have h2 : run { NewQueryBenchlist validators threshold minimumFailingDuration duration
        maxPortion with clock := c.now } (c :: cs) =
        run (NewQueryBenchlist validators threshold minimumFailingDuration duration maxPortion)
          (c :: cs) := by
      show run (step _ c) cs = run (step _ c) cs
      rw [step_setClock]
    rw [h2] at h1
    exact h1.2.1.sorted

/-- Witness of C1: two validators are benched one after the other. -/
theorem benchlist_order_sorted_witness :
    List.Chain' (· ≤ ·)
        ([Call.registerQuery 5 1 0 0, Call.queryFailed 6 1 0 ⟨1, 2⟩,
          Call.registerQuery 7 1 1 0, Call.queryFailed 8 1 1 ⟨1, 2⟩,
          Call.registerQuery 9 2 0 0, Call.queryFailed 9 2 0 ⟨1, 2⟩,
          Call.registerQuery 9 2 1 0, Call.queryFailed 10 2 1 ⟨3, 4⟩].map Call.now) ∧
      orderEndTimes
        (run (NewQueryBenchlist ⟨[(1, 10), (2, 10), (3, 80)], 100⟩ 2 0 100 ⟨1, 2⟩)
          [Call.registerQuery 5 1 0 0, Call.queryFailed 6 1 0 ⟨1, 2⟩,
           Call.registerQuery 7 1 1 0, Call.queryFailed 8 1 1 ⟨1, 2⟩,
           Call.registerQuery 9 2 0 0, Call.queryFailed 9 2 0 ⟨1, 2⟩,
           Call.registerQuery 9 2 1 0, Call.queryFailed 10 2 1 ⟨3, 4⟩]) = [83, 103] ∧
      List.Sorted (· ≤ ·)
        (orderEndTimes
          (run (NewQueryBenchlist ⟨[(1, 10), (2, 10), (3, 80)], 100⟩ 2 0 100 ⟨1, 2⟩)
            [Call.registerQuery 5 1 0 0, Call.queryFailed 6 1 0 ⟨1, 2⟩,
             Call.registerQuery 7 1 1 0, Call.queryFailed 8 1 1 ⟨1, 2⟩,
             Call.registerQuery 9 2 0 0, Call.queryFailed 9 2 0 ⟨1, 2⟩,
             Call.registerQuery 9 2 1 0, Call.queryFailed 10 2 1 ⟨3, 4⟩])) :=
  ⟨by simp [Call.now], by decide,
    benchlist_order_sorted ⟨[(1, 10), (2, 10), (3, 80)], 100⟩ 2 0 100 ⟨1, 2⟩ _
      (by simp [Call.now]) (by decide)⟩

/-- Counterexample to C2 as stated: the validators hold `2 ^ 54 + 7` and
`2 ^ 54 + 5` units of stake and `maxPortion` is one half. `float64(totalWeight)`
rounds the total `2 ^ 55 + 12` to `2 ^ 55 + 16`, the bound of `cleanup` is
`2 ^ 54 + 8`, and validator 1 stays benched with a weight above one half of the
total, `2 ^ 54 + 6`. And under a negative `maxPortion` the benched weight 0
after a first `RegisterQuery` is above `maxPortion` times the total. -/
theorem bench_cap_counterexample :
    maxBenchlistWeight
        (NewQueryBenchlist ⟨[(1, 18014398509481991), (2, 18014398509481989)],
          36028797018963980⟩ 2 0 100 ⟨1, 2⟩) = 18014398509481992 ∧
      (run (NewQueryBenchlist ⟨[(1, 18014398509481991), (2, 18014398509481989)],
          36028797018963980⟩ 2 0 100 ⟨1, 2⟩)
        [Call.registerQuery 5 1 0 0, Call.queryFailed 6 1 0 ⟨1, 2⟩,
         Call.registerQuery 7 1 1 0, Call.queryFailed 8 1 1 ⟨1, 2⟩]).benchlistSet = [1] ∧
      ¬ ((benchedWeight
        (run (NewQueryBenchlist ⟨[(1, 18014398509481991), (2, 18014398509481989)],
            36028797018963980⟩ 2 0 100 ⟨1, 2⟩)
          [Call.registerQuery 5 1 0 0, Call.queryFailed 6 1 0 ⟨1, 2⟩,
           Call.registerQuery 7 1 1 0, Call.queryFailed 8 1 1 ⟨1, 2⟩]) : ℚ) ≤
        (Fraction.mk 1 2).toRat *
          ((ValidatorSet.mk [(1, 18014398509481991), (2, 18014398509481989)]
            36028797018963980).Weight : ℚ)) ∧
      ¬ ((benchedWeight (run (NewQueryBenchlist ⟨[(1, 10)], 10⟩ 2 0 100 ⟨-1, 2⟩)
          [Call.registerQuery 5 1 0 0]) : ℚ) ≤
        (Fraction.mk (-1) 2).toRat * ((ValidatorSet.mk [(1, 10)] 10).Weight : ℚ)) := by
  refine ⟨by decide, by decide, ?_, ?_⟩
  · have hw : benchedWeight
        (run (NewQueryBenchlist ⟨[(1, 18014398509481991), (2, 18014398509481989)],
            36028797018963980⟩ 2 0 100 ⟨1, 2⟩)
          [Call.registerQuery 5 1 0 0, Call.queryFailed 6 1 0 ⟨1, 2⟩,
           Call.registerQuery 7 1 1 0, Call.queryFailed 8 1 1 ⟨1, 2⟩]) =
        18014398509481991 := by
      decide
    rw [hw]
    norm_num [Fraction.toRat, ValidatorSet.Weight]
  · have hw : benchedWeight (run (NewQueryBenchlist ⟨[(1, 10)], 10⟩ 2 0 100 ⟨-1, 2⟩)
        [Call.registerQuery 5 1 0 0]) = 0 := by
      decide
    rw [hw]
    norm_num [Fraction.toRat, ValidatorSet.Weight]

/-- C2, amended. Bench cap invariant: over a fixed validator set whose total
stake weight is at least the sum of the stake weights of its validators and at
most `2 ^ 53`, so that `float64(totalWeight)` is exact, and with a non-negative
`maxPortion`, after every sequence of RegisterQuery, RegisterResponse and
QueryFailed calls on a new benchlist, the sum of the stake weights of the
benched validators is at most `maxPortion` times the total stake weight. -/
theorem bench_cap (validators : ValidatorSet) (threshold : Int)
    (minimumFailingDuration duration : Int) (maxPortion : Fraction) (calls : List Call)
    (hportion : 0 ≤ maxPortion.num) (hden : 0 < maxPortion.den)
    (hsum : (validators.weights.map Prod.snd).sum ≤ validators.Weight)
    (htotal : validators.Weight ≤ 2 ^ 53) :
    (benchedWeight
        (run (NewQueryBenchlist validators threshold minimumFailingDuration duration maxPortion)
          calls) : ℚ) ≤ maxPortion.toRat * (validators.Weight : ℚ) := by
  have h := run_good calls _
    (new_good validators threshold minimumFailingDuration duration maxPortion)
  have hc := run_config calls
    (NewQueryBenchlist validators threshold minimumFailingDuration duration maxPortion)
  obtain ⟨b, hb⟩ : ∃ b, b = run (NewQueryBenchlist validators threshold
      minimumFailingDuration duration maxPortion) calls := ⟨_, rfl⟩
  rw [← hb] at h hc ⊢
  have hvd : b.vdrs = validators := hc.1
  have hmp : b.maxPortion = maxPortion := hc.2
  obtain ⟨n, hn⟩ : ∃ n : Nat, maxPortion.num = (n : Int) := ⟨maxPortion.num.toNat, by omega⟩
  have hnat : benchedWeight b * maxPortion.den ≤ n * validators.Weight := by
    rcases Nat.lt_or_ge maxPortion.den n with hgt | hle
    · have hw : benchedWeight b ≤ validators.Weight := by
        unfold benchedWeight ValidatorSet.sumWeights ValidatorSet.GetWeight
        rw [hvd]
        exact le_trans (sum_getD_le _ _ h.1.setNodup) hsum
      calc benchedWeight b * maxPortion.den ≤ validators.Weight * n :=
            Nat.mul_le_mul hw (le_of_lt hgt)
        _ = n * validators.Weight := Nat.mul_comm _ _
    · rcases h.2 with ho | hlt
      · have hs := set_nil_of_order_nil h.1 ho
        unfold benchedWeight
        rw [hs]
        simp [ValidatorSet.sumWeights]
      · unfold maxBenchlistWeight at hlt
        rw [hvd, hmp, hn, Int.toNat_ofNat, float64Trunc_exact _ htotal] at hlt
        have ha : n * validators.Weight ≤ 2 ^ 53 * maxPortion.den := by
          calc n * validators.Weight ≤ maxPortion.den * 2 ^ 53 := Nat.mul_le_mul hle htotal
            _ = 2 ^ 53 * maxPortion.den := Nat.mul_comm _ _
        have h1 := float64Trunc_mul_lt_of_le (n * validators.Weight) maxPortion.den hden ha
        have h2 : (benchedWeight b + 1) * maxPortion.den ≤
            float64Trunc (n * validators.Weight) maxPortion.den * maxPortion.den :=
          Nat.mul_le_mul_right _ hlt
        have h3 : (benchedWeight b + 1) * maxPortion.den =
            benchedWeight b * maxPortion.den + maxPortion.den := by ring
        omega
  have hd : (0 : ℚ) < (maxPortion.den : ℚ) := by exact_mod_cast hden
  unfold Fraction.toRat
  rw [div_mul_eq_mul_div, le_div_iff₀ hd, hn]
  exact_mod_cast hnat

/-- Witness of C2: validator 1 (weight 10 of 100, cap one half) is benched. -/
theorem bench_cap_witness :
    (run (NewQueryBenchlist ⟨[(1, 10), (2, 10), (3, 80)], 100⟩ 2 0 100 ⟨1, 2⟩)
        [Call.registerQuery 5 1 0 0, Call.queryFailed 6 1 0 ⟨1, 2⟩,
         Call.registerQuery 7 1 1 0, Call.queryFailed 8 1 1 ⟨1, 2⟩]).benchlistSet = [1] ∧
      (benchedWeight
        (run (NewQueryBenchlist ⟨[(1, 10), (2, 10), (3, 80)], 100⟩ 2 0 100 ⟨1, 2⟩)
          [Call.registerQuery 5 1 0 0, Call.queryFailed 6 1 0 ⟨1, 2⟩,
           Call.registerQuery 7 1 1 0, Call.queryFailed 8 1 1 ⟨1, 2⟩]) : ℚ) ≤
        (Fraction.mk 1 2).toRat * ((ValidatorSet.mk [(1, 10), (2, 10), (3, 80)] 100).Weight : ℚ) :=
  ⟨by decide,
    bench_cap ⟨[(1, 10), (2, 10), (3, 80)], 100⟩ 2 0 100 ⟨1, 2⟩
      [Call.registerQuery 5 1 0 0, Call.queryFailed 6 1 0 ⟨1, 2⟩,
       Call.registerQuery 7 1 1 0, Call.queryFailed 8 1 1 ⟨1, 2⟩] (by decide) (by decide)
      (by decide) (by decide)⟩

/-- C10. `RegisterQuery(v, r, t)` returns false exactly when `v` has a benchlist
entry whose end time is strictly after the clock; when it returns false the
state is unchanged (so no pending query is recorded), and when it returns true
the query `(v, r)` is pending afterwards with the current time and `t`. -/
theorem RegisterQuery_spec (b : queryBenchlist) (v : ShortID) (r t : Nat) :
    ((RegisterQuery b v r t).2 = false ↔
        ∃ e, mapGet b.benchlistTimes v = some e ∧ b.clock < e) ∧
      ((RegisterQuery b v r t).2 = false → (RegisterQuery b v r t).1 = b) ∧
      ((RegisterQuery b v r t).2 = true →
        ∃ reqs, mapGet (RegisterQuery b v r t).1.pendingQueries v = some reqs ∧
          mapGet reqs r = some { registered := b.clock, msgType := t }) := by
  unfold RegisterQuery benched
  cases hget : mapGet b.benchlistTimes v with
  | none =>
    refine ⟨by simp, by simp, fun _ => ?_⟩
    exact ⟨_, mapGet_mapSet_self _ _ _, mapGet_mapSet_self _ _ _⟩
  | some e =>
    by_cases hlt : b.clock < e
    · simp [hlt]
    · refine ⟨by simp [hlt], by simp [hlt], fun _ => ?_⟩
      simp only [hlt, if_false]
      refine ⟨_, mapGet_mapSet_self _ _ _, ?_⟩
      rw [(cleanup_spec_params b).clock]
      exact mapGet_mapSet_self _ _ _

end Benchlist

namespace AvalancheVoter

/-- C6, the code at the failing input. Voter 0 votes for vertex 3, which is
fetched, undecided and not issued; its parent 2 is not issued either, and the
grandparent 1 is issued and undecided. `bubbleVotes` returns a bag in which
vertex 1 has no voter: the votes that reached vertex 2 are removed when vertex
2 is popped, and its parents get the votes cast for vertex 2 itself, which are
none. A vote for vertex 2 does reach vertex 1. -/
theorem bubbleVotes_not_transitive :
    bubbleVotes lineEngine [(3, [0])] 10 = some ([(1, [])], false) ∧
      (0 : Nat) ∉ GetSet [(1, [])] 1 ∧
      bubbleVotes lineEngine [(2, [0])] 10 = some ([(1, [0])], false) := by
  decide

end AvalancheVoter

namespace SnowmanVoter

open Choices

theorem Count_AddCount (b : Bag) (id X : ID) (count : Nat) :
    Count (AddCount b id count) X = Count b X + (if id = X then count else 0) := by
  unfold AddCount
  by_cases hc : count = 0
  · simp [hc]
  · simp only [hc, if_false]
    by_cases hx : id = X
    · subst hx
      simp [Count, mapGet_mapSet_self]
    · simp [Count, mapGet_mapSet_ne b _ (Ne.symm hx), hx]

theorem walkEnd_eq (issued : Block → Bool) (blk : Block) :
    walkEnd issued blk = some (walkUp issued blk) := by
  induction blk with
  | missing id => simp [walkEnd, chain, walkUp, Block.Status, Status.Fetched, Status.Decided]
  | block id status parent ih =>
    unfold walkEnd at ih ⊢
    rw [chain, walkUp]
    by_cases h : (status.Fetched && !issued (Block.block id status parent)) = true
    · rw [if_pos h]
      rw [Bool.and_eq_true, Bool.not_eq_true'] at h
      rw [List.find?_cons_of_neg _ (by simp [Block.Status, h.1, h.2])]
      exact ih
    · rw [if_neg h]
      rw [List.find?_cons_of_pos]
      rw [Bool.and_eq_true, Bool.not_eq_true', not_and_or] at h
      rcases h with h | h
      · simp [Block.Status, h]
      · simp at h
        simp [h]

theorem bubbleVote_count (getBlock : ID → Option Block) (issued : Block → Bool) (votes : Bag)
    (acc : Bag) (vote X : ID) :
    Count (bubbleVote getBlock issued votes acc vote) X =
      Count acc X + (if creditedTo getBlock issued vote = some X then Count votes vote else 0) := by
  unfold bubbleVote creditedTo
  cases hg : getBlock vote with
  | none => simp
  | some blk =>
    simp only [walkEnd_eq]
    by_cases hc : (!(walkUp issued blk).Status.Decided && issued (walkUp issued blk)) = true
    · have hc2 : (issued (walkUp issued blk) && !(walkUp issued blk).Status.Decided) = true := by
        rw [Bool.and_comm]; exact hc
      rw [if_pos hc, if_pos hc2, Count_AddCount]
      simp
    · have hc2 : ¬ (issued (walkUp issued blk) && !(walkUp issued blk).Status.Decided) = true := by
        rw [Bool.and_comm]; exact hc
      rw [if_neg hc, if_neg hc2]
      simp

theorem foldl_bubbleVote_count (getBlock : ID → Option Block) (issued : Block → Bool)
    (votes : Bag) (X : ID) : ∀ (l : List ID) (acc : Bag),
    Count (l.foldl (bubbleVote getBlock issued votes) acc) X =
      Count acc X +
        ((l.filter (fun vote => decide (creditedTo getBlock issued vote = some X))).map
          (Count votes)).sum := by
  intro l
  induction l with
  | nil => intro acc; simp
  | cons v rest ih =>
    intro acc
    rw [List.foldl_cons, ih, bubbleVote_count]
    by_cases h : creditedTo getBlock issued v = some X
    · simp [h, List.filter_cons, Nat.add_assoc]
    · simp [h, List.filter_cons]

theorem find?_congr_mem {α : Type} (p q : α → Bool) :
    ∀ (l : List α), (∀ x ∈ l, p x = q x) → l.find? p = l.find? q := by
  intro l
  induction l with
  | nil => intro _; rfl
  | cons a t ih =>
    intro h
    have ha := h a (List.mem_cons_self _ _)
    have ht := ih (fun x hx => h x (List.mem_cons_of_mem _ hx))
    simp only [List.find?_cons, ha, ht]

/-- C7. Snowman vote bubbling: in the bag that `bubbleVotes` returns, the count
of every ID `X` is the sum of the counts of the votes credited to `X`, where a
vote is credited to the block at which the walk block, parent, grandparent, ...
from the voted block ends, provided that block is issued and not decided; a
vote whose block the VM cannot fetch, or whose walk ends at a block that is not
issued or is decided, is credited to no ID. The walk ends at the first block
that is issued or not fetched, which is the first issued block of the chain
when the blocks of the chain that are not issued are fetched. In particular a
vote for a fetched, un-issued block whose parent is issued and not decided is
credited to the parent. -/
theorem bubbleVotes_count (getBlock : ID → Option Block) (issued : Block → Bool)
    (votes : Bag) (X : ID) :
    Count (bubbleVotes getBlock issued votes) X =
        (((Bag.List votes).filter
          (fun vote => decide (creditedTo getBlock issued vote = some X))).map
            (Count votes)).sum ∧
      (∀ blk : Block, (∀ b ∈ chain blk, issued b = false → b.Status.Fetched = true) →
        walkEnd issued blk = (chain blk).find? issued) ∧
      (∀ (vote id : ID) (status : Status) (parent : Block),
        getBlock vote = some (Block.block id status parent) →
        status.Fetched = true → issued (Block.block id status parent) = false →
        issued parent = true → parent.Status.Decided = false →
        creditedTo getBlock issued vote = some parent.ID) := by
  refine ⟨?_, ?_, ?_⟩
  · unfold bubbleVotes
    rw [foldl_bubbleVote_count]
    simp [Count, mapGet]
  · intro blk hfetched
    unfold walkEnd
    apply find?_congr_mem
    intro b hb
    cases hi : issued b with
    | true => simp
    | false => simp [hfetched b hb hi]
  · intro vote id status parent hg hf hi hpi hpd
    unfold creditedTo
    rw [hg]
    simp only [walkEnd_eq]
    have hw : walkUp issued (Block.block id status parent) = parent := by
      rw [walkUp]
      simp only [hf, hi, Bool.not_false, Bool.and_self, if_true]
      cases parent with
      | missing pid => rfl
      | block pid pstatus pparent =>
        rw [walkUp]
        simp [hpi]
    rw [hw]
    simp [hpi, hpd]

end SnowmanVoter

namespace Bootstrap

open Choices

theorem missingOf_length_eq_zero (deps : List Dep) :
    (missingOf deps).length = 0 ↔ ∀ d ∈ deps, d.status = Status.Accepted := by
  unfold missingOf
  rw [List.length_eq_zero, List.dedup_eq_nil, List.map_eq_nil_iff, List.filter_eq_nil_iff]
  simp

theorem txJob_Execute_missing (tx : Tx)
    (h : ¬ ∀ d ∈ tx.dependencies, d.status = Status.Accepted) :
    txJob.Execute tx =
      { err := some Error.errMissingDependencies, calls := [], numAccepted := 0,
        numDropped := 1 } := by
  unfold txJob.Execute txJob.MissingDependencies
  rw [if_pos (fun h0 => h ((missingOf_length_eq_zero _).mp h0))]

theorem txJob_Execute_ready (tx : Tx) (h : ∀ d ∈ tx.dependencies, d.status = Status.Accepted) :
    txJob.Execute tx =
      match tx.status with
      | Status.Unknown =>
        { err := some (Error.errBadStatus Status.Unknown), calls := [], numAccepted := 0,
          numDropped := 1 }
      | Status.Rejected =>
        { err := some (Error.errBadStatus Status.Rejected), calls := [], numAccepted := 0,
          numDropped := 1 }
      | Status.Processing =>
        match tx.acceptErr with
        | some cause =>
          { err := some (Error.errAccept cause), calls := [Method.Verify, Method.Accept],
            numAccepted := 1, numDropped := 0 }
        | none =>
          { err := none, calls := [Method.Verify, Method.Accept], numAccepted := 1,
            numDropped := 0 }
      | Status.Accepted => { err := none, calls := [], numAccepted := 0, numDropped := 0 } := by
  unfold txJob.Execute txJob.MissingDependencies
  rw [if_neg (not_not.mpr ((missingOf_length_eq_zero _).mpr h))]

theorem vertexJob_Execute_parentsError (vtx : Vertex) (cause : Nat)
    (hp : vtx.parents = Except.error cause) :
    vertexJob.Execute vtx =
      { err := some (Error.errExternal cause), calls := [], numAccepted := 0,
        numDropped := 0 } := by
  unfold vertexJob.Execute vertexJob.MissingDependencies
  rw [hp]

theorem vertexJob_Execute_missing (vtx : Vertex) (ps : List Dep)
    (hp : vtx.parents = Except.ok ps) (h : ¬ ∀ d ∈ ps, d.status = Status.Accepted) :
    vertexJob.Execute vtx =
      { err := some Error.errMissingDependencies, calls := [], numAccepted := 0,
        numDropped := 1 } := by
  unfold vertexJob.Execute vertexJob.MissingDependencies
  rw [hp]
  simp only
  rw [if_pos (fun h0 => h ((missingOf_length_eq_zero _).mp h0))]

theorem vertexJob_Execute_txsError (vtx : Vertex) (ps : List Dep) (cause : Nat)
    (hp : vtx.parents = Except.ok ps) (h : ∀ d ∈ ps, d.status = Status.Accepted)
    (ht : vtx.txs = Except.error cause) :
    vertexJob.Execute vtx =
      { err := some (Error.errExternal cause), calls := [], numAccepted := 0,
        numDropped := 0 } := by
  unfold vertexJob.Execute vertexJob.MissingDependencies
  rw [hp]
  simp only
  rw [if_neg (not_not.mpr ((missingOf_length_eq_zero _).mpr h)), ht]

theorem vertexJob_Execute_pending (vtx : Vertex) (ps ts : List Dep)
    (hp : vtx.parents = Except.ok ps) (h : ∀ d ∈ ps, d.status = Status.Accepted)
    (ht : vtx.txs = Except.ok ts) (hts : ¬ ∀ t ∈ ts, t.status = Status.Accepted) :
    vertexJob.Execute vtx =
      { err := none, calls := [], numAccepted := 0, numDropped := 1 } := by
  unfold vertexJob.Execute vertexJob.MissingDependencies
  rw [hp]
  simp only
  rw [if_neg (not_not.mpr ((missingOf_length_eq_zero _).mpr h)), ht]
  simp only
  have hany : ts.any (fun tx => decide (tx.status ≠ Status.Accepted)) = true := by
    rw [List.any_eq_true]
    by_contra hc
    apply hts
    intro t ht1
    by_contra hne
    exact hc ⟨t, ht1, decide_eq_true hne⟩
  rw [if_pos hany]

theorem vertexJob_Execute_ready (vtx : Vertex) (ps ts : List Dep)
    (hp : vtx.parents = Except.ok ps) (h : ∀ d ∈ ps, d.status = Status.Accepted)
    (ht : vtx.txs = Except.ok ts) (hts : ∀ t ∈ ts, t.status = Status.Accepted) :
    vertexJob.Execute vtx =
      match vtx.status with
      | Status.Unknown =>
        { err := some (Error.errBadStatus Status.Unknown), calls := [], numAccepted := 0,
          numDropped := 1 }
      | Status.Rejected =>
        { err := some (Error.errBadStatus Status.Rejected), calls := [], numAccepted := 0,
          numDropped := 1 }
      | Status.Processing =>
        match vtx.acceptErr with
        | some cause =>
          { err := some (Error.errAccept cause), calls := [Method.Accept],
            numAccepted := 1, numDropped := 0 }
        | none =>
          { err := none, calls := [Method.Accept], numAccepted := 1, numDropped := 0 }
      | Status.Accepted => { err := none, calls := [], numAccepted := 0, numDropped := 0 } := by
  unfold vertexJob.Execute vertexJob.MissingDependencies
  rw [hp]
  simp only
  rw [if_neg (not_not.mpr ((missingOf_length_eq_zero _).mpr h)), ht]
  simp only
  have hany : ¬ ts.any (fun tx => decide (tx.status ≠ Status.Accepted)) = true := by
    rw [List.any_eq_true]
    rintro ⟨t, ht1, ht2⟩
    exact (of_decide_eq_true ht2) (hts t ht1)
  rw [if_neg hany]

/-- C8, counterexample: for `rejectedVertex`, whose status is Rejected (and whose
parents, there being none, are all Accepted), `vertexJob.Execute` returns nil
and not an error. -/
theorem Execute_rejected_counterexample :
    rejectedVertex.status = Status.Rejected ∧ (vertexJob.Execute rejectedVertex).err = none := by
  decide

/-- C8, amended. Each of the three jobs calls Accept only if the status is
Processing and every dependency (the parent of the block, the dependencies of
the transaction, the parents of the vertex) is Accepted; when a dependency is
not Accepted, Execute returns an error without calling Accept; when the status
is Unknown or Rejected, Execute does not call Accept, and it returns an error
for a block and a transaction, and for a vertex whose parents and
transactions are all Accepted. -/
theorem Execute_topological (blk : Block) (tx : Tx) (vtx : Vertex) :
    ((Method.Accept ∈ (blockJob.Execute blk).calls →
        blk.status = Status.Processing ∧ blk.parent.status = Status.Accepted) ∧
      ((blk.parent.status ≠ Status.Accepted ∨ blk.status = Status.Unknown ∨
          blk.status = Status.Rejected) →
        (blockJob.Execute blk).err ≠ none ∧ Method.Accept ∉ (blockJob.Execute blk).calls)) ∧
    ((Method.Accept ∈ (txJob.Execute tx).calls →
        tx.status = Status.Processing ∧ ∀ d ∈ tx.dependencies, d.status = Status.Accepted) ∧
      (((∃ d ∈ tx.dependencies, d.status ≠ Status.Accepted) ∨ tx.status = Status.Unknown ∨
          tx.status = Status.Rejected) →
        (txJob.Execute tx).err ≠ none ∧ Method.Accept ∉ (txJob.Execute tx).calls)) ∧
    ((Method.Accept ∈ (vertexJob.Execute vtx).calls →
        vtx.status = Status.Processing ∧
          ∃ ps, vtx.parents = Except.ok ps ∧ ∀ p ∈ ps, p.status = Status.Accepted) ∧
      (∀ ps, vtx.parents = Except.ok ps → (∃ p ∈ ps, p.status ≠ Status.Accepted) →
        (vertexJob.Execute vtx).err ≠ none ∧ Method.Accept ∉ (vertexJob.Execute vtx).calls) ∧
      ((vtx.status = Status.Unknown ∨ vtx.status = Status.Rejected) →
        Method.Accept ∉ (vertexJob.Execute vtx).calls ∧
          (∀ ps ts, vtx.parents = Except.ok ps → vtx.txs = Except.ok ts →
            (∀ t ∈ ts, t.status = Status.Accepted) → (vertexJob.Execute vtx).err ≠ none))) := by
  refine ⟨?_, ?_, ?_⟩
  · rcases blk with ⟨id, status, ⟨pid, pstatus⟩, verr, aerr⟩
    cases status <;> cases pstatus <;> cases verr <;> cases aerr <;>
      simp [blockJob.Execute, blockJob.MissingDependencies, missingOf]
  · by_cases hall : ∀ d ∈ tx.dependencies, d.status = Status.Accepted
    · have hno : ¬ ∃ d ∈ tx.dependencies, d.status ≠ Status.Accepted := by
        rintro ⟨d, hd, hne⟩
        exact hne (hall d hd)
      rw [txJob_Execute_ready tx hall]
      cases hs : tx.status <;> cases ha : tx.acceptErr <;> simp [hno] <;> exact hall
    · rw [txJob_Execute_missing tx hall]
      simp
  · cases hp : vtx.parents with
    | error cause =>
      rw [vertexJob_Execute_parentsError vtx cause hp]
      simp
    | ok ps =>
      by_cases hall : ∀ d ∈ ps, d.status = Status.Accepted
      · have hno : ¬ ∃ d ∈ ps, d.status ≠ Status.Accepted := by
          rintro ⟨d, hd, hne⟩
          exact hne (hall d hd)
        cases ht : vtx.txs with
        | error cause =>
          rw [vertexJob_Execute_txsError vtx ps cause hp hall ht]
          simp [hno]
        | ok ts =>
          by_cases hts : ∀ t ∈ ts, t.status = Status.Accepted
          · rw [vertexJob_Execute_ready vtx ps ts hp hall ht hts]
            cases hs : vtx.status <;> cases ha : vtx.acceptErr <;> simp [hno] <;> exact hall
          · rw [vertexJob_Execute_pending vtx ps ts hp hall ht hts]
            simp only [hno]
            simp
            refine ⟨hall, fun _ => ?_⟩
            by_contra hc
            apply hts
            intro t ht1
            by_contra hne
            exact hc ⟨t, ht1, hne⟩
      · rw [vertexJob_Execute_missing vtx ps hp hall]
        simp

/-- C9. For a vertex whose parents are all Accepted and that has a transaction
that is not Accepted, `vertexJob.Execute` returns nil and calls no method of
the vertex: it does not call Accept, and nothing it does can change the status
of the vertex. -/
theorem Execute_nonaccepted_tx (vtx : Vertex) (ps ts : List Dep)
    (hparents : vtx.parents = Except.ok ps) (hps : ∀ p ∈ ps, p.status = Status.Accepted)
    (htxs : vtx.txs = Except.ok ts) (hts : ∃ t ∈ ts, t.status ≠ Status.Accepted) :
    (vertexJob.Execute vtx).err = none ∧ (vertexJob.Execute vtx).calls = [] := by
  have hts1 : ¬ ∀ t ∈ ts, t.status = Status.Accepted := by
    obtain ⟨t, ht1, ht2⟩ := hts
    exact fun hall => ht2 (hall t ht1)
  rw [vertexJob_Execute_pending vtx ps ts hparents hps htxs hts1]
  exact ⟨rfl, rfl⟩

/-- Witness of C9: a Processing vertex with an Accepted parent and a Processing
transaction, as in the test of a missing transaction dependency. -/
theorem Execute_nonaccepted_tx_witness :
    (vertexJob.Execute
        { id := 1, status := Status.Processing,
          parents := Except.ok [{ id := 0, status := Status.Accepted }],
          txs := Except.ok [{ id := 2, status := Status.Processing }],
          acceptErr := none }).err = none ∧
      (vertexJob.Execute
        { id := 1, status := Status.Processing,
          parents := Except.ok [{ id := 0, status := Status.Accepted }],
          txs := Except.ok [{ id := 2, status := Status.Processing }],
          acceptErr := none }).calls = [] :=
  Execute_nonaccepted_tx _ [{ id := 0, status := Status.Accepted }]
    [{ id := 2, status := Status.Processing }] rfl (by decide) rfl (by decide)

end Bootstrap

namespace Benchlist

theorem removeQuery_pending (b : queryBenchlist) (v : ShortID) (r : Nat)
    {reqs : List (Nat × pendingQuery)} {q : pendingQuery}
    (hv : mapGet b.pendingQueries v = some reqs) (hr : mapGet reqs r = some q) :
    ∃ pq, removeQuery b v r = ({ b with pendingQueries := pq }, true) := by
  unfold removeQuery
  rw [hv]
  simp only
  rw [hr]
  simp only
  split
  · exact ⟨_, rfl⟩
  · exact ⟨_, rfl⟩

theorem removeQuery_absent (b : queryBenchlist) (v : ShortID) (r : Nat)
    (h : ∀ reqs, mapGet b.pendingQueries v = some reqs → mapGet reqs r = none) :
    removeQuery b v r = (b, false) := by
  unfold removeQuery
  cases hv : mapGet b.pendingQueries v with
  | none => rfl
  | some reqs =>
    simp only
    rw [h reqs hv]

theorem QueryFailed_pending (b : queryBenchlist) (v : ShortID) (r : Nat) (rnd : Fraction)
    {reqs : List (Nat × pendingQuery)} {q : pendingQuery}
    (hv : mapGet b.pendingQueries v = some reqs) (hr : mapGet reqs r = some q) :
    ∃ pq, QueryFailed b v r rnd =
      if (recordFailure ((mapGet b.consecutiveFailures v).getD ⟨0, 0⟩) b.clock).consecutive
            ≥ b.threshold ∧
          ¬ (b.clock <
            (recordFailure ((mapGet b.consecutiveFailures v).getD ⟨0, 0⟩) b.clock).firstFailure
              + b.minimumFailingDuration) then
        bench { b with
          pendingQueries := pq
          consecutiveFailures := mapSet b.consecutiveFailures v
            (recordFailure ((mapGet b.consecutiveFailures v).getD ⟨0, 0⟩) b.clock) } v rnd
      else
        { b with
          pendingQueries := pq
          consecutiveFailures := mapSet b.consecutiveFailures v
            (recordFailure ((mapGet b.consecutiveFailures v).getD ⟨0, 0⟩) b.clock) } := by
  obtain ⟨pq, hpq⟩ := removeQuery_pending b v r hv hr
  refine ⟨pq, ?_⟩
  unfold QueryFailed
  rw [hpq]

/-- C11. For a pending query `(v, r)`, `QueryFailed(v, r)` raises the
consecutive-failure count of `v` by exactly one, recording the current time as
the first failure when the count was 0 and keeping the recorded first failure
otherwise; it then calls `bench` for `v` if and only if the new count is at
least `threshold` and the current time is not before the first failure plus
`minimumFailingDuration`. When that condition is false the state returned keeps
the new streak and its set of benched validators (with the order list and the
end times) is the one before the call. -/
theorem QueryFailed_spec (b : queryBenchlist) (v : ShortID) (r : Nat) (rnd : Fraction)
    (reqs : List (Nat × pendingQuery)) (q : pendingQuery)
    (hv : mapGet b.pendingQueries v = some reqs) (hr : mapGet reqs r = some q) :
    ∃ (pq : List (ShortID × List (Nat × pendingQuery))) (streak : failureStreak),
      streak.consecutive =
          ((mapGet b.consecutiveFailures v).getD ⟨0, 0⟩).consecutive + 1 ∧
        streak.firstFailure =
          (if ((mapGet b.consecutiveFailures v).getD ⟨0, 0⟩).consecutive = 0 then b.clock
           else ((mapGet b.consecutiveFailures v).getD ⟨0, 0⟩).firstFailure) ∧
        (streak.consecutive ≥ b.threshold ∧
            ¬ (b.clock < streak.firstFailure + b.minimumFailingDuration) →
          QueryFailed b v r rnd =
            bench { b with
              pendingQueries := pq
              consecutiveFailures := mapSet b.consecutiveFailures v streak } v rnd) ∧
        (¬ (streak.consecutive ≥ b.threshold ∧
            ¬ (b.clock < streak.firstFailure + b.minimumFailingDuration)) →
          QueryFailed b v r rnd =
            { b with
              pendingQueries := pq
              consecutiveFailures := mapSet b.consecutiveFailures v streak } ∧
          mapGet (QueryFailed b v r rnd).consecutiveFailures v = some streak ∧
          (QueryFailed b v r rnd).benchlistSet = b.benchlistSet ∧
          (QueryFailed b v r rnd).benchlistOrder = b.benchlistOrder ∧
          (QueryFailed b v r rnd).benchlistTimes = b.benchlistTimes) := by
  obtain ⟨pq, hpq⟩ := QueryFailed_pending b v r rnd hv hr
  refine ⟨pq, recordFailure ((mapGet b.consecutiveFailures v).getD ⟨0, 0⟩) b.clock, ?_, ?_, ?_, ?_⟩
  · unfold recordFailure
    split <;> simp_all
  · unfold recordFailure
    split <;> simp_all
  · intro h
    rw [hpq, if_pos h]
  · intro h
    rw [hpq, if_neg h]
    exact ⟨rfl, mapGet_mapSet_self _ _ _, rfl, rfl, rfl⟩

/-- Witness of C11: the first failure of validator 1 under threshold 3. -/
theorem QueryFailed_spec_witness :
    ∃ (pq : List (ShortID × List (Nat × pendingQuery))) (streak : failureStreak),
      streak.consecutive = 0 + 1 ∧ streak.firstFailure = 6 ∧
      QueryFailed
          { (RegisterQuery (NewQueryBenchlist ⟨[(1, 10), (2, 90)], 100⟩ 3 0 100 ⟨1, 2⟩)
              1 0 0).1 with clock := 6 } 1 0 ⟨1, 2⟩ =
        { (RegisterQuery (NewQueryBenchlist ⟨[(1, 10), (2, 90)], 100⟩ 3 0 100 ⟨1, 2⟩)
              1 0 0).1 with
          clock := 6
          pendingQueries := pq
          consecutiveFailures := [(1, streak)] } := by
  obtain ⟨pq, streak, h1, h2, _, h4⟩ := QueryFailed_spec
    { (RegisterQuery (NewQueryBenchlist ⟨[(1, 10), (2, 90)], 100⟩ 3 0 100 ⟨1, 2⟩)
        1 0 0).1 with clock := 6 } 1 0 ⟨1, 2⟩ [(0, ⟨0, 0⟩)] ⟨0, 0⟩ (by decide) (by decide)
  refine ⟨pq, streak, h1, h2, ?_⟩
  have h5 : ¬ (streak.consecutive ≥ 3 ∧ ¬ ((6 : Int) < streak.firstFailure + 0)) := by
    intro h
    have : streak.consecutive = 1 := h1
    omega
  exact (h4 h5).1

/-- Counterexample to C12 as stated: validator 1 has one failure on record
and the response is for a request that is not pending; the failure stays on
record. -/
theorem RegisterResponse_resets_counterexample :
    mapGet (run (NewQueryBenchlist ⟨[(1, 10), (2, 90)], 100⟩ 3 0 100 ⟨1, 2⟩)
      [Call.registerQuery 5 1 0 0, Call.queryFailed 6 1 0 ⟨1, 2⟩,
       Call.registerResponse 7 1 9]).consecutiveFailures 1 = some ⟨6, 1⟩ := by
  decide

/-- C12, amended. When the query `(v, r)` is pending, `v` has no recorded
consecutive failures after `RegisterResponse(v, r)`; when it is not pending,
`RegisterResponse(v, r)` leaves the whole state as it was (so a recorded streak
of `v` stays). -/
theorem RegisterResponse_resets (b : queryBenchlist) (v : ShortID) (r : Nat) :
    ((∃ reqs q, mapGet b.pendingQueries v = some reqs ∧ mapGet reqs r = some q) →
        mapGet (RegisterResponse b v r).consecutiveFailures v = none) ∧
      (¬ (∃ reqs q, mapGet b.pendingQueries v = some reqs ∧ mapGet reqs r = some q) →
        RegisterResponse b v r = b) := by
  constructor
  · rintro ⟨reqs, q, hv, hr⟩
    obtain ⟨pq, hpq⟩ := removeQuery_pending b v r hv hr
    unfold RegisterResponse
    rw [hpq]
    exact mapGet_mapDel_self _ _
  · intro h
    unfold RegisterResponse
    rw [removeQuery_absent b v r]
    intro reqs hv
    cases hr : mapGet reqs r with
    | none => rfl
    | some q => exact absurd ⟨reqs, q, hv, hr⟩ h

/-- Witness of C12: the response to the pending second query of validator 1
clears the failure recorded for the first. -/
theorem RegisterResponse_resets_witness :
    mapGet (run (NewQueryBenchlist ⟨[(1, 10), (2, 90)], 100⟩ 3 0 100 ⟨1, 2⟩)
        [Call.registerQuery 5 1 0 0, Call.queryFailed 6 1 0 ⟨1, 2⟩,
         Call.registerQuery 7 1 1 0]).consecutiveFailures 1 = some ⟨6, 1⟩ ∧
      mapGet (RegisterResponse (run (NewQueryBenchlist ⟨[(1, 10), (2, 90)], 100⟩ 3 0 100 ⟨1, 2⟩)
        [Call.registerQuery 5 1 0 0, Call.queryFailed 6 1 0 ⟨1, 2⟩,
         Call.registerQuery 7 1 1 0]) 1 1).consecutiveFailures 1 = none :=
  ⟨by decide,
    (RegisterResponse_resets _ 1 1).1 ⟨[(1, ⟨7, 0⟩)], ⟨7, 0⟩, by decide, by decide⟩⟩

end Benchlist

namespace Benchlist

theorem step_duration (b : queryBenchlist) (c : Call) :
    (step b c).duration = b.duration ∧ (step b c).threshold = b.threshold ∧
      (step b c).minimumFailingDuration = b.minimumFailingDuration := by
  cases c with
  | registerQuery now v r t =>
    obtain ⟨pq, hs | hs⟩ := RegisterQuery_shape { b with clock := now } v r t
    · show (RegisterQuery { b with clock := now } v r t).1.duration = _ ∧
        (RegisterQuery { b with clock := now } v r t).1.threshold = _ ∧
        (RegisterQuery { b with clock := now } v r t).1.minimumFailingDuration = _
      rw [hs]
      exact ⟨rfl, rfl, rfl⟩
    · show (RegisterQuery { b with clock := now } v r t).1.duration = _ ∧
        (RegisterQuery { b with clock := now } v r t).1.threshold = _ ∧
        (RegisterQuery { b with clock := now } v r t).1.minimumFailingDuration = _
      rw [hs]
      have h := cleanup_spec_params { b with clock := now }
      exact ⟨h.duration, h.threshold, h.minimumFailingDuration⟩
  | registerResponse now v r =>
    obtain ⟨pq, cf, hs⟩ := RegisterResponse_shape { b with clock := now } v r
    show (RegisterResponse { b with clock := now } v r).duration = _ ∧
      (RegisterResponse { b with clock := now } v r).threshold = _ ∧
      (RegisterResponse { b with clock := now } v r).minimumFailingDuration = _
    rw [hs]
    exact ⟨rfl, rfl, rfl⟩
  | queryFailed now v r rnd =>
    obtain ⟨pq, cf, hs | hs⟩ := QueryFailed_shape { b with clock := now } v r rnd
    · show (QueryFailed { b with clock := now } v r rnd).duration = _ ∧
        (QueryFailed { b with clock := now } v r rnd).threshold = _ ∧
        (QueryFailed { b with clock := now } v r rnd).minimumFailingDuration = _
      rw [hs]
      exact ⟨rfl, rfl, rfl⟩
    · show (QueryFailed { b with clock := now } v r rnd).duration = _ ∧
        (QueryFailed { b with clock := now } v r rnd).threshold = _ ∧
        (QueryFailed { b with clock := now } v r rnd).minimumFailingDuration = _
      rw [hs]
      have h := bench_params
        { b with clock := now, pendingQueries := pq, consecutiveFailures := cf } v rnd
      exact ⟨h.duration, h.threshold, h.minimumFailingDuration⟩

theorem run_duration : ∀ (calls : List Call) (b : queryBenchlist),
    (run b calls).duration = b.duration := by
  intro calls
  induction calls with
  | nil => intro b; rfl
  | cons c cs ih =>
    intro b
    exact (ih (step b c)).trans (step_duration b c).1

theorem run_goodOrd_at : ∀ (calls : List Call) (b : queryBenchlist) (now : Int), GoodOrd b →
    List.Chain (· ≤ ·) b.clock (calls.map Call.now ++ [now]) → (∀ c ∈ calls, c.drawOk) →
    GoodOrd { run b calls with clock := now } := by
  intro calls
  induction calls with
  | nil =>
    intro b now h hchain _
    rw [List.map_nil, List.nil_append, List.chain_cons] at hchain
    exact goodOrd_setClock b now h hchain.1
  | cons c cs ih =>
    intro b now h hchain hdraw
    rw [List.map_cons, List.cons_append, List.chain_cons] at hchain
    apply ih (step b c) now (step_goodOrd b c h hchain.1 (hdraw c (List.mem_cons_self _ _)))
    · rw [step_clock]
      exact hchain.2
    · intro c1 hc1
      exact hdraw c1 (List.mem_cons_of_mem _ hc1)

theorem run_new_goodOrd_at (validators : ValidatorSet) (threshold : Int)
    (minimumFailingDuration duration : Int) (maxPortion : Fraction) (calls : List Call)
    (now : Int)
    (hclock : List.Chain' (· ≤ ·) (calls.map Call.now ++ [now]))
    (hdraw : ∀ c ∈ calls, c.drawOk) :
    GoodOrd { run (NewQueryBenchlist validators threshold minimumFailingDuration duration
      maxPortion) calls with clock := now } := by
  cases calls with
  | nil => exact ⟨Consistent_empty, Ordered_empty _ _, fun _ => rfl⟩
  | cons c cs =>
    have h0 : GoodOrd { NewQueryBenchlist validators threshold minimumFailingDuration duration
        maxPortion with clock := c.now } :=
      ⟨Consistent_empty, Ordered_empty _ _, fun _ => rfl⟩
    have h1 := run_goodOrd_at (c :: cs) _ now h0 (by
      rw [List.map_cons, List.cons_append]
      exact List.Chain.cons (le_refl _) hclock) hdraw
    have h2 : run { NewQueryBenchlist validators threshold minimumFailingDuration duration
        maxPortion with clock := c.now } (c :: cs) =
        run (NewQueryBenchlist validators threshold minimumFailingDuration duration maxPortion)
          (c :: cs) := by
      show run (step _ c) cs = run (step _ c) cs
      rw [step_setClock]
    rw [h2] at h1
    exact h1

/-- Counterexample to C14 as stated: with a negative `duration` (-10) the
validator benched at time 100 gets the end time 95, which is later than
`now + duration` = 90. -/
theorem bench_end_range_counterexample :
    QueryFailed
        { run (NewQueryBenchlist ⟨[(1, 10), (2, 90)], 100⟩ 1 0 (-10) ⟨1, 2⟩)
            [Call.registerQuery 100 1 0 0] with clock := 100 } 1 0 ⟨0, 1⟩ =
      bench
        { NewQueryBenchlist ⟨[(1, 10), (2, 90)], 100⟩ 1 0 (-10) ⟨1, 2⟩ with
          clock := 100
          consecutiveFailures := [(1, ⟨100, 1⟩)] } 1 ⟨0, 1⟩ ∧
      randomizedEndTime
        { NewQueryBenchlist ⟨[(1, 10), (2, 90)], 100⟩ 1 0 (-10) ⟨1, 2⟩ with
          clock := 100
          consecutiveFailures := [(1, ⟨100, 1⟩)] } ⟨0, 1⟩ = 95 ∧
      ¬ ((95 : Int) ≤ 100 + (-10)) := by
  decide

/-- C14, amended. With a non-negative `duration`: let `s` be the state in which
`bench` runs at clock time `now`, that is a state reached from a new benchlist by
calls with a non-decreasing clock, with the clock at `now` (not before the last
call) and any pending queries and failure streaks. If `v` is not benched in `s`,
`bench` adds `v` with the end time `e = randomizedEndTime s rnd` and, for every
draw `rnd` of `[0, 1)`, `now + duration/2 ≤ e`, the end time of the last entry
of `benchlistOrder` (if there is one) is at most `e`, and `e ≤ now + duration`. -/
theorem bench_end_range (validators : ValidatorSet) (threshold : Int)
    (minimumFailingDuration duration : Int) (maxPortion : Fraction) (calls : List Call)
    (now : Int) (pq : List (ShortID × List (Nat × pendingQuery)))
    (cf : List (ShortID × failureStreak)) (s : queryBenchlist) (v : ShortID) (rnd : Fraction)
    (hdur : 0 ≤ duration)
    (hclock : List.Chain' (· ≤ ·) (calls.map Call.now ++ [now]))
    (hdraw : ∀ c ∈ calls, c.drawOk)
    (hs : s = { run (NewQueryBenchlist validators threshold minimumFailingDuration duration
      maxPortion) calls with clock := now, pendingQueries := pq, consecutiveFailures := cf })
    (hv : v ∉ s.benchlistSet)
    (h0 : 0 ≤ rnd.num) (h1 : rnd.num < (rnd.den : Int)) :
    bench s v rnd = cleanup (benchAdd s v (randomizedEndTime s rnd)) ∧
      mapGet (benchAdd s v (randomizedEndTime s rnd)).benchlistTimes v =
        some (randomizedEndTime s rnd) ∧
      now + Int.tdiv duration 2 ≤ randomizedEndTime s rnd ∧
      (∀ last, s.benchlistOrder.getLast? = some last →
        endTime s last ≤ randomizedEndTime s rnd) ∧
      randomizedEndTime s rnd ≤ now + duration := by
  have hg := run_new_goodOrd_at validators threshold minimumFailingDuration duration maxPortion
    calls now hclock hdraw
  have hd : s.duration = duration := by
    rw [hs]
    exact run_duration calls _
  have hc : s.clock = now := by rw [hs]
  have hb : ∀ x ∈ s.benchlistOrder, endTime s x ≤ s.clock + s.duration := by
    rw [hs]
    exact hg.2.1.bound
  have hr := randomizedEndTime_bounds s rnd (by rw [hd]; exact hdur) hb h0 h1
  rw [hc, hd] at hr
  refine ⟨?_, mapGet_mapSet_self _ _ _, ?_, ?_, hr.2⟩
  · unfold bench
    rw [if_neg hv]
  · have h2 : s.clock + Int.tdiv s.duration 2 ≤ minEndTime s := by
      unfold minEndTime
      dsimp only
      split
      · split
        · omega
        · exact le_refl _
      · exact le_refl _
    rw [hc, hd] at h2
    exact le_trans h2 hr.1
  · intro last hl
    exact le_trans (minEndTime_ge_last s hl) hr.1

/-- Witness of C14: validator 1 is benched at time 8 with duration 100 and the
draw one half; its end time is 83. -/
theorem bench_end_range_witness :
    (1 : ShortID) ∉ ({ run (NewQueryBenchlist ⟨[(1, 10), (2, 90)], 100⟩ 2 0 100 ⟨1, 2⟩)
        [Call.registerQuery 5 1 0 0, Call.queryFailed 6 1 0 ⟨1, 2⟩, Call.registerQuery 7 1 1 0]
        with clock := 8, pendingQueries := [], consecutiveFailures := [(1, ⟨6, 2⟩)]
        } : queryBenchlist).benchlistSet ∧
      randomizedEndTime
        { run (NewQueryBenchlist ⟨[(1, 10), (2, 90)], 100⟩ 2 0 100 ⟨1, 2⟩)
          [Call.registerQuery 5 1 0 0, Call.queryFailed 6 1 0 ⟨1, 2⟩, Call.registerQuery 7 1 1 0]
          with clock := 8, pendingQueries := [], consecutiveFailures := [(1, ⟨6, 2⟩)] }
        ⟨1, 2⟩ = 83 ∧
      (8 : Int) + Int.tdiv 100 2 ≤ randomizedEndTime
        { run (NewQueryBenchlist ⟨[(1, 10), (2, 90)], 100⟩ 2 0 100 ⟨1, 2⟩)
          [Call.registerQuery 5 1 0 0, Call.queryFailed 6 1 0 ⟨1, 2⟩, Call.registerQuery 7 1 1 0]
          with clock := 8, pendingQueries := [], consecutiveFailures := [(1, ⟨6, 2⟩)] }
        ⟨1, 2⟩ ∧
      randomizedEndTime
        { run (NewQueryBenchlist ⟨[(1, 10), (2, 90)], 100⟩ 2 0 100 ⟨1, 2⟩)
          [Call.registerQuery 5 1 0 0, Call.queryFailed 6 1 0 ⟨1, 2⟩, Call.registerQuery 7 1 1 0]
          with clock := 8, pendingQueries := [], consecutiveFailures := [(1, ⟨6, 2⟩)] }
        ⟨1, 2⟩ ≤ 8 + 100 :=
  have h := bench_end_range ⟨[(1, 10), (2, 90)], 100⟩ 2 0 100 ⟨1, 2⟩
    [Call.registerQuery 5 1 0 0, Call.queryFailed 6 1 0 ⟨1, 2⟩, Call.registerQuery 7 1 1 0]
    8 [] [(1, ⟨6, 2⟩)] _ 1 ⟨1, 2⟩ (by decide) (by simp [Call.now]) (by decide) rfl
    (by decide) (by decide) (by decide)
  ⟨by decide, by decide, h.2.2.1, h.2.2.2.2⟩

end Benchlist

namespace Benchlist

theorem bench_first (b : queryBenchlist) (v : ShortID) (rnd : Fraction)
    (ho : b.benchlistOrder = []) (hs : b.benchlistSet = [])
    (hw : (b.vdrs.GetWeight v).getD 0 ≤ maxUint64)
    (hcap : (b.vdrs.GetWeight v).getD 0 < maxBenchlistWeight b)
    (he : b.clock < randomizedEndTime b rnd) :
    bench b v rnd = benchAdd b v (randomizedEndTime b rnd) := by
  unfold bench
  rw [hs, if_neg (List.not_mem_nil _)]
  have hsum : (benchAdd b v (randomizedEndTime b rnd)).vdrs.sumWeights
      (benchAdd b v (randomizedEndTime b rnd)).benchlistSet = (b.vdrs.GetWeight v).getD 0 := by
    show b.vdrs.sumWeights (v :: b.benchlistSet) = _
    rw [hs]
    simp [ValidatorSet.sumWeights]
  unfold cleanup ValidatorSet.SubsetWeight
  rw [hsum, if_pos hw]
  simp only
  have horder : (benchAdd b v (randomizedEndTime b rnd)).benchlistOrder = [v] := by
    show b.benchlistOrder ++ [v] = [v]
    rw [ho]
    rfl
  rw [horder]
  unfold cleanupLoop
  have hend : endTime (benchAdd b v (randomizedEndTime b rnd)) v = randomizedEndTime b rnd :=
    endOf_mapSet_self _ _ _
  rw [hend]
  have hmax : maxBenchlistWeight (benchAdd b v (randomizedEndTime b rnd)) =
      maxBenchlistWeight b := rfl
  have hclk : (benchAdd b v (randomizedEndTime b rnd)).clock = b.clock := rfl
  rw [hmax, hclk, if_pos ⟨he, hcap⟩]
  simp only [benchAdd, ho, List.nil_append]

theorem three_failures_state (validators : ValidatorSet) (minimumFailingDuration duration : Int)
    (maxPortion : Fraction) (v : ShortID) (r1 r2 r3 m1 m2 m3 : Nat)
    (t1 t2 t3 t4 t5 : Int) (rnd1 rnd2 : Fraction) :
    run (NewQueryBenchlist validators 3 minimumFailingDuration duration maxPortion)
        [Call.registerQuery t1 v r1 m1, Call.queryFailed t2 v r1 rnd1,
         Call.registerQuery t3 v r2 m2, Call.queryFailed t4 v r2 rnd2,
         Call.registerQuery t5 v r3 m3] =
      { NewQueryBenchlist validators 3 minimumFailingDuration duration maxPortion with
        clock := t5
        pendingQueries := [(v, [(r3, ⟨t5, m3⟩)])]
        consecutiveFailures := [(v, ⟨t2, 2⟩)] } := by
  simp [run, step, RegisterQuery, benched, NewQueryBenchlist, mapGet, mapSet, mapDel,
    removeQuery, QueryFailed, recordFailure]

theorem third_failure_state (validators : ValidatorSet) (duration : Int)
    (maxPortion : Fraction) (v : ShortID) (r3 m3 : Nat) (t2 t5 t6 : Int) (rnd3 : Fraction)
    (h26 : t2 ≤ t6) :
    QueryFailed
        { NewQueryBenchlist validators 3 0 duration maxPortion with
          clock := t6
          pendingQueries := [(v, [(r3, ⟨t5, m3⟩)])]
          consecutiveFailures := [(v, ⟨t2, 2⟩)] } v r3 rnd3 =
      bench
        { NewQueryBenchlist validators 3 0 duration maxPortion with
          clock := t6
          consecutiveFailures := [(v, ⟨t2, 3⟩)] } v rnd3 := by
  have h : ¬ t6 < t2 := by omega
  simp [RegisterQuery, benched, NewQueryBenchlist, mapGet, mapSet, mapDel,
    removeQuery, QueryFailed, recordFailure, h]

/-- Counterexample to C13 as stated: validator 3 holds 80 of the 100 units of
stake and the cap is one half; `cleanup` removes it from the benchlist as soon
as it is benched, and the next `RegisterQuery` for it returns true. -/
theorem three_failures_counterexample :
    (RegisterQuery
      { run (NewQueryBenchlist ⟨[(1, 10), (2, 10), (3, 80)], 100⟩ 3 0 100 ⟨1, 2⟩)
          [Call.registerQuery 1 3 0 0, Call.queryFailed 2 3 0 ⟨1, 2⟩,
           Call.registerQuery 3 3 1 0, Call.queryFailed 4 3 1 ⟨1, 2⟩,
           Call.registerQuery 5 3 2 0, Call.queryFailed 6 3 2 ⟨1, 2⟩] with clock := 6 }
      3 3 0).2 = true := by
  decide

/-- C13, amended. With threshold 3 and minimumFailingDuration 0, starting from
a new benchlist, let three queries to a validator `v` each be registered and
then reported failed (no other call in between), the third failure at a time
`t6` not before the first, with a draw of `[0, 1)`. If the stake weight of `v`
(0 when `v` is not a validator) is below the bound
`uint64(float64(totalWeight) * maxPortion)` that `cleanup` computes, with its
two roundings, and that bound is a `uint64`, then `RegisterQuery` for `v`
returns false at every time `t7` with `t6 ≤ t7 < t6 + duration/2`. -/
theorem three_failures_bench (validators : ValidatorSet) (duration : Int)
    (maxPortion : Fraction) (v : ShortID) (r1 r2 r3 r4 m1 m2 m3 m4 : Nat)
    (t1 t2 t3 t4 t5 t6 t7 : Int) (rnd1 rnd2 rnd3 : Fraction)
    (hcap : (validators.GetWeight v).getD 0 <
      maxBenchlistWeight (NewQueryBenchlist validators 3 0 duration maxPortion))
    (hrange : maxBenchlistWeight (NewQueryBenchlist validators 3 0 duration maxPortion) ≤
      maxUint64)
    (h26 : t2 ≤ t6) (h67 : t6 ≤ t7) (h7 : t7 < t6 + Int.tdiv duration 2)
    (h0 : 0 ≤ rnd3.num) (h1 : rnd3.num < (rnd3.den : Int)) :
    (RegisterQuery
      { run (NewQueryBenchlist validators 3 0 duration maxPortion)
          [Call.registerQuery t1 v r1 m1, Call.queryFailed t2 v r1 rnd1,
           Call.registerQuery t3 v r2 m2, Call.queryFailed t4 v r2 rnd2,
           Call.registerQuery t5 v r3 m3, Call.queryFailed t6 v r3 rnd3] with clock := t7 }
      v r4 m4).2 = false := by
  have hw : (validators.GetWeight v).getD 0 ≤ maxUint64 := le_trans (le_of_lt hcap) hrange
  have hd : 0 ≤ duration := by
    by_contra hneg
    have := (tdiv_two_neg duration (by omega)).1
    omega
  have hrun : run (NewQueryBenchlist validators 3 0 duration maxPortion)
      [Call.registerQuery t1 v r1 m1, Call.queryFailed t2 v r1 rnd1,
       Call.registerQuery t3 v r2 m2, Call.queryFailed t4 v r2 rnd2,
       Call.registerQuery t5 v r3 m3, Call.queryFailed t6 v r3 rnd3] =
      step (run (NewQueryBenchlist validators 3 0 duration maxPortion)
        [Call.registerQuery t1 v r1 m1, Call.queryFailed t2 v r1 rnd1,
         Call.registerQuery t3 v r2 m2, Call.queryFailed t4 v r2 rnd2,
         Call.registerQuery t5 v r3 m3]) (Call.queryFailed t6 v r3 rnd3) := by
    simp only [run, List.foldl_cons, List.foldl_nil]
  rw [hrun, three_failures_state]
  show (RegisterQuery { QueryFailed
      { NewQueryBenchlist validators 3 0 duration maxPortion with
        clock := t6
        pendingQueries := [(v, [(r3, ⟨t5, m3⟩)])]
        consecutiveFailures := [(v, ⟨t2, 2⟩)] } v r3 rnd3 with clock := t7 } v r4 m4).2 = false
  rw [third_failure_state validators duration maxPortion v r3 m3 t2 t5 t6 rnd3 h26]
  obtain ⟨b2, hb2⟩ : ∃ b2 : queryBenchlist, b2 =
      { NewQueryBenchlist validators 3 0 duration maxPortion with
        clock := t6
        consecutiveFailures := [(v, ⟨t2, 3⟩)] } := ⟨_, rfl⟩
  rw [← hb2]
  have ho : b2.benchlistOrder = [] := by rw [hb2]; rfl
  have hs : b2.benchlistSet = [] := by rw [hb2]; rfl
  have hclk : b2.clock = t6 := by rw [hb2]
  have hdur : b2.duration = duration := by rw [hb2]; rfl
  have hvdrs : b2.vdrs = validators := by rw [hb2]; rfl
  have hmax : maxBenchlistWeight b2 =
      maxBenchlistWeight (NewQueryBenchlist validators 3 0 duration maxPortion) := by
    rw [hb2]; rfl
  have hb := randomizedEndTime_bounds b2 rnd3 (by rw [hdur]; exact hd)
    (by rw [ho]; intro x hx; exact absurd hx (List.not_mem_nil _)) h0 h1
  have hmin : minEndTime b2 = t6 + Int.tdiv duration 2 := by
    unfold minEndTime
    rw [ho, hclk, hdur]
    rfl
  rw [hmin] at hb
  rw [bench_first b2 v rnd3 ho hs (by rw [hvdrs]; exact hw) (by rw [hvdrs, hmax]; exact hcap)
    (by rw [hclk]; omega)]
  unfold RegisterQuery benched
  have hget : mapGet ({ benchAdd b2 v (randomizedEndTime b2 rnd3) with clock := t7
      } : queryBenchlist).benchlistTimes v = some (randomizedEndTime b2 rnd3) :=
    mapGet_mapSet_self _ _ _
  rw [hget]
  simp only
  rw [if_pos (by
    show t7 < _
    omega)]

/-- Witness of C13: validator 1 holds 10 of the 100 units of stake, the cap is
one half and the duration 100; after the third failure at time 6 the query
registered at time 6 is refused. -/
theorem three_failures_bench_witness :
    (RegisterQuery
      { run (NewQueryBenchlist ⟨[(1, 10), (2, 10), (3, 80)], 100⟩ 3 0 100 ⟨1, 2⟩)
          [Call.registerQuery 1 1 0 0, Call.queryFailed 2 1 0 ⟨1, 2⟩,
           Call.registerQuery 3 1 1 0, Call.queryFailed 4 1 1 ⟨1, 2⟩,
           Call.registerQuery 5 1 2 0, Call.queryFailed 6 1 2 ⟨1, 2⟩] with clock := 6 }
      1 3 0).2 = false :=
  three_failures_bench ⟨[(1, 10), (2, 10), (3, 80)], 100⟩ 100 ⟨1, 2⟩ 1 0 1 2 3 0 0 0 0
    1 2 3 4 5 6 6 ⟨1, 2⟩ ⟨1, 2⟩ ⟨1, 2⟩ (by decide) (by decide) (by decide) (by decide)
    (by decide) (by decide) (by decide)

end Benchlist

namespace Vertex

theorem encodeParents_flatten (ps : List ID) :
    encodeParents ps = (ps.map (·.val)).flatten := by
  induction ps with
  | nil => rfl
  | cons p rest ih => simp [encodeParents, ih]

theorem encodeTxs_flatten (ts : List Tx) :
    encodeTxs ts = (ts.map (fun t => beBytes 4 t.bytes.length ++ t.bytes)).flatten := by
  induction ts with
  | nil => rfl
  | cons t rest ih => simp [encodeTxs, ih]

theorem encodeParents_length (ps : List ID) : (encodeParents ps).length = 32 * ps.length := by
  induction ps with
  | nil => rfl
  | cons p rest ih =>
    simp only [encodeParents, List.length_append, ih, p.property, List.length_cons]
    omega

theorem encodeTxs_length (ts : List Tx) :
    (encodeTxs ts).length = (ts.map (fun t => 4 + t.bytes.length)).sum := by
  induction ts with
  | nil => rfl
  | cons t rest ih =>
    simp only [encodeTxs, List.length_append, ih, beBytes_length, List.map_cons, List.sum_cons]

/-- C16. Whenever `Marshal` succeeds, its output is the concatenation of the
big-endian `u16` codec 0, the 32 bytes of the chain ID, the `u64` height, the
`u32` epoch 0, the `u32` number of parents, the 32 bytes of each parent ID in
order, the `u32` number of transactions and, for each transaction in order, the
`u32` length of its bytes followed by the bytes; its length is
`54 + 32 * (number of parents) + Σ (4 + length of each transaction)`. -/
theorem Marshal_layout (vtx : innerVertex) (bs : List Byte) (h : Marshal vtx = Except.ok bs) :
    bs = beBytes 2 0 ++ vtx.chainID.val ++ beBytes 8 vtx.height ++ beBytes 4 0 ++
        beBytes 4 vtx.parentIDs.length ++ (vtx.parentIDs.map (·.val)).flatten ++
        beBytes 4 vtx.txs.length ++
        (vtx.txs.map (fun t => beBytes 4 t.bytes.length ++ t.bytes)).flatten ∧
      bs.length = 54 + 32 * vtx.parentIDs.length +
        (vtx.txs.map (fun t => 4 + t.bytes.length)).sum := by
  obtain ⟨h1, _⟩ := (Marshal_ok_iff vtx bs).mp h
  constructor
  · rw [h1, ← encodeParents_flatten, ← encodeTxs_flatten]
    rfl
  · rw [h1, wire_length, encodeParents_length, encodeTxs_length]

set_option maxRecDepth 100000 in
/-- Witness of C16: the 133 bytes of `sampleVertex`, which has two parents and
transactions of 3 and 0 bytes. -/
theorem Marshal_layout_witness :
    Marshal sampleVertex = Except.ok (wire sampleVertex 0) ∧
      (wire sampleVertex 0).length = 54 + 32 * 2 + ((4 + 3) + (4 + 0)) ∧
      (wire sampleVertex 0).length = 54 + 32 * sampleVertex.parentIDs.length +
        (sampleVertex.txs.map (fun t => 4 + t.bytes.length)).sum :=
  ⟨by decide, by decide,
    (Marshal_layout sampleVertex (wire sampleVertex 0) (by decide)).2⟩

end Vertex

namespace Vertex

theorem unmarshalTxs_count (hash : List Byte → ID) (parseTx : List Byte → Except Error Tx)
    (b : List Byte) (chainID : ID) (height epoch : Nat)
    (parentIDs : List ID) (o : Nat) (v : innerVertex)
    (h : unmarshalTxs hash parseTx b chainID height epoch parentIDs (reader none b o) =
      Except.ok v) :
    o + 4 ≤ b.length ∧ beDecode ((b.drop o).take 4) ≤ maxTxsPerVtx := by
  unfold unmarshalTxs at h
  by_cases h4 : o + 4 ≤ b.length
  · refine ⟨h4, ?_⟩
    simp only [unpackInt_ok b o h4] at h
    split at h
    · cases h
    · rename_i hnt
      omega
  · simp only [unpackInt_short b o (by omega), unpackTxs_errored, reader_add_some] at h
    simp [reader, maxTxsPerVtx] at h

theorem unmarshalParents_count (hash : List Byte → ID) (parseTx : List Byte → Except Error Tx)
    (b : List Byte) (chainID : ID) (height epoch : Nat) (o : Nat) (v : innerVertex)
    (h : unmarshalParents hash parseTx b chainID height epoch (reader none b o) =
      Except.ok v) :
    o + 4 ≤ b.length ∧ beDecode ((b.drop o).take 4) ≤ maxNumParents ∧
      beDecode ((b.drop (o + 4 + 32 * beDecode ((b.drop o).take 4))).take 4) ≤
        maxTxsPerVtx := by
  unfold unmarshalParents at h
  by_cases h4 : o + 4 ≤ b.length
  · simp only [unpackInt_ok b o h4] at h
    split at h
    · cases h
    · rename_i hnp
      have hr := isReader_unpackParents (beDecode ((b.drop o).take 4))
        (isReader_reader none b (o + 4))
      cases herr : (unpackParents (beDecode ((b.drop o).take 4))
          (reader none b (o + 4))).1.Err with
      | some e =>
        rw [IsReader_eq hr, herr] at h
        exact absurd h (unmarshalTxs_errored _ _ _ _ _ _ _ _ _ _)
      | none =>
        obtain ⟨o1, h1, h2, h3, h5⟩ := unpackParents_ok b _ (o + 4) h4 herr
        rw [h1] at h
        have hlen := congrArg List.length h5
        rw [List.length_append, encodeParents_length, h3, List.length_drop,
          List.length_drop] at hlen
        have ho1 : o1 = o + 4 + 32 * beDecode ((b.drop o).take 4) := by omega
        have ht := unmarshalTxs_count hash parseTx b chainID height epoch _ o1 v h
        rw [ho1] at ht
        exact ⟨h4, by omega, ht.2⟩
  · simp only [unpackInt_short b o (by omega)] at h
    split at h
    · cases h
    · simp only [unpackParents_errored] at h
      exact absurd h (unmarshalTxs_errored _ _ _ _ _ _ _ _ _ _)

theorem Unmarshal_count (hash : List Byte → ID) (parseTx : List Byte → Except Error Tx)
    (b : List Byte) (v : innerVertex) (h : Unmarshal hash parseTx b = Except.ok v) :
    declaredParents b ≤ maxNumParents ∧ declaredTxs b ≤ maxTxsPerVtx := by
  unfold Unmarshal at h
  have hp0 : ({ Err := none, MaxSize := 0, Bytes := b, Offset := 0 } : Packer) =
      reader none b 0 := rfl
  simp only [hp0, HashLen] at h
  by_cases h2 : 0 + 2 ≤ b.length
  · simp only [unpackShort_ok b 0 h2] at h
    by_cases hcodec : beDecode ((b.drop 0).take 2) = version
    · simp only [hcodec, ne_eq, not_true_eq_false, if_false] at h
      by_cases h32 : 0 + 2 + 32 ≤ b.length
      · simp only [unpack_ok b (0 + 2) 32 h32] at h
        by_cases h8 : 0 + 2 + 32 + 8 ≤ b.length
        · simp only [unpackLong_ok b _ h8] at h
          by_cases h4 : 0 + 2 + 32 + 8 + 4 ≤ b.length
          · simp only [unpackInt_ok b _ h4] at h
            obtain ⟨_, g2, g3⟩ := unmarshalParents_count hash parseTx b _ _ _ _ v h
            exact ⟨g2, g3⟩
          · simp only [unpackInt_short b (0 + 2 + 32 + 8) (by omega)] at h
            exact absurd h (unmarshalParents_errored _ _ _ _ _ _ _ _ _)
        · simp only [unpackLong_short b (0 + 2 + 32) (by omega), unpackInt_errored] at h
          exact absurd h (unmarshalParents_errored _ _ _ _ _ _ _ _ _)
      · simp only [unpack_short b (0 + 2) 32 (by omega), unpackLong_errored,
          unpackInt_errored] at h
        exact absurd h (unmarshalParents_errored _ _ _ _ _ _ _ _ _)
    · simp only [hcodec, ne_eq, not_false_eq_true, if_true, reader_add_none, unpack_errored,
        unpackLong_errored, unpackInt_errored] at h
      exact absurd h (unmarshalParents_errored _ _ _ _ _ _ _ _ _)
  · simp only [unpackShort_short b 0 (by omega), reader_add_some, ite_self, unpack_errored,
      unpackLong_errored, unpackInt_errored] at h
    exact absurd h (unmarshalParents_errored _ _ _ _ _ _ _ _ _)

/-- C15. `Unmarshal` returns an error for every input that declares more than
128 parents and for every input that declares more than 128 transactions, for
every VM; but it accepts the encoding of `bigVertex`, an input longer than
`maxSize` (2^20 bytes), whose single transaction the VM parses. -/
theorem Unmarshal_limits :
    (∀ (hash : List Byte → ID) (parseTx : List Byte → Except Error Tx) (b : List Byte),
        maxNumParents < declaredParents b → ∃ e, Unmarshal hash parseTx b = Except.error e) ∧
      (∀ (hash : List Byte → ID) (parseTx : List Byte → Except Error Tx) (b : List Byte),
        maxTxsPerVtx < declaredTxs b → ∃ e, Unmarshal hash parseTx b = Except.error e) ∧
      maxSize < (wire bigVertex 0).length ∧
      ∃ v1, Unmarshal zeroHash echoVM (wire bigVertex 0) = Except.ok v1 := by
  refine ⟨?_, ?_, Unmarshal_oversize.1, ?_⟩
  · intro hash parseTx b hb
    cases hu : Unmarshal hash parseTx b with
    | error e => exact ⟨e, rfl⟩
    | ok v =>
      have := (Unmarshal_count hash parseTx b v hu).1
      omega
  · intro hash parseTx b hb
    cases hu : Unmarshal hash parseTx b with
    | error e => exact ⟨e, rfl⟩
    | ok v =>
      have := (Unmarshal_count hash parseTx b v hu).2
      omega
  · obtain ⟨v1, h1, _⟩ := Unmarshal_oversize.2
    exact ⟨v1, h1⟩

end Vertex

theorem mapGet_eq_some_of_mem {V : Type} :
    ∀ (m : List (Nat × V)) (k : Nat) (v : V), (m.map (·.1)).Nodup → (k, v) ∈ m →
      mapGet m k = some v := by
  intro m
  induction m with
  | nil => intro k v _ h; cases h
  | cons p rest ih =>
    intro k v hn h
    obtain ⟨k1, v1⟩ := p
    rw [List.map_cons, List.nodup_cons] at hn
    rcases List.mem_cons.mp h with h | h
    · cases h
      simp [mapGet]
    · have hne : k1 ≠ k := by
        intro he
        subst he
        exact hn.1 (List.mem_map.mpr ⟨(k1, v), h, rfl⟩)
      simp only [mapGet, hne, if_false]
      exact ih k v hn.2 h

theorem mem_of_mapGet_eq_some {V : Type} :
    ∀ (m : List (Nat × V)) (k : Nat) (v : V), mapGet m k = some v → (k, v) ∈ m := by
  intro m
  induction m with
  | nil => intro k v h; cases h
  | cons p rest ih =>
    intro k v h
    obtain ⟨k1, v1⟩ := p
    by_cases he : k1 = k
    · subst he
      simp only [mapGet, if_true, Option.some.injEq] at h
      subst h
      exact List.mem_cons_self _ _
    · simp only [mapGet, he, if_false] at h
      exact List.mem_cons_of_mem _ (ih k v h)

theorem nodup_keys_mapDel {V : Type} (m : List (Nat × V)) (k : Nat)
    (h : (m.map (·.1)).Nodup) : ((mapDel m k).map (·.1)).Nodup ∧ k ∉ (mapDel m k).map (·.1) := by
  unfold mapDel
  constructor
  · exact (List.Nodup.sublist (List.Sublist.map _ (List.filter_sublist m)) h)
  · intro hk
    obtain ⟨p, hp, hpk⟩ := List.mem_map.mp hk
    have := (List.mem_filter.mp hp).2
    simp at this
    exact this hpk

theorem nodup_keys_mapSet {V : Type} (m : List (Nat × V)) (k : Nat) (v : V)
    (h : (m.map (·.1)).Nodup) : ((mapSet m k v).map (·.1)).Nodup := by
  unfold mapSet
  rw [List.map_cons, List.nodup_cons]
  exact ⟨(nodup_keys_mapDel m k h).2, (nodup_keys_mapDel m k h).1⟩

namespace Avax

theorem Add64_ok (a b : Nat) (hb : b ≤ MaxUint64) (h : a + b ≤ MaxUint64) :
    Add64 a b = (a + b, none) := by
  unfold Add64
  rw [if_neg (by omega)]

theorem Add64_overflow (a b : Nat) (hb : b ≤ MaxUint64) (h : MaxUint64 < a + b) :
    Add64 a b = (0, some Error.errOverflow) := by
  unfold Add64
  rw [if_pos (by omega)]

theorem totalConsumed_append (a : AssetID) (xs ys : List Flow) :
    totalConsumed a (xs ++ ys) = totalConsumed a xs + totalConsumed a ys := by
  induction xs with
  | nil => simp [totalConsumed]
  | cons x rest ih =>
    cases x with
    | consume a1 amt =>
      rw [List.cons_append]
      simp only [totalConsumed]
      rw [ih]
      omega
    | produce a1 amt =>
      rw [List.cons_append]
      simp only [totalConsumed]
      rw [ih]

theorem totalProduced_append (a : AssetID) (xs ys : List Flow) :
    totalProduced a (xs ++ ys) = totalProduced a xs + totalProduced a ys := by
  induction xs with
  | nil => simp [totalProduced]
  | cons x rest ih =>
    cases x with
    | consume a1 amt =>
      rw [List.cons_append]
      simp only [totalProduced]
      rw [ih]
    | produce a1 amt =>
      rw [List.cons_append]
      simp only [totalProduced]
      rw [ih]
      omega

theorem flowRun_snoc (calls : List Flow) (c : Flow) :
    flowRun (calls ++ [c]) = flowStep (flowRun calls) c := by
  unfold flowRun
  rw [List.foldl_append]
  rfl

theorem getD_mapSet (m : List (AssetID × Nat)) (k a : AssetID) (v : Nat) :
    (mapGet (mapSet m k v) a).getD 0 = if k = a then v else (mapGet m a).getD 0 := by
  by_cases h : k = a
  · subst h
    rw [mapGet_mapSet_self, if_pos rfl]
    rfl
  · rw [mapGet_mapSet_ne m v (fun h1 => h h1.symm), if_neg h]

theorem tracks_consume (calls : List Flow) (fc : FlowChecker) (a1 : AssetID) (amt : Nat)
    (h : Tracks calls fc) (hamt : amt ≤ MaxUint64) :
    Tracks (calls ++ [Flow.consume a1 amt]) (fc.Consume a1 amt) := by
  have hc : ∀ a, totalConsumed a (calls ++ [Flow.consume a1 amt]) =
      totalConsumed a calls + (if a1 = a then amt else 0) := by
    intro a
    rw [totalConsumed_append]
    simp [totalConsumed]
  have hp : ∀ a, totalProduced a (calls ++ [Flow.consume a1 amt]) = totalProduced a calls := by
    intro a
    rw [totalProduced_append]
    simp [totalProduced]
  cases herr : fc.errs.Err with
  | some e =>
    have herr1 : (fc.Consume a1 amt).errs.Err = some e := by
      simp [FlowChecker.Consume, Errs.Add, herr]
    refine ⟨nodup_keys_mapSet _ _ _ h.consumedKeys, h.producedKeys, fun _ => ?_, ?_, ?_⟩
    · obtain ⟨a, ha⟩ := h.errored (by rw [herr]; simp)
      refine ⟨a, ?_⟩
      rw [hc, hp]
      rcases ha with ha | ha
      · left; omega
      · right; exact ha
    · intro h0
      rw [herr1] at h0
      cases h0
    · intro h0
      rw [herr1] at h0
      cases h0
  | none =>
    have hcur := (h.consumed herr a1).1
    by_cases hov : totalConsumed a1 calls + amt ≤ MaxUint64
    · have hadd : add fc.consumed a1 amt =
          (mapSet fc.consumed a1 (totalConsumed a1 calls + amt), none) := by
        unfold add
        rw [hcur, Add64_ok _ _ hamt hov]
      have herr1 : (fc.Consume a1 amt).errs.Err = none := by
        simp [FlowChecker.Consume, Errs.Add, herr, hadd]
      refine ⟨nodup_keys_mapSet _ _ _ h.consumedKeys, h.producedKeys, fun h0 => absurd herr1 h0,
        fun _ a => ?_, fun _ a => ?_⟩
      · have hval : (mapGet (fc.Consume a1 amt).consumed a).getD 0 =
            if a1 = a then totalConsumed a1 calls + amt else (mapGet fc.consumed a).getD 0 := by
          show (mapGet (add fc.consumed a1 amt).1 a).getD 0 = _
          rw [hadd]
          exact getD_mapSet _ _ _ _
        rw [hval, hc]
        by_cases ha : a1 = a
        · subst ha
          simp only [if_true]
          exact ⟨trivial, hov⟩
        · simp only [ha, if_false, Nat.add_zero]
          exact h.consumed herr a
      · rw [hp]
        exact h.produced herr a
    · have hadd : add fc.consumed a1 amt =
          (mapSet fc.consumed a1 0, some Error.errOverflow) := by
        unfold add
        rw [hcur, Add64_overflow _ _ hamt (by omega)]
      have herr1 : (fc.Consume a1 amt).errs.Err = some Error.errOverflow := by
        simp [FlowChecker.Consume, Errs.Add, herr, hadd]
      refine ⟨nodup_keys_mapSet _ _ _ h.consumedKeys, h.producedKeys, fun _ => ?_, ?_, ?_⟩
      · refine ⟨a1, Or.inl ?_⟩
        rw [hc, if_pos rfl]
        omega
      · intro h0
        rw [herr1] at h0
        cases h0
      · intro h0
        rw [herr1] at h0
        cases h0

theorem tracks_produce (calls : List Flow) (fc : FlowChecker) (a1 : AssetID) (amt : Nat)
    (h : Tracks calls fc) (hamt : amt ≤ MaxUint64) :
    Tracks (calls ++ [Flow.produce a1 amt]) (fc.Produce a1 amt) := by
  have hp : ∀ a, totalProduced a (calls ++ [Flow.produce a1 amt]) =
      totalProduced a calls + (if a1 = a then amt else 0) := by
    intro a
    rw [totalProduced_append]
    simp [totalProduced]
  have hc : ∀ a, totalConsumed a (calls ++ [Flow.produce a1 amt]) = totalConsumed a calls := by
    intro a
    rw [totalConsumed_append]
    simp [totalConsumed]
  cases herr : fc.errs.Err with
  | some e =>
    have herr1 : (fc.Produce a1 amt).errs.Err = some e := by
      simp [FlowChecker.Produce, Errs.Add, herr]
    refine ⟨h.consumedKeys, nodup_keys_mapSet _ _ _ h.producedKeys, fun _ => ?_, ?_, ?_⟩
    · obtain ⟨a, ha⟩ := h.errored (by rw [herr]; simp)
      refine ⟨a, ?_⟩
      rw [hc, hp]
      rcases ha with ha | ha
      · left; exact ha
      · right; omega
    · intro h0
      rw [herr1] at h0
      cases h0
    · intro h0
      rw [herr1] at h0
      cases h0
  | none =>
    have hcur := (h.produced herr a1).1
    by_cases hov : totalProduced a1 calls + amt ≤ MaxUint64
    · have hadd : add fc.produced a1 amt =
          (mapSet fc.produced a1 (totalProduced a1 calls + amt), none) := by
        unfold add
        rw [hcur, Add64_ok _ _ hamt hov]
      have herr1 : (fc.Produce a1 amt).errs.Err = none := by
        simp [FlowChecker.Produce, Errs.Add, herr, hadd]
      refine ⟨h.consumedKeys, nodup_keys_mapSet _ _ _ h.producedKeys, fun h0 => absurd herr1 h0,
        fun _ a => ?_, fun _ a => ?_⟩
      · rw [hc]
        exact h.consumed herr a
      · have hval : (mapGet (fc.Produce a1 amt).produced a).getD 0 =
            if a1 = a then totalProduced a1 calls + amt else (mapGet fc.produced a).getD 0 := by
          show (mapGet (add fc.produced a1 amt).1 a).getD 0 = _
          rw [hadd]
          exact getD_mapSet _ _ _ _
        rw [hval, hp]
        by_cases ha : a1 = a
        · subst ha
          simp only [if_true]
          exact ⟨trivial, hov⟩
        · simp only [ha, if_false, Nat.add_zero]
          exact h.produced herr a
    · have hadd : add fc.produced a1 amt =
          (mapSet fc.produced a1 0, some Error.errOverflow) := by
        unfold add
        rw [hcur, Add64_overflow _ _ hamt (by omega)]
      have herr1 : (fc.Produce a1 amt).errs.Err = some Error.errOverflow := by
        simp [FlowChecker.Produce, Errs.Add, herr, hadd]
      refine ⟨h.consumedKeys, nodup_keys_mapSet _ _ _ h.producedKeys, fun _ => ?_, ?_, ?_⟩
      · refine ⟨a1, Or.inr ?_⟩
        rw [hp, if_pos rfl]
        omega
      · intro h0
        rw [herr1] at h0
        cases h0
      · intro h0
        rw [herr1] at h0
        cases h0

theorem flowRun_tracks (calls : List Flow) :
    (∀ c ∈ calls, c.amount ≤ MaxUint64) → Tracks calls (flowRun calls) := by
  induction calls using List.reverseRecOn with
  | nil =>
    intro _
    exact ⟨List.nodup_nil, List.nodup_nil, fun h => absurd rfl h,
      fun _ a => ⟨rfl, Nat.zero_le _⟩, fun _ a => ⟨rfl, Nat.zero_le _⟩⟩
  | append_singleton l c ih =>
    intro h
    have hl := ih (fun c1 hc1 => h c1 (List.mem_append_left _ hc1))
    have hc := h c (List.mem_append_right _ (List.mem_singleton_self c))
    rw [flowRun_snoc]
    cases c with
    | consume a1 amt => exact tracks_consume l _ a1 amt hl hc
    | produce a1 amt => exact tracks_produce l _ a1 amt hl hc

theorem insufficient_false_iff (consumed : List (AssetID × Nat)) :
    ∀ produced : List (AssetID × Nat),
      insufficient consumed produced = false ↔
        ∀ a p, (a, p) ∈ produced → p ≤ (mapGet consumed a).getD 0 := by
  intro produced
  induction produced with
  | nil => simp [insufficient]
  | cons x rest ih =>
    obtain ⟨a1, p1⟩ := x
    unfold insufficient
    by_cases h : p1 > (mapGet consumed a1).getD 0
    · rw [if_pos h]
      constructor
      · intro h0
        cases h0
      · intro h0
        have := h0 a1 p1 (List.mem_cons_self _ _)
        omega
    · rw [if_neg h, ih]
      constructor
      · intro h0 a p hm
        rcases List.mem_cons.mp hm with hm | hm
        · cases hm
          omega
        · exact h0 a p hm
      · intro h0 a p hm
        exact h0 a p (List.mem_cons_of_mem _ hm)

/-- C18. For every sequence of `Consume` and `Produce` calls (with `uint64`
amounts) on a new `FlowChecker`, `Verify` returns nil if and only if, for every
asset, the total consumed and the total produced fit in a `uint64` (the running
totals never go down, so none overflows exactly when the final ones fit) and
the total produced is at most the total consumed. -/
theorem FlowChecker_Verify_iff (calls : List Flow)
    (hamt : ∀ c ∈ calls, c.amount ≤ MaxUint64) :
    (flowRun calls).Verify.2 = none ↔
      (∀ a, totalConsumed a calls ≤ MaxUint64 ∧ totalProduced a calls ≤ MaxUint64) ∧
        ∀ a, totalProduced a calls ≤ totalConsumed a calls := by
  have h := flowRun_tracks calls hamt
  cases herr : (flowRun calls).errs.Err with
  | some e =>
    have hv : (flowRun calls).Verify.2 = some e := by
      simp [FlowChecker.Verify, Errs.Errored, herr]
    rw [hv]
    constructor
    · intro h0
      cases h0
    · rintro ⟨h1, _⟩
      obtain ⟨a, ha⟩ := h.errored (by rw [herr]; simp)
      have := h1 a
      omega
  | none =>
    have hv : (flowRun calls).Verify.2 = none ↔
        insufficient (flowRun calls).consumed (flowRun calls).produced = false := by
      cases hins : insufficient (flowRun calls).consumed (flowRun calls).produced <;>
        simp [FlowChecker.Verify, Errs.Errored, Errs.Add, herr, hins]
    rw [hv, insufficient_false_iff]
    constructor
    · intro h0
      refine ⟨fun a => ⟨(h.consumed herr a).2, (h.produced herr a).2⟩, fun a => ?_⟩
      rw [← (h.produced herr a).1, ← (h.consumed herr a).1]
      cases hg : mapGet (flowRun calls).produced a with
      | none => exact Nat.zero_le _
      | some p => exact h0 a p (mem_of_mapGet_eq_some _ _ _ hg)
    · rintro ⟨_, h2⟩ a p hm
      have hg := mapGet_eq_some_of_mem _ a p h.producedKeys hm
      have h3 := h2 a
      rw [← (h.produced herr a).1, ← (h.consumed herr a).1, hg] at h3
      exact h3

/-- Witness of C18: 5 units of asset 1 are consumed and 3 + 2 produced, and
`Verify` returns nil. -/
theorem FlowChecker_Verify_iff_witness :
    (flowRun [Flow.consume 1 5, Flow.produce 1 3, Flow.produce 1 2]).Verify.2 = none ∧
    ((flowRun [Flow.consume 1 5, Flow.produce 1 3, Flow.produce 1 2]).Verify.2 = none ↔
      (∀ a, totalConsumed a [Flow.consume 1 5, Flow.produce 1 3, Flow.produce 1 2] ≤ MaxUint64 ∧
        totalProduced a [Flow.consume 1 5, Flow.produce 1 3, Flow.produce 1 2] ≤ MaxUint64) ∧
        ∀ a, totalProduced a [Flow.consume 1 5, Flow.produce 1 3, Flow.produce 1 2] ≤
          totalConsumed a [Flow.consume 1 5, Flow.produce 1 3, Flow.produce 1 2]) :=
  ⟨by decide,
    FlowChecker_Verify_iff [Flow.consume 1 5, Flow.produce 1 3, Flow.produce 1 2] (by decide)⟩

end Avax

namespace PlatformVM

theorem stakeLoop_ok_iff : ∀ (outs : List TransferableOutput) (total w : Nat),
    (∀ out ∈ outs, out.amount ≤ 2 ^ 64 - 1) →
    (stakeLoop outs total = Except.ok w ↔
      (∀ out ∈ outs, out.verifyErr = none) ∧
        (total ≤ 2 ^ 64 - 1 ∨ outs = []) ∧
        total + (outs.map (·.amount)).sum ≤ max total (2 ^ 64 - 1) ∧
        w = total + (outs.map (·.amount)).sum) := by
  intro outs
  induction outs with
  | nil =>
    intro total w _
    simp only [stakeLoop, Except.ok.injEq, List.map_nil, List.sum_nil, Nat.add_zero]
    constructor
    · intro h
      subst h
      exact ⟨fun _ h => absurd h (List.not_mem_nil _), Or.inr trivial, le_max_left _ _, rfl⟩
    · rintro ⟨_, _, _, h⟩
      exact h.symm
  | cons out rest ih =>
    intro total w hamt
    have hout := hamt out (List.mem_cons_self _ _)
    have hrest : ∀ o ∈ rest, o.amount ≤ 2 ^ 64 - 1 :=
      fun o ho => hamt o (List.mem_cons_of_mem _ ho)
    unfold stakeLoop
    cases hv : out.verifyErr with
    | some err =>
      simp only
      constructor
      · intro h
        cases h
      · rintro ⟨h, _⟩
        have := h out (List.mem_cons_self _ _)
        rw [hv] at this
        cases this
    | none =>
      simp only
      unfold Add64
      by_cases hov : total > 2 ^ 64 - 1 - out.amount
      · rw [if_pos hov]
        simp only
        constructor
        · intro h
          cases h
        · rintro ⟨_, h2, h3, _⟩
          rw [List.map_cons, List.sum_cons] at h3
          rcases h2 with h2 | h2
          · rw [max_eq_right h2] at h3
            omega
          · cases h2
      · rw [if_neg hov]
        simp only
        rw [ih (total + out.amount) w hrest]
        rw [List.map_cons, List.sum_cons]
        have hle : total + out.amount ≤ 2 ^ 64 - 1 := by omega
        have htot : total ≤ 2 ^ 64 - 1 := by omega
        rw [max_eq_right hle, max_eq_right htot]
        constructor
        · rintro ⟨h1, _, h3, h4⟩
          refine ⟨?_, Or.inl htot, by omega, by omega⟩
          intro o ho
          rcases List.mem_cons.mp ho with ho | ho
          · rw [ho]
            exact hv
          · exact h1 o ho
        · rintro ⟨h1, _, h3, h4⟩
          exact ⟨fun o ho => h1 o (List.mem_cons_of_mem _ ho), Or.inl hle, by omega, by omega⟩

theorem stakeLoop_zero_ok_iff (outs : List TransferableOutput) (w : Nat)
    (hamt : ∀ out ∈ outs, out.amount ≤ 2 ^ 64 - 1) :
    stakeLoop outs 0 = Except.ok w ↔
      (∀ out ∈ outs, out.verifyErr = none) ∧ (outs.map (·.amount)).sum ≤ 2 ^ 64 - 1 ∧
        w = (outs.map (·.amount)).sum := by
  rw [stakeLoop_ok_iff outs 0 w hamt]
  simp only [Nat.zero_add]
  have h0 : max 0 (2 ^ 64 - 1) = 2 ^ 64 - 1 := by simp
  rw [h0]
  constructor
  · rintro ⟨h1, _, h3, h4⟩
    exact ⟨h1, h3, h4⟩
  · rintro ⟨h1, h3, h4⟩
    exact ⟨h1, Or.inl (Nat.zero_le _), h3, h4⟩

/-- Counterexample to C19 as stated: `sampleTx` (weight 10) passes `Verify`
with minStake 1, which sets its flag `syntacticallyVerified`; `Verify` with
minStake 50 then returns nil although the weight is below minStake. -/
theorem AddValidator_Verify_counterexample :
    (Verify (some sampleTx) 1 100 5 20 10000).2 = none ∧
      (Verify (Verify (some sampleTx) 1 100 5 20 10000).1 50 100 5 20 10000).2 = none ∧
      (Verify (some sampleTx) 1 100 5 20 10000).1 =
        some { sampleTx with syntacticallyVerified := true } ∧
      ¬ (50 ≤ sampleTx.Wght) := by
  decide

/-- C19, amended. For every non-nil tx whose flag `syntacticallyVerified` is
not set (with `uint64` stake amounts) and every (minStake, maxStake,
minStakeDuration, maxStakeDuration, minDelegationFee), `Verify` returns nil if
and only if minStake ≤ Wght ≤ maxStake, minDelegationFee ≤ Shares ≤
PercentDenominator, minStakeDuration ≤ Duration() ≤ maxStakeDuration, the base
tx, the validator, the rewards owner and every stake output verify, the stake
outputs are sorted, and the stake amounts sum without overflow to exactly Wght;
it then sets the flag. For a tx whose flag is set, `Verify` returns nil whatever
the parameters. -/
theorem AddValidator_Verify_iff (tx : UnsignedAddValidatorTx) (minStake maxStake : Nat)
    (minStakeDuration maxStakeDuration : Int) (minDelegationFee : Nat)
    (hamt : ∀ out ∈ tx.Stake, out.amount ≤ 2 ^ 64 - 1) :
    (tx.syntacticallyVerified = false →
      ((Verify (some tx) minStake maxStake minStakeDuration maxStakeDuration
          minDelegationFee).2 = none ↔
        minStake ≤ tx.Wght ∧ tx.Wght ≤ maxStake ∧
          minDelegationFee ≤ tx.Shares ∧ tx.Shares ≤ PercentDenominator ∧
          minStakeDuration ≤ tx.duration ∧ tx.duration ≤ maxStakeDuration ∧
          tx.baseTxErr = none ∧ tx.validatorErr = none ∧ tx.rewardsOwnerErr = none ∧
          (∀ out ∈ tx.Stake, out.verifyErr = none) ∧ tx.stakeSorted = true ∧
          (tx.Stake.map (·.amount)).sum ≤ 2 ^ 64 - 1 ∧
          (tx.Stake.map (·.amount)).sum = tx.Wght) ∧
      ((Verify (some tx) minStake maxStake minStakeDuration maxStakeDuration
          minDelegationFee).2 = none →
        (Verify (some tx) minStake maxStake minStakeDuration maxStakeDuration
          minDelegationFee).1 = some { tx with syntacticallyVerified := true })) ∧
      (tx.syntacticallyVerified = true →
        Verify (some tx) minStake maxStake minStakeDuration maxStakeDuration
          minDelegationFee = (some tx, none)) := by
  refine ⟨fun hflag => ?_, fun hflag => ?_⟩
  · have hpos : (minStake ≤ tx.Wght ∧ tx.Wght ≤ maxStake ∧
          minDelegationFee ≤ tx.Shares ∧ tx.Shares ≤ PercentDenominator ∧
          minStakeDuration ≤ tx.duration ∧ tx.duration ≤ maxStakeDuration ∧
          tx.baseTxErr = none ∧ tx.validatorErr = none ∧ tx.rewardsOwnerErr = none ∧
          (∀ out ∈ tx.Stake, out.verifyErr = none) ∧ tx.stakeSorted = true ∧
          (tx.Stake.map (·.amount)).sum ≤ 2 ^ 64 - 1 ∧
          (tx.Stake.map (·.amount)).sum = tx.Wght) →
        Verify (some tx) minStake maxStake minStakeDuration maxStakeDuration
          minDelegationFee = (some { tx with syntacticallyVerified := true }, none) := by
      rintro ⟨g1, g2, g3, g4, g5, g6, g7, g8, g9, g10, g11, g12, g13⟩
      have hloop := (stakeLoop_zero_ok_iff tx.Stake tx.Wght hamt).mpr ⟨g10, g12, g13.symm⟩
      unfold Verify
      simp only [hflag, Bool.false_eq_true, if_false]
      rw [if_neg (by omega), if_neg (by omega), if_neg (by omega), if_neg (by omega),
        if_neg (by omega), if_neg (by omega), g7]
      simp only [g8, g9, verifyAll, hloop, g11, not_true_eq_false, if_false, ne_eq]
    have hneg : (Verify (some tx) minStake maxStake minStakeDuration maxStakeDuration
          minDelegationFee).2 = none →
        minStake ≤ tx.Wght ∧ tx.Wght ≤ maxStake ∧
          minDelegationFee ≤ tx.Shares ∧ tx.Shares ≤ PercentDenominator ∧
          minStakeDuration ≤ tx.duration ∧ tx.duration ≤ maxStakeDuration ∧
          tx.baseTxErr = none ∧ tx.validatorErr = none ∧ tx.rewardsOwnerErr = none ∧
          (∀ out ∈ tx.Stake, out.verifyErr = none) ∧ tx.stakeSorted = true ∧
          (tx.Stake.map (·.amount)).sum ≤ 2 ^ 64 - 1 ∧
          (tx.Stake.map (·.amount)).sum = tx.Wght := by
      intro hV
      unfold Verify at hV
      simp only [hflag, Bool.false_eq_true, if_false] at hV
      by_cases h1 : tx.Wght < minStake
      · rw [if_pos h1] at hV
        exact absurd hV (by simp)
      rw [if_neg h1] at hV
      by_cases h2 : tx.Wght > maxStake
      · rw [if_pos h2] at hV
        exact absurd hV (by simp)
      rw [if_neg h2] at hV
      by_cases h3 : tx.Shares > PercentDenominator
      · rw [if_pos h3] at hV
        exact absurd hV (by simp)
      rw [if_neg h3] at hV
      by_cases h4 : tx.Shares < minDelegationFee
      · rw [if_pos h4] at hV
        exact absurd hV (by simp)
      rw [if_neg h4] at hV
      by_cases h5 : tx.duration < minStakeDuration
      · rw [if_pos h5] at hV
        exact absurd hV (by simp)
      rw [if_neg h5] at hV
      by_cases h6 : tx.duration > maxStakeDuration
      · rw [if_pos h6] at hV
        exact absurd hV (by simp)
      rw [if_neg h6] at hV
      cases h7 : tx.baseTxErr with
      | some err =>
        rw [h7] at hV
        exact absurd hV (by simp)
      | none =>
        rw [h7] at hV
        cases h8 : tx.validatorErr with
        | some err =>
          rw [h8] at hV
          exact absurd hV (by simp [verifyAll])
        | none =>
          cases h9 : tx.rewardsOwnerErr with
          | some err =>
            rw [h8, h9] at hV
            exact absurd hV (by simp [verifyAll])
          | none =>
            rw [h8, h9] at hV
            simp only [verifyAll] at hV
            cases h10 : stakeLoop tx.Stake 0 with
            | error err =>
              rw [h10] at hV
              exact absurd hV (by simp)
            | ok w =>
              rw [h10] at hV
              obtain ⟨g1, g2, g3⟩ := (stakeLoop_zero_ok_iff tx.Stake w hamt).mp h10
              by_cases h11 : tx.stakeSorted = true
              · by_cases h12 : w = tx.Wght
                · exact ⟨by omega, by omega, by omega, by omega, by omega, by omega, rfl,
                    rfl, rfl, g1, h11, g2, by omega⟩
                · simp only [h11, h12, not_true_eq_false, if_false, ne_eq, not_false_eq_true,
                    if_true] at hV
                  exact absurd hV (by simp)
              · simp only [h11, not_false_eq_true, if_true] at hV
                exact absurd hV (by simp)
    refine ⟨⟨hneg, fun h => ?_⟩, fun h => ?_⟩
    · rw [hpos h]
    · rw [hpos (hneg h)]
  · unfold Verify
    simp only [hflag, if_true]

/-- Witness of C19: `sampleTx` is valid for minStake 1, maxStake 100, a
duration between 5 and 20 and a minimum fee of 10,000 shares. -/
theorem AddValidator_Verify_iff_witness :
    sampleTx.syntacticallyVerified = false ∧
      (Verify (some sampleTx) 1 100 5 20 10000).2 = none ∧
      (Verify (some sampleTx) 1 100 5 20 10000).1 =
        some { sampleTx with syntacticallyVerified := true } :=
  ⟨rfl, by decide,
    ((AddValidator_Verify_iff sampleTx 1 100 5 20 10000 (by decide)).1 rfl).2 (by decide)⟩

end PlatformVM

namespace Constants

theorem digitByte_props (d : Nat) (h : d < 10) :
    isDigit (digitByte d) = true ∧ isASCII (digitByte d) = true ∧
      lowerASCII (digitByte d) = digitByte d ∧
      (digitByte d).val - 48 = d ∧ digitByte d ≠ 45 ∧ digitByte d ≠ 43 := by
  interval_cases d <;> decide

theorem parseDigits_snoc (s : List Byte) (c : Byte) :
    parseDigits (s ++ [c]) = parseDigits s * 10 + (c.val - 48) := by
  unfold parseDigits
  rw [List.foldl_append]
  rfl

theorem decimalAux_spec : ∀ (fuel n : Nat), n < 10 ^ fuel → 0 < fuel →
    decimalAux fuel n ≠ [] ∧
      (∀ c ∈ decimalAux fuel n, isDigit c = true ∧ isASCII c = true ∧ lowerASCII c = c) ∧
      parseDigits (decimalAux fuel n) = n ∧
      (∃ d rest, d < 10 ∧ decimalAux fuel n = digitByte d :: rest) := by
  intro fuel
  induction fuel with
  | zero => intro n _ h; omega
  | succ f ih =>
    intro n hn _
    unfold decimalAux
    by_cases h10 : n < 10
    · rw [if_pos h10]
      have hd := digitByte_props n h10
      refine ⟨by simp, ?_, ?_, n, [], h10, rfl⟩
      · intro c hc
        rw [List.mem_singleton] at hc
        rw [hc]
        exact ⟨hd.1, hd.2.1, hd.2.2.1⟩
      · show parseDigits ([] ++ [digitByte n]) = n
        rw [parseDigits_snoc, hd.2.2.2.1]
        simp [parseDigits]
    · rw [if_neg h10]
      have hf : 0 < f := by
        rcases Nat.eq_zero_or_pos f with h0 | h0
        · subst h0
          simp at hn
          omega
        · exact h0
      have hq : n / 10 < 10 ^ f := by
        rw [pow_succ] at hn
        exact Nat.div_lt_of_lt_mul (by rw [Nat.mul_comm]; exact hn)
      obtain ⟨g1, g2, g3, d, rest, g4, g5⟩ := ih (n / 10) hq hf
      have hd := digitByte_props (n % 10) (Nat.mod_lt _ (by decide))
      refine ⟨by simp, ?_, ?_, d, rest ++ [digitByte (n % 10)], g4, ?_⟩
      · intro c hc
        rcases List.mem_append.mp hc with hc | hc
        · exact g2 c hc
        · rw [List.mem_singleton] at hc
          rw [hc]
          exact ⟨hd.1, hd.2.1, hd.2.2.1⟩
      · rw [parseDigits_snoc, g3, hd.2.2.2.1]
        omega
      · rw [g5]
        rfl

theorem nameGet_none_of_head (c : Byte) :
    ∀ (m : List (List Byte × Nat)) (k : List Byte), k.head? = some c →
      (∀ e ∈ m, e.1.head? ≠ some c) → nameGet m k = none := by
  intro m
  induction m with
  | nil => intro k _ _; rfl
  | cons e rest ih =>
    intro k hk hm
    obtain ⟨k1, v⟩ := e
    have hne : k1 ≠ k := by
      intro h
      have := hm (k1, v) (List.mem_cons_self _ _)
      rw [h] at this
      exact this hk
    simp only [nameGet, hne, if_false]
    exact ih k hk (fun e he => hm e (List.mem_cons_of_mem _ he))

theorem bytesOf_network : bytesOf "network-" = [110, 101, 116, 119, 111, 114, 107, 45] := by
  decide

theorem NetworkID_unregistered (unicodeLower : List Byte → List Byte) (n : Nat)
    (hn : n < 2 ^ 32) :
    NetworkID unicodeLower (bytesOf "network-" ++ decimal n) = Except.ok n := by
  obtain ⟨g1, g2, g3, d, rest, g4, g5⟩ := decimalAux_spec 20 n (by omega) (by decide)
  have hd := digitByte_props d g4
  have hpre := bytesOf_network
  have hdec : (decimal n).map lowerASCII = decimal n := by
    conv_rhs => rw [← List.map_id (decimal n)]
    exact List.map_congr_left (fun c hc => (g2 c hc).2.2)
  have hascii : (bytesOf "network-" ++ decimal n).all isASCII = true := by
    have hdig : (decimal n).all isASCII = true :=
      List.all_eq_true.mpr (fun c hc => (g2 c hc).2.1)
    rw [List.all_append, hpre, hdig]
    decide
  have hlower : ToLower unicodeLower (bytesOf "network-" ++ decimal n) =
      bytesOf "network-" ++ decimal n := by
    unfold ToLower
    rw [if_pos hascii, List.map_append, hdec, hpre]
    rfl
  have hget : nameGet NetworkNameToNetworkID (bytesOf "network-" ++ decimal n) = none :=
    nameGet_none_of_head 110 _ _ (by rw [hpre]; rfl) (by decide)
  have hparse : ParseUint (bytesOf "network-" ++ decimal n) = none := by
    unfold ParseUint
    rw [hpre]
    have h110 : isDigit (110 : Byte) = false := by decide
    simp [h110]
  have hdrop : List.drop 8 (bytesOf "network-" ++ decimal n) = decimal n := by
    rw [hpre]; rfl
  have hmatch : MatchString (bytesOf "network-" ++ decimal n) = true := by
    unfold MatchString
    rw [List.any_eq_true]
    refine ⟨_, (List.mem_tails _ _).mpr (List.suffix_refl _), ?_⟩
    unfold matchesHere
    have hd5 : decimal n = digitByte d :: rest := g5
    rw [hdrop, hd5]
    simp [hd.1]
  have hatoi : Atoi (decimal n) = some (n : Int) := by
    have hd5 : decimal n = digitByte d :: rest := g5
    have hall : (decimal n).all isDigit = true := by
      rw [List.all_eq_true]
      exact fun c hc => (g2 c hc).1
    have hval : parseDigits (decimal n) = n := g3
    unfold Atoi
    rw [hd5] at hall hval ⊢
    simp only [hd.2.2.2.2.1, hd.2.2.2.2.2, or_self, if_false, hall, hval, if_true]
    rw [if_neg (by simp), if_neg (by omega)]
  unfold NetworkID
  simp only [hlower, hget, hparse, hmatch, if_true]
  rw [hdrop, hatoi]
  simp only
  have hmax : ¬ ((n : Int) > (MaxUint32 : Int)) := by
    unfold MaxUint32
    push_cast
    omega
  rw [if_neg hmax]
  congr 1
  omega

theorem NetworkName_unregistered (n : Nat) (h : n ≠ 1 ∧ n ≠ 2 ∧ n ≠ 3 ∧ n ≠ 4 ∧ n ≠ 5 ∧
    n ≠ 6 ∧ n ≠ 10 ∧ n ≠ 12345) : NetworkName n = bytesOf "network-" ++ decimal n := by
  obtain ⟨h1, h2, h3, h4, h5, h6, h7, h8⟩ := h
  unfold NetworkName
  have hget : mapGet NetworkIDToNetworkName n = none := by
    simp [NetworkIDToNetworkName, mapGet, Ne.symm h1, Ne.symm h2, Ne.symm h3, Ne.symm h4,
      Ne.symm h5, Ne.symm h6, Ne.symm h7, Ne.symm h8]
  rw [hget]

theorem ToLower_ascii (unicodeLower : List Byte → List Byte) (s : List Byte)
    (h : s.all isASCII = true) : ToLower unicodeLower s = s.map lowerASCII := by
  unfold ToLower
  rw [if_pos h]

theorem NetworkID_registered (unicodeLower : List Byte → List Byte) (s : List Byte) (id : Nat)
    (h1 : s.all isASCII = true) (h2 : s.map lowerASCII = s)
    (h3 : nameGet NetworkNameToNetworkID s = some id) :
    NetworkID unicodeLower s = Except.ok id := by
  unfold NetworkID
  simp only [ToLower_ascii unicodeLower s h1, h2, h3]

/-- C20. For every `uint32` network ID `n`, `NetworkID(NetworkName(n))`
returns `n` and no error, both for the IDs with a registered name and for the
IDs rendered as `network-<n>`; this holds whatever `strings.ToLower` does on
strings that are not ASCII. -/
theorem NetworkID_NetworkName (unicodeLower : List Byte → List Byte) (n : Nat)
    (hn : n < 2 ^ 32) :
    NetworkID unicodeLower (NetworkName n) = Except.ok n := by
  by_cases h1 : n = 1
  · subst h1; exact NetworkID_registered _ _ _ (by decide) (by decide) (by decide)
  by_cases h2 : n = 2
  · subst h2; exact NetworkID_registered _ _ _ (by decide) (by decide) (by decide)
  by_cases h3 : n = 3
  · subst h3; exact NetworkID_registered _ _ _ (by decide) (by decide) (by decide)
  by_cases h4 : n = 4
  · subst h4; exact NetworkID_registered _ _ _ (by decide) (by decide) (by decide)
  by_cases h5 : n = 5
  · subst h5; exact NetworkID_registered _ _ _ (by decide) (by decide) (by decide)
  by_cases h6 : n = 6
  · subst h6; exact NetworkID_registered _ _ _ (by decide) (by decide) (by decide)
  by_cases h7 : n = 10
  · subst h7; exact NetworkID_registered _ _ _ (by decide) (by decide) (by decide)
  by_cases h8 : n = 12345
  · subst h8; exact NetworkID_registered _ _ _ (by decide) (by decide) (by decide)
  rw [NetworkName_unregistered n ⟨h1, h2, h3, h4, h5, h6, h7, h8⟩]
  exact NetworkID_unregistered unicodeLower n hn

/-- Witness of C20: the ID 7 has no registered name and is rendered as
`network-7`; the ID 5 is rendered as `fuji`. The function in the place of the
Unicode mapping, which these names never reach, is the identity. -/
theorem NetworkID_NetworkName_witness :
    NetworkName 7 = bytesOf "network-7" ∧ NetworkName 5 = bytesOf "fuji" ∧
      NetworkID id (NetworkName 7) = Except.ok 7 ∧
      NetworkID id (NetworkName 5) = Except.ok 5 :=
  ⟨by decide, by decide, NetworkID_NetworkName id 7 (by decide),
    NetworkID_NetworkName id 5 (by decide)⟩

end Constants

namespace PollSet

theorem finished_vote_iff (p : Poll) (vdr : NodeID) (votes : List DecisionID) :
    (p.Vote vdr votes).Finished = true ↔ ∀ v ∈ p.validators, v = vdr ∨ v ∈ p.responded := by
  unfold Poll.Finished Poll.Vote Poll.responded
  simp [List.all_eq_true]

theorem vote_keeps_once (p : Poll) (vdr : NodeID) (votes : List DecisionID)
    (ha : p.Awaits vdr = true) (honce : p.responded.Nodup)
    (hsub : ∀ v ∈ p.responded, v ∈ p.validators) :
    (p.Vote vdr votes).responded.Nodup ∧
      ∀ v ∈ (p.Vote vdr votes).responded, v ∈ (p.Vote vdr votes).validators := by
  have ha1 : vdr ∈ p.validators ∧ vdr ∉ p.responded := by
    simpa [Poll.Awaits] using ha
  constructor
  · show (vdr :: p.responded).Nodup
    exact List.nodup_cons.mpr ⟨ha1.2, honce⟩
  · intro v hv
    rcases List.mem_cons.mp hv with hv | hv
    · rw [hv]
      exact ha1.1
    · exact hsub v hv

/-- C17. In the poll set of the no-early-termination factory, for a poll with
distinct validators in which every recorded response is from a different
validator of the poll (as in every poll made by `Add` and changed by `Vote`):
a vote from a validator that has already responded leaves the poll set as it
was and does not finish the poll; a vote finishes the poll exactly when its
sender is a validator of the poll that has not responded and every other
validator has; and the result then holds exactly one response for each
validator of the poll, so each decision counts at most one vote per validator. -/
theorem double_chit_ignored (s : Set) (requestID : Nat) (p : Poll) (vdr : NodeID)
    (votes : List DecisionID) (hp : mapGet s.current requestID = some p)
    (hdistinct : p.validators.Nodup) (honce : p.responded.Nodup)
    (hsub : ∀ v ∈ p.responded, v ∈ p.validators) :
    (vdr ∈ p.responded → s.Vote requestID vdr votes = (s, none)) ∧
      ((s.Vote requestID vdr votes).2 ≠ none ↔
        vdr ∈ p.validators ∧ vdr ∉ p.responded ∧
          ∀ v ∈ p.validators, v = vdr ∨ v ∈ p.responded) ∧
      (∀ result, (s.Vote requestID vdr votes).2 = some result →
        (result.map (·.1)).Perm p.validators ∧ result.length = p.validators.length ∧
          (vdr, votes) ∈ result ∧ ∀ d, voteCount result d ≤ p.validators.length) := by
  have hfin := finished_vote_iff p vdr votes
  refine ⟨fun hv => ?_, ?_, fun result hres => ?_⟩
  · unfold Set.Vote
    rw [hp]
    simp [Poll.Awaits, hv]
  · unfold Set.Vote
    rw [hp]
    by_cases ha : p.Awaits vdr = true
    · have ha1 : vdr ∈ p.validators ∧ vdr ∉ p.responded := by
        simpa [Poll.Awaits] using ha
      by_cases hf : (p.Vote vdr votes).Finished = true
      · simp only [ha, hf, if_true]
        exact ⟨fun _ => ⟨ha1.1, ha1.2, hfin.mp hf⟩, fun _ => by simp⟩
      · simp only [ha, hf, if_true, Bool.false_eq_true, if_false]
        exact ⟨fun h => absurd rfl h, fun h => absurd (hfin.mpr h.2.2) hf⟩
    · simp only [ha, Bool.false_eq_true, if_false]
      refine ⟨fun h => absurd rfl h, fun h => ?_⟩
      exact absurd (by simp [Poll.Awaits, h.1, h.2.1]) ha
  · unfold Set.Vote at hres
    rw [hp] at hres
    by_cases ha : p.Awaits vdr = true
    · have ha1 : vdr ∈ p.validators ∧ vdr ∉ p.responded := by
        simpa [Poll.Awaits] using ha
      by_cases hf : (p.Vote vdr votes).Finished = true
      · simp only [ha, hf, if_true, Option.some.injEq] at hres
        subst hres
        have hall := hfin.mp hf
        have hnodup : (((p.Vote vdr votes).responses).map (·.1)).Nodup := by
          show (vdr :: p.responded).Nodup
          exact List.nodup_cons.mpr ⟨ha1.2, honce⟩
        have hperm : (((p.Vote vdr votes).responses).map (·.1)).Perm p.validators := by
          rw [List.perm_ext_iff_of_nodup hnodup hdistinct]
          intro v
          show v ∈ vdr :: p.responded ↔ v ∈ p.validators
          constructor
          · intro hv
            rcases List.mem_cons.mp hv with hv | hv
            · rw [hv]
              exact ha1.1
            · exact hsub v hv
          · intro hv
            rcases hall v hv with h | h
            · rw [h]
              exact List.mem_cons_self _ _
            · exact List.mem_cons_of_mem _ h
        have hlen : (p.Vote vdr votes).responses.length = p.validators.length := by
          rw [← List.Perm.length_eq hperm, List.length_map]
        refine ⟨hperm, hlen, List.mem_cons_self _ _, fun d => ?_⟩
        rw [← hlen]
        exact List.length_filter_le _ _
      · simp only [ha, hf, if_true, Bool.false_eq_true, if_false] at hres
        cases hres
    · simp only [ha, Bool.false_eq_true, if_false] at hres
      cases hres

/-- Witness of C17, the run of `TestCreateAndFinishPoll`: a poll of the
validators 1 and 2 under request 0; validator 1 votes twice for decision 7 and
the poll is not finished; the vote of validator 2 finishes it with two votes
for decision 7. -/
theorem double_chit_ignored_witness :
    ((NewSet.Add 0 [1, 2]).1.Add 0 [1, 2]).2 = false ∧
      (((NewSet.Add 0 [1, 2]).1.Vote 0 1 [7]).1.Vote 0 1 [7]) =
        (((NewSet.Add 0 [1, 2]).1.Vote 0 1 [7]).1, none) ∧
      ((((NewSet.Add 0 [1, 2]).1.Vote 0 1 [7]).1.Vote 0 1 [7]).1.Vote 0 2 [7]).2 =
        some [(2, [7]), (1, [7])] ∧
      voteCount [(2, [7]), (1, [7])] 7 = 2 :=
  ⟨by decide,
    (double_chit_ignored ((NewSet.Add 0 [1, 2]).1.Vote 0 1 [7]).1 0
      { validators := [1, 2], responses := [(1, [7])] } 1 [7] (by decide) (by decide)
      (by decide) (by decide)).1 (by decide),
    by decide, by decide⟩

end PollSet

namespace Benchlist

/-- C27. When no query with request ID `r` is pending for validator `v`,
`RegisterResponse(v, r)` and `QueryFailed(v, r)` return the benchlist as it
was: the pending queries, the failure streaks and the benched entries (times,
order and set) are unchanged. -/
theorem unknown_request_ignored (b : queryBenchlist) (v : ShortID) (r : Nat) (rnd : Fraction)
    (h : ∀ reqs, mapGet b.pendingQueries v = some reqs → mapGet reqs r = none) :
    RegisterResponse b v r = b ∧ QueryFailed b v r rnd = b := by
  have hq := removeQuery_absent b v r h
  constructor
  · unfold RegisterResponse
    rw [hq]
  · unfold QueryFailed
    rw [hq]

/-- Witness of C27: request 0 of validator 1 is pending and validator 1 has a
failure on record; a response and a failure for request 9 change nothing. -/
theorem unknown_request_ignored_witness :
    (run (NewQueryBenchlist ⟨[(1, 10), (2, 90)], 100⟩ 1 0 100 ⟨1, 2⟩)
        [Call.registerQuery 5 2 0 0, Call.queryFailed 6 2 0 ⟨1, 2⟩,
         Call.registerQuery 7 1 0 0]).pendingQueries = [(1, [(0, ⟨7, 0⟩)])] ∧
      RegisterResponse (run (NewQueryBenchlist ⟨[(1, 10), (2, 90)], 100⟩ 1 0 100 ⟨1, 2⟩)
        [Call.registerQuery 5 2 0 0, Call.queryFailed 6 2 0 ⟨1, 2⟩,
         Call.registerQuery 7 1 0 0]) 1 9 =
        run (NewQueryBenchlist ⟨[(1, 10), (2, 90)], 100⟩ 1 0 100 ⟨1, 2⟩)
          [Call.registerQuery 5 2 0 0, Call.queryFailed 6 2 0 ⟨1, 2⟩,
           Call.registerQuery 7 1 0 0] ∧
      QueryFailed (run (NewQueryBenchlist ⟨[(1, 10), (2, 90)], 100⟩ 1 0 100 ⟨1, 2⟩)
        [Call.registerQuery 5 2 0 0, Call.queryFailed 6 2 0 ⟨1, 2⟩,
         Call.registerQuery 7 1 0 0]) 1 9 ⟨1, 2⟩ =
        run (NewQueryBenchlist ⟨[(1, 10), (2, 90)], 100⟩ 1 0 100 ⟨1, 2⟩)
          [Call.registerQuery 5 2 0 0, Call.queryFailed 6 2 0 ⟨1, 2⟩,
           Call.registerQuery 7 1 0 0] :=
  ⟨by decide,
    unknown_request_ignored _ 1 9 ⟨1, 2⟩ (by
      intro reqs hreqs
      have h0 : mapGet (run (NewQueryBenchlist ⟨[(1, 10), (2, 90)], 100⟩ 1 0 100 ⟨1, 2⟩)
          [Call.registerQuery 5 2 0 0, Call.queryFailed 6 2 0 ⟨1, 2⟩,
           Call.registerQuery 7 1 0 0]).pendingQueries 1 = some [(0, ⟨7, 0⟩)] := by decide
      rw [h0] at hreqs
      cases hreqs
      decide)⟩

/-- C28. In every state reached from a new benchlist by RegisterQuery,
RegisterResponse and QueryFailed calls, `benchlistOrder` has no duplicates (it
holds every benched validator exactly once), and its elements, the members of
`benchlistSet` and the keys of `benchlistTimes` are the same; and `bench` of a
validator that is in `benchlistSet` returns the benchlist as it was, so neither
its end time nor its position changes. -/
theorem bookkeeping_consistent (validators : ValidatorSet) (threshold : Int)
    (minimumFailingDuration duration : Int) (maxPortion : Fraction) (calls : List Call) :
    (run (NewQueryBenchlist validators threshold minimumFailingDuration duration maxPortion)
        calls).benchlistOrder.Nodup ∧
      (∀ v, v ∈ (run (NewQueryBenchlist validators threshold minimumFailingDuration duration
            maxPortion) calls).benchlistSet →
        (run (NewQueryBenchlist validators threshold minimumFailingDuration duration
          maxPortion) calls).benchlistOrder.count v = 1) ∧
      (∀ v, v ∈ (run (NewQueryBenchlist validators threshold minimumFailingDuration duration
            maxPortion) calls).benchlistSet ↔
        v ∈ (run (NewQueryBenchlist validators threshold minimumFailingDuration duration
          maxPortion) calls).benchlistOrder) ∧
      (∀ v, mapGet (run (NewQueryBenchlist validators threshold minimumFailingDuration duration
            maxPortion) calls).benchlistTimes v ≠ none ↔
        v ∈ (run (NewQueryBenchlist validators threshold minimumFailingDuration duration
          maxPortion) calls).benchlistOrder) ∧
      (∀ (b : queryBenchlist) (v : ShortID) (rnd : Fraction),
        v ∈ b.benchlistSet → bench b v rnd = b) := by
  have h := (run_good calls _
    (new_good validators threshold minimumFailingDuration duration maxPortion)).1
  refine ⟨h.nodup, fun v hv => ?_, h.mem_iff, h.times_iff, fun b v rnd hv => ?_⟩
  · exact List.count_eq_one_of_mem h.nodup ((h.mem_iff v).mp hv)
  · unfold bench
    rw [if_pos hv]

end Benchlist

namespace Bootstrap

open Choices

/-- C25. For a transaction with status Processing whose dependencies are all
Accepted, `txJob.Execute` calls `Accept` exactly once, returns nil if and only
if `Accept` returns nil, and does the same whatever `Verify` returns. -/
theorem txJob_Execute_accepts (tx : Tx) (hs : tx.status = Status.Processing)
    (hd : ∀ d ∈ tx.dependencies, d.status = Status.Accepted) :
    (txJob.Execute tx).calls.count Method.Accept = 1 ∧
      ((txJob.Execute tx).err = none ↔ tx.acceptErr = none) ∧
      (∀ verifyErr, txJob.Execute { tx with verifyErr := verifyErr } = txJob.Execute tx) := by
  have h := txJob_Execute_ready tx hd
  rw [hs] at h
  have h2 : ∀ verifyErr, txJob.Execute { tx with verifyErr := verifyErr } = txJob.Execute tx := by
    intro verifyErr
    exact (txJob_Execute_ready _ hd).trans (txJob_Execute_ready tx hd).symm
  refine ⟨?_, ?_, h2⟩
  · rw [h]
    cases ha : tx.acceptErr <;> rfl
  · rw [h]
    cases ha : tx.acceptErr <;> simp

/-- Witness of C25: a Processing transaction whose `Verify` fails and whose
`Accept` succeeds is accepted and `Execute` returns nil. -/
theorem txJob_Execute_accepts_witness :
    txJob.Execute unverifiedTx =
      { err := none, calls := [Method.Verify, Method.Accept], numAccepted := 1,
        numDropped := 0 } ∧
      (txJob.Execute unverifiedTx).calls.count Method.Accept = 1 :=
  ⟨by decide, (txJob_Execute_accepts unverifiedTx rfl (by decide)).1⟩

end Bootstrap

namespace Constants

theorem NetworkID_no_match (unicodeLower : List Byte → List Byte) (s : List Byte)
    (h1 : nameGet NetworkNameToNetworkID (ToLower unicodeLower s) = none)
    (h2 : ParseUint (ToLower unicodeLower s) = none)
    (h3 : MatchString (ToLower unicodeLower s) = false) :
    NetworkID unicodeLower s = Except.error Error.errParse := by
  unfold NetworkID
  simp [h1, h2, h3]

theorem NetworkID_congr (f g : List Byte → List Byte) (s t : List Byte)
    (h : ToLower f s = ToLower g t) : NetworkID f s = NetworkID g t := by
  unfold NetworkID
  simp only [h]

/-- On the Kelvin sign (U+212A), which `unicode.ToLower` maps to `k`, the
lower-cased name is `network-5` and `NetworkID` returns 5. -/
theorem NetworkID_kelvin (unicodeLower : List Byte → List Byte)
    (h : unicodeLower (bytesOf "networ\u212A-5") = bytesOf "network-5") :
    NetworkID unicodeLower (bytesOf "networ\u212A-5") = Except.ok 5 := by
  have h1 : ToLower unicodeLower (bytesOf "networ\u212A-5") =
      ToLower id (bytesOf "network-5") := by
    unfold ToLower
    rw [if_neg (by decide), h, if_pos (by decide)]
    decide
  rw [NetworkID_congr _ id _ _ h1]
  decide

/-- A character of two bytes in front of `network-5` moves the slice
`networkName[8:]` to `k-5`, which is no number. -/
theorem NetworkID_two_byte_char (unicodeLower : List Byte → List Byte)
    (h : unicodeLower (bytesOf "\u00E9network-5") = bytesOf "\u00E9network-5") :
    NetworkID unicodeLower (bytesOf "\u00E9network-5") = Except.error Error.errParse := by
  have h1 : ToLower unicodeLower (bytesOf "\u00E9network-5") =
      ToLower (fun _ => bytesOf "\u00E9network-5") (bytesOf "\u00E9network-5") := by
    unfold ToLower
    rw [if_neg (by decide), h, if_neg (by decide)]
  rw [NetworkID_congr _ _ _ _ h1]
  decide

/-- C26. `NetworkID` returns an error for every string whose lower-cased form
is no registered name, no unsigned integer and has no match of
`network-[0-9]+`; but `xnetwork-5`, which is lower case, is no registered name
and no unsigned integer and does not start with `network-`, is accepted: the
expression matches at offset 1, `networkName[8:]` is `-5`, and `uint32(-5)` is
returned. -/
theorem NetworkID_malformed (unicodeLower : List Byte → List Byte) :
    (∀ s : List Byte, nameGet NetworkNameToNetworkID (ToLower unicodeLower s) = none →
        ParseUint (ToLower unicodeLower s) = none →
        MatchString (ToLower unicodeLower s) = false →
        NetworkID unicodeLower s = Except.error Error.errParse) ∧
      ToLower unicodeLower (bytesOf "xnetwork-5") = bytesOf "xnetwork-5" ∧
      nameGet NetworkNameToNetworkID (bytesOf "xnetwork-5") = none ∧
      ParseUint (bytesOf "xnetwork-5") = none ∧
      (bytesOf "network-").isPrefixOf (bytesOf "xnetwork-5") = false ∧
      NetworkID unicodeLower (bytesOf "xnetwork-5") = Except.ok 4294967291 := by
  have h1 : ToLower unicodeLower (bytesOf "xnetwork-5") = ToLower id (bytesOf "xnetwork-5") := by
    rw [ToLower_ascii _ _ (by decide), ToLower_ascii _ _ (by decide)]
  refine ⟨NetworkID_no_match unicodeLower, ?_, by decide, by decide, by decide, ?_⟩
  · rw [h1]
    decide
  · rw [NetworkID_congr _ id _ _ h1]
    decide

end Constants

namespace Benchlist

theorem managerStep_absent (bm : benchlistManager) (c : ManagerCall) (chainID : Nat)
    (h : mapGet bm.chainBenchlists chainID = none) (hc : c.registers chainID = false) :
    mapGet (managerStep bm c).chainBenchlists chainID = none := by
  cases c with
  | registerChain ctx metricsErr =>
    have hne : chainID ≠ ctx.ChainID := by
      intro he
      simp [ManagerCall.registers, he] at hc
    show mapGet (bm.RegisterChain ctx metricsErr).1.chainBenchlists chainID = none
    unfold benchlistManager.RegisterChain
    split
    · exact h
    · split
      · exact h
      · split
        · exact h
        · show mapGet (mapSet _ _ _) chainID = none
          rw [mapGet_mapSet_ne _ _ hne]
          exact h
  | registerQuery now c1 v r t =>
    show mapGet (bm.RegisterQuery now c1 v r t).1.chainBenchlists chainID = none
    unfold benchlistManager.RegisterQuery
    split
    · exact h
    · rename_i chain hchain
      have hne : chainID ≠ c1 := by
        intro he
        rw [he, hchain] at h
        cases h
      show mapGet (mapSet _ _ _) chainID = none
      rw [mapGet_mapSet_ne _ _ hne]
      exact h
  | registerResponse now c1 v r =>
    show mapGet (bm.RegisterResponse now c1 v r).chainBenchlists chainID = none
    unfold benchlistManager.RegisterResponse
    split
    · exact h
    · rename_i chain hchain
      have hne : chainID ≠ c1 := by
        intro he
        rw [he, hchain] at h
        cases h
      show mapGet (mapSet _ _ _) chainID = none
      rw [mapGet_mapSet_ne _ _ hne]
      exact h
  | queryFailed now c1 v r rnd =>
    show mapGet (bm.QueryFailed now c1 v r rnd).chainBenchlists chainID = none
    unfold benchlistManager.QueryFailed
    split
    · exact h
    · rename_i chain hchain
      have hne : chainID ≠ c1 := by
        intro he
        rw [he, hchain] at h
        cases h
      show mapGet (mapSet _ _ _) chainID = none
      rw [mapGet_mapSet_ne _ _ hne]
      exact h

theorem managerRun_absent (chainID : Nat) : ∀ (calls : List ManagerCall) (bm : benchlistManager),
    mapGet bm.chainBenchlists chainID = none → (∀ c ∈ calls, c.registers chainID = false) →
    mapGet (managerRun bm calls).chainBenchlists chainID = none := by
  intro calls
  induction calls with
  | nil => intro bm h _; exact h
  | cons c cs ih =>
    intro bm h hc
    exact ih (managerStep bm c)
      (managerStep_absent bm c chainID h (hc c (List.mem_cons_self _ _)))
      (fun c1 hc1 => hc c1 (List.mem_cons_of_mem _ hc1))

/-- C30. After any sequence of calls on a new benchlist manager in which
`RegisterChain` was never called for the chain ID, `RegisterQuery` for that
chain returns false for every validator, request ID and message type, and
`RegisterQuery`, `RegisterResponse` and `QueryFailed` leave the manager as it
was; the manager of `NewNoBenchlist` returns true from `RegisterQuery` for
every input. -/
theorem unregistered_chain_benched (config : Config) (calls : List ManagerCall) (chainID : Nat)
    (hnever : ∀ c ∈ calls, c.registers chainID = false) :
    (∀ (now : Int) (v : ShortID) (r t : Nat),
        (managerRun (NewManager config) calls).RegisterQuery now chainID v r t =
          (managerRun (NewManager config) calls, false)) ∧
      (∀ (now : Int) (v : ShortID) (r : Nat),
        (managerRun (NewManager config) calls).RegisterResponse now chainID v r =
          managerRun (NewManager config) calls) ∧
      (∀ (now : Int) (v : ShortID) (r : Nat) (rnd : Fraction),
        (managerRun (NewManager config) calls).QueryFailed now chainID v r rnd =
          managerRun (NewManager config) calls) ∧
      (∀ (c : Nat) (v : ShortID) (r t : Nat), NewNoBenchlist.RegisterQuery c v r t = true) := by
  have h := managerRun_absent chainID calls (NewManager config) rfl hnever
  refine ⟨fun now v r t => ?_, fun now v r => ?_, fun now v r rnd => ?_, fun _ _ _ _ => rfl⟩
  · unfold benchlistManager.RegisterQuery
    rw [h]
  · unfold benchlistManager.RegisterResponse
    rw [h]
  · unfold benchlistManager.QueryFailed
    rw [h]

/-- Witness of C30: chain 1 is registered and queried, chain 2 is not
registered; a query for chain 1 is let through and a query for chain 2 is not. -/
theorem unregistered_chain_benched_witness :
    ((managerRun (NewManager ⟨[(0, ⟨[(1, 10), (2, 90)], 100⟩)], 3, 0, 100, ⟨1, 2⟩⟩)
        [ManagerCall.registerChain ⟨1, 0⟩ none,
         ManagerCall.registerQuery 5 1 1 0 0]).RegisterQuery 6 1 1 1 0).2 = true ∧
      (managerRun (NewManager ⟨[(0, ⟨[(1, 10), (2, 90)], 100⟩)], 3, 0, 100, ⟨1, 2⟩⟩)
        [ManagerCall.registerChain ⟨1, 0⟩ none,
         ManagerCall.registerQuery 5 1 1 0 0]).RegisterQuery 6 2 1 1 0 =
        (managerRun (NewManager ⟨[(0, ⟨[(1, 10), (2, 90)], 100⟩)], 3, 0, 100, ⟨1, 2⟩⟩)
          [ManagerCall.registerChain ⟨1, 0⟩ none,
           ManagerCall.registerQuery 5 1 1 0 0], false) :=
  ⟨by decide,
    (unregistered_chain_benched ⟨[(0, ⟨[(1, 10), (2, 90)], 100⟩)], 3, 0, 100, ⟨1, 2⟩⟩
      [ManagerCall.registerChain ⟨1, 0⟩ none, ManagerCall.registerQuery 5 1 1 0 0] 2
      (by decide)).1 6 1 1 0⟩

end Benchlist

namespace SnowmanVoter

open Choices

theorem map_snd_mapDel_sum (b : Bag) (id : ID) (h : (b.map (·.1)).Nodup) :
    ((mapDel b id).map (·.2)).sum + Count b id = (b.map (·.2)).sum := by
  induction b with
  | nil => rfl
  | cons p rest ih =>
    obtain ⟨k, n⟩ := p
    rw [List.map_cons, List.nodup_cons] at h
    by_cases hk : k = id
    · subst hk
      have hnot : ∀ q ∈ rest, q.1 ≠ k := by
        intro q hq he
        exact h.1 (List.mem_map.mpr ⟨q, hq, he⟩)
      have hdel : mapDel ((k, n) :: rest) k = rest := by
        unfold mapDel
        rw [List.filter_cons]
        simp only [ne_eq, not_true_eq_false, decide_False, Bool.false_eq_true, if_false]
        rw [List.filter_eq_self]
        intro q hq
        simpa using hnot q hq
      rw [hdel]
      have hc : Count ((k, n) :: rest) k = n := by simp [Count, mapGet]
      rw [hc, List.map_cons, List.sum_cons]
      exact Nat.add_comm _ _
    · have hdel : mapDel ((k, n) :: rest) id = (k, n) :: mapDel rest id := by
        unfold mapDel
        rw [List.filter_cons]
        simp [hk]
      have hc : Count ((k, n) :: rest) id = Count rest id := by
        simp [Count, mapGet, hk]
      rw [hdel, hc, List.map_cons, List.sum_cons, List.map_cons, List.sum_cons, ← ih h.2]
      omega

theorem Len_of_nodup (b : Bag) (h : (b.map (·.1)).Nodup) : Bag.Len b = (b.map (·.2)).sum := by
  unfold Bag.Len Bag.List
  rw [List.Nodup.dedup h, List.map_map]
  congr 1
  apply List.map_congr_left
  intro p hp
  show Count b p.1 = p.2
  unfold Count
  rw [mapGet_eq_some_of_mem b p.1 p.2 h hp]
  rfl

theorem Len_AddCount (b : Bag) (id : ID) (count : Nat) (h : (b.map (·.1)).Nodup) :
    ((AddCount b id count).map (·.1)).Nodup ∧ Bag.Len (AddCount b id count) = Bag.Len b + count := by
  unfold AddCount
  by_cases hc : count = 0
  · rw [if_pos hc, hc]
    exact ⟨h, rfl⟩
  · rw [if_neg hc]
    have hn := nodup_keys_mapSet b id (Count b id + count) h
    refine ⟨hn, ?_⟩
    rw [Len_of_nodup _ hn, Len_of_nodup _ h]
    show (Count b id + count) + ((mapDel b id).map (·.2)).sum = _
    have := map_snd_mapDel_sum b id h
    omega

/-- What holds of the bag that the loop of `bubbleVotes` has built so far. -/
theorem foldl_bubbleVote_safe (getBlock : ID → Option Block) (issued : Block → Bool)
    (votes : Bag) : ∀ (l : List ID) (acc : Bag),
    (acc.map (·.1)).Nodup →
    (∀ id ∈ acc.map (·.1), ∃ blk : Block, blk.ID = id ∧ issued blk = true ∧
      blk.Status.Decided = false) →
    ((l.foldl (bubbleVote getBlock issued votes) acc).map (·.1)).Nodup ∧
      Bag.Len (l.foldl (bubbleVote getBlock issued votes) acc) ≤
        Bag.Len acc + (l.map (Count votes)).sum ∧
      (∀ id ∈ (l.foldl (bubbleVote getBlock issued votes) acc).map (·.1),
        ∃ blk : Block, blk.ID = id ∧ issued blk = true ∧ blk.Status.Decided = false) := by
  intro l
  induction l with
  | nil =>
    intro acc hn hids
    exact ⟨hn, by simp, hids⟩
  | cons v rest ih =>
    intro acc hn hids
    rw [List.foldl_cons]
    have hstep : ((bubbleVote getBlock issued votes acc v).map (·.1)).Nodup ∧
        Bag.Len (bubbleVote getBlock issued votes acc v) ≤ Bag.Len acc + Count votes v ∧
        (∀ id ∈ (bubbleVote getBlock issued votes acc v).map (·.1),
          ∃ blk : Block, blk.ID = id ∧ issued blk = true ∧ blk.Status.Decided = false) := by
      unfold bubbleVote
      cases hg : getBlock v with
      | none => exact ⟨hn, Nat.le_add_right _ _, hids⟩
      | some blk =>
        simp only
        by_cases hc : (!(walkUp issued blk).Status.Decided && issued (walkUp issued blk)) = true
        · rw [if_pos hc]
          have hl := Len_AddCount acc (walkUp issued blk).ID (Count votes v) hn
          refine ⟨hl.1, le_of_eq hl.2, ?_⟩
          intro id hid
          rw [Bool.and_eq_true, Bool.not_eq_true'] at hc
          unfold AddCount at hid
          by_cases h0 : Count votes v = 0
          · rw [if_pos h0] at hid
            exact hids id hid
          · rw [if_neg h0] at hid
            unfold mapSet at hid
            rw [List.map_cons, List.mem_cons] at hid
            rcases hid with hid | hid
            · exact ⟨walkUp issued blk, hid.symm, hc.2, hc.1⟩
            · apply hids id
              obtain ⟨p, hp, hpe⟩ := List.mem_map.mp hid
              exact List.mem_map.mpr ⟨p, (List.mem_filter.mp hp).1, hpe⟩
        · rw [if_neg hc]
          exact ⟨hn, Nat.le_add_right _ _, hids⟩
    obtain ⟨g1, g2, g3⟩ := ih _ hstep.1 hstep.2.2
    refine ⟨g1, ?_, g3⟩
    rw [List.map_cons, List.sum_cons]
    have := hstep.2.1
    omega

/-- C29. For every bag of votes, the number of votes in the bag that
`bubbleVotes` returns is at most the number of votes in the input bag, and every
ID of the returned bag is the ID of a block that is issued in consensus and not
decided. -/
theorem bubbleVotes_safe (getBlock : ID → Option Block) (issued : Block → Bool)
    (votes : Bag) :
    Bag.Len (bubbleVotes getBlock issued votes) ≤ Bag.Len votes ∧
      ∀ id ∈ Bag.List (bubbleVotes getBlock issued votes),
        ∃ blk : Block, blk.ID = id ∧ issued blk = true ∧ blk.Status.Decided = false := by
  obtain ⟨_, h2, h3⟩ := foldl_bubbleVote_safe getBlock issued votes (Bag.List votes) []
    List.nodup_nil (fun id hid => absurd hid (List.not_mem_nil _))
  refine ⟨?_, fun id hid => ?_⟩
  · have h0 : Bag.Len ([] : Bag) = 0 := rfl
    rw [h0, Nat.zero_add] at h2
    exact h2
  · apply h3 id
    unfold Bag.List at hid
    exact List.mem_dedup.mp hid

end SnowmanVoter

namespace Benchlist

theorem cleanupLoop_expired (ct : Int) (mw : Nat) :
    ∀ (order : List ShortID) (b : queryBenchlist) (w : Nat) (b1 : queryBenchlist),
      order.Nodup → (order.map (endOf b.benchlistTimes)).Pairwise (· ≤ ·) →
      cleanupLoop ct mw order b w = some b1 →
      b1.benchlistOrder <:+ order ∧
        ∀ x ∈ b1.benchlistOrder, ct < endOf b1.benchlistTimes x := by
  intro order
  induction order with
  | nil =>
    intro b w b1 _ _ h
    unfold cleanupLoop at h
    cases h
    exact ⟨List.suffix_refl _, fun x hx => absurd hx (List.not_mem_nil _)⟩
  | cons v rest ih =>
    intro b w b1 hn hs h
    unfold cleanupLoop at h
    split at h
    · rename_i hcond
      cases h
      refine ⟨List.suffix_refl _, ?_⟩
      intro x hx
      show ct < endOf b.benchlistTimes x
      rw [List.map_cons, List.pairwise_cons] at hs
      rcases List.mem_cons.mp hx with hx | hx
      · rw [hx]
        exact hcond.1
      · have := hs.1 (endOf b.benchlistTimes x) (List.mem_map.mpr ⟨x, hx, rfl⟩)
        have h0 : ct < endOf b.benchlistTimes v := hcond.1
        omega
    · have hn2 := (List.nodup_cons.mp hn).2
      have hv := (List.nodup_cons.mp hn).1
      have hs2 : (rest.map (endOf (mapDel b.benchlistTimes v))).Pairwise (· ≤ ·) := by
        rw [List.map_cons, List.pairwise_cons] at hs
        have he : rest.map (endOf (mapDel b.benchlistTimes v)) =
            rest.map (endOf b.benchlistTimes) := by
          apply List.map_congr_left
          intro x hx
          exact endOf_mapDel_ne _ (fun hxv => hv (hxv ▸ hx))
        rw [he]
        exact hs.2
      dsimp only at h
      split at h
      · split at h
        · cases h
        · obtain ⟨g1, g2⟩ := ih _ _ b1 hn2 hs2 h
          exact ⟨g1.trans (List.suffix_cons v rest), g2⟩
      · obtain ⟨g1, g2⟩ := ih _ _ b1 hn2 hs2 h
        exact ⟨g1.trans (List.suffix_cons v rest), g2⟩

theorem cleanup_expired (b : queryBenchlist) (hc : Inv b)
    (hs : (b.benchlistOrder.map (endOf b.benchlistTimes)).Pairwise (· ≤ ·)) :
    (cleanup b).benchlistOrder <:+ b.benchlistOrder ∧
      ∀ x ∈ (cleanup b).benchlistSet, b.clock < endTime (cleanup b) x := by
  have hinv := (cleanup_spec b hc).1
  rcases cleanup_cases b with h | ⟨b1, hloop, h⟩
  · rw [h]
    exact ⟨List.nil_suffix, fun x hx => absurd hx (List.not_mem_nil _)⟩
  · obtain ⟨g1, g2⟩ := cleanupLoop_expired _ _ _ b _ b1 hc.nodup hs hloop
    rw [h] at hinv ⊢
    exact ⟨g1, fun x hx => g2 x ((hinv.mem_iff x).mp hx)⟩

theorem benchAdd_sorted (b : queryBenchlist) (v : ShortID) (rnd : Fraction) (hc : Inv b)
    (ho : OrdInv b) (hv : v ∉ b.benchlistSet) (h0 : 0 ≤ rnd.num)
    (h1 : rnd.num < (rnd.den : Int)) :
    ((benchAdd b v (randomizedEndTime b rnd)).benchlistOrder.map
      (endOf (benchAdd b v (randomizedEndTime b rnd)).benchlistTimes)).Pairwise (· ≤ ·) := by
  rcases lt_or_le b.duration 0 with hd | hd
  · have hnil := ho.2 hd
    show ((b.benchlistOrder ++ [v]).map _).Pairwise (· ≤ ·)
    rw [hnil]
    simp
  · have hbounds := randomizedEndTime_bounds b rnd hd ho.1.bound h0 h1
    have hp : Ordered (b.benchlistOrder ++ [v])
        (mapSet b.benchlistTimes v (randomizedEndTime b rnd)) (b.clock + b.duration) := by
      apply Ordered_push hc hv ho.1 _ hbounds.2
      intro x hx
      cases hl : b.benchlistOrder.getLast? with
      | none =>
        rw [List.getLast?_eq_none_iff] at hl
        rw [hl] at hx
        exact absurd hx (List.not_mem_nil _)
      | some last =>
        have h5 := le_last_of_sorted ho.1.sorted hl x hx
        have h6 := minEndTime_ge_last b hl
        unfold endTime at h6
        omega
    exact hp.sorted

/-- C23. Let `s` be a state reached from a new benchlist by calls with a
non-decreasing clock (and draws in `[0, 1)`), with the clock at `now`, not
before the last call, and any pending queries and failure streaks. After `bench`
adds a validator to `s`, and after `RegisterQuery` for a validator whose bench
period has elapsed, no benched validator has an end time at or before `now`, and
what is left of `benchlistOrder` is a suffix of the list before the cleanup (so
the entries removed are a prefix of it). -/
theorem cleanup_removes_expired (validators : ValidatorSet) (threshold : Int)
    (minimumFailingDuration duration : Int) (maxPortion : Fraction) (calls : List Call)
    (now : Int) (pq : List (ShortID × List (Nat × pendingQuery)))
    (cf : List (ShortID × failureStreak)) (s : queryBenchlist)
    (hclock : List.Chain' (· ≤ ·) (calls.map Call.now ++ [now]))
    (hdraw : ∀ c ∈ calls, c.drawOk)
    (hs : s = { run (NewQueryBenchlist validators threshold minimumFailingDuration duration
      maxPortion) calls with clock := now, pendingQueries := pq, consecutiveFailures := cf }) :
    (∀ (v : ShortID) (rnd : Fraction), v ∉ s.benchlistSet → 0 ≤ rnd.num →
        rnd.num < (rnd.den : Int) →
        (∀ x ∈ (bench s v rnd).benchlistSet, now < endTime (bench s v rnd) x) ∧
          (bench s v rnd).benchlistOrder <:+ s.benchlistOrder ++ [v]) ∧
      (∀ (v : ShortID) (e : Int) (r t : Nat), mapGet s.benchlistTimes v = some e →
        ¬ now < e →
        (∀ x ∈ (RegisterQuery s v r t).1.benchlistSet,
            now < endTime (RegisterQuery s v r t).1 x) ∧
          (RegisterQuery s v r t).1.benchlistOrder <:+ s.benchlistOrder) := by
  have hg0 := run_new_goodOrd_at validators threshold minimumFailingDuration duration maxPortion
    calls now hclock hdraw
  have hg : GoodOrd s := by
    rw [hs]
    exact hg0
  have hclk : s.clock = now := by rw [hs]
  constructor
  · intro v rnd hv h0 h1
    have hb : bench s v rnd = cleanup (benchAdd s v (randomizedEndTime s rnd)) := by
      unfold bench
      rw [if_neg hv]
    have hinv := benchAdd_inv s v (randomizedEndTime s rnd) hg.1 hv
    have hsorted := benchAdd_sorted s v rnd hg.1 hg.2 hv h0 h1
    obtain ⟨g1, g2⟩ := cleanup_expired _ hinv hsorted
    rw [hb]
    refine ⟨fun x hx => ?_, g1⟩
    have := g2 x hx
    rw [← hclk]
    exact this
  · intro v e r t he hexp
    have hb : benched s v = (cleanup s, false) := by
      unfold benched
      rw [he]
      simp only
      rw [if_neg (by rw [hclk]; exact hexp)]
    obtain ⟨g1, g2⟩ := cleanup_expired s hg.1 hg.2.1.sorted
    have hrq : (RegisterQuery s v r t).1.benchlistOrder = (cleanup s).benchlistOrder ∧
        (RegisterQuery s v r t).1.benchlistSet = (cleanup s).benchlistSet ∧
        (RegisterQuery s v r t).1.benchlistTimes = (cleanup s).benchlistTimes := by
      unfold RegisterQuery
      rw [hb]
      exact ⟨rfl, rfl, rfl⟩
    refine ⟨fun x hx => ?_, ?_⟩
    · rw [hrq.2.1] at hx
      have := g2 x hx
      unfold endTime at this ⊢
      rw [hrq.2.2, ← hclk]
      exact this
    · rw [hrq.1]
      exact g1

/-- Witness of C23: validator 1 is benched until time 83; at time 90 a query
for it runs the cleanup, which empties the benchlist. -/
theorem cleanup_removes_expired_witness :
    (run (NewQueryBenchlist ⟨[(1, 10), (2, 90)], 100⟩ 2 0 100 ⟨1, 2⟩)
        [Call.registerQuery 5 1 0 0, Call.queryFailed 6 1 0 ⟨1, 2⟩,
         Call.registerQuery 7 1 1 0, Call.queryFailed 8 1 1 ⟨1, 2⟩]).benchlistTimes =
        [(1, 83)] ∧
      (RegisterQuery
        { run (NewQueryBenchlist ⟨[(1, 10), (2, 90)], 100⟩ 2 0 100 ⟨1, 2⟩)
          [Call.registerQuery 5 1 0 0, Call.queryFailed 6 1 0 ⟨1, 2⟩,
           Call.registerQuery 7 1 1 0, Call.queryFailed 8 1 1 ⟨1, 2⟩]
          with clock := 90, pendingQueries := [], consecutiveFailures := [] }
        1 2 0).1.benchlistSet = [] ∧
      ∀ x ∈ (RegisterQuery
        { run (NewQueryBenchlist ⟨[(1, 10), (2, 90)], 100⟩ 2 0 100 ⟨1, 2⟩)
          [Call.registerQuery 5 1 0 0, Call.queryFailed 6 1 0 ⟨1, 2⟩,
           Call.registerQuery 7 1 1 0, Call.queryFailed 8 1 1 ⟨1, 2⟩]
          with clock := 90, pendingQueries := [], consecutiveFailures := [] }
        1 2 0).1.benchlistSet,
        (90 : Int) < endTime (RegisterQuery
          { run (NewQueryBenchlist ⟨[(1, 10), (2, 90)], 100⟩ 2 0 100 ⟨1, 2⟩)
            [Call.registerQuery 5 1 0 0, Call.queryFailed 6 1 0 ⟨1, 2⟩,
             Call.registerQuery 7 1 1 0, Call.queryFailed 8 1 1 ⟨1, 2⟩]
            with clock := 90, pendingQueries := [], consecutiveFailures := [] }
          1 2 0).1 x :=
  ⟨by decide, by decide,
    ((cleanup_removes_expired ⟨[(1, 10), (2, 90)], 100⟩ 2 0 100 ⟨1, 2⟩
      [Call.registerQuery 5 1 0 0, Call.queryFailed 6 1 0 ⟨1, 2⟩,
       Call.registerQuery 7 1 1 0, Call.queryFailed 8 1 1 ⟨1, 2⟩] 90 [] [] _
      (by simp [Call.now]) (by decide) rfl).2 1 83 2 0 (by decide) (by decide)).1⟩

end Benchlist

namespace SnowmanIssuer

theorem step_abandoned (s : issuer × Engine) (c : Call) (h : s.1.abandoned = true) :
    (step s c).1.abandoned = true ∧ (step s c).2 = s.2 := by
  obtain ⟨i, t⟩ := s
  simp only at h
  cases c with
  | fulfill id deliverErr =>
    show (issuer.Update { i with deps := i.deps.erase id } t deliverErr).1.abandoned = true ∧
      (issuer.Update { i with deps := i.deps.erase id } t deliverErr).2 = t
    unfold issuer.Update
    simp [h]
  | abandon id =>
    show (i.Abandon t id).1.abandoned = true ∧ (i.Abandon t id).2 = t
    unfold issuer.Abandon
    simp [h]
  | update deliverErr =>
    show (i.Update t deliverErr).1.abandoned = true ∧ (i.Update t deliverErr).2 = t
    unfold issuer.Update
    simp [h]

theorem run_abandoned : ∀ (calls : List Call) (s : issuer × Engine),
    s.1.abandoned = true → (run s calls).1.abandoned = true ∧ (run s calls).2 = s.2 := by
  intro calls
  induction calls with
  | nil => intro s h; exact ⟨h, rfl⟩
  | cons c cs ih =>
    intro s h
    obtain ⟨h1, h2⟩ := step_abandoned s c h
    obtain ⟨g1, g2⟩ := ih (step s c) h1
    exact ⟨g1, g2.trans h2⟩

/-- C24. Once `Abandon` has been called on an issuer, no sequence of `Fulfill`,
`Abandon` and `Update` calls makes it call `deliver` (or anything else on the
engine): the engine stays as `Abandon` left it. An `Abandon` call on an issuer
that is not yet abandoned removes the block from `pending` and calls
`blocked.Abandon`; an `Abandon` call on an abandoned issuer leaves the engine
as it was. By contrast an issuer that is not abandoned, has no dependency left
and sees no engine error calls `deliver` on `Update`. -/
theorem abandoned_never_issues (i : issuer) (t : Engine) (id : ID) (calls : List Call) :
    (run (i.Abandon t id) calls).2 = (i.Abandon t id).2 ∧
      (run (i.Abandon t id) calls).1.abandoned = true ∧
      (i.abandoned = false →
        (i.Abandon t id).2 =
          { t with
            pending := t.pending.erase i.blk
            effects := t.effects ++ [Effect.blockedAbandon i.blk] }) ∧
      (i.abandoned = true → (i.Abandon t id).2 = t) ∧
      (∀ deliverErr, i.abandoned = false → i.deps = [] → t.errored = false →
        (i.Update t deliverErr).2.effects = t.effects ++ [Effect.deliver i.blk]) := by
  have ha : (i.Abandon t id).1.abandoned = true := by
    unfold issuer.Abandon
    split <;> rfl
  obtain ⟨h1, h2⟩ := run_abandoned calls (i.Abandon t id) ha
  refine ⟨h2, h1, fun h => ?_, fun h => ?_, fun deliverErr h hd ht => ?_⟩
  · unfold issuer.Abandon
    simp [h]
  · unfold issuer.Abandon
    simp [h]
  · unfold issuer.Update
    simp [h, hd, ht]

end SnowmanIssuer

namespace SnowmanVoter

/-- C22. `voter.Update` makes no call while the voter has unmet dependencies
or the engine has recorded an error. Otherwise its first call registers the
response with the poll set, as a `Drop` when the response is the empty ID and
as a `Vote` otherwise, and this is its only call on the poll set;
`Consensus.RecordPoll` is called only if the poll set reports the poll
finished (and then exactly once); and `repoll` is called if and only if the
poll finished, `RecordPoll` returned no error and `Consensus.Finalized()` is
false. -/
theorem voter_Update_spec (v : voter) (t : Engine) :
    ((v.deps.length ≠ 0 ∨ t.errored = true) → v.Update t = []) ∧
      ((v.deps.length = 0 ∧ t.errored = false) →
        (v.Update t).head? =
            some (if v.response = Empty then Effect.pollsDrop v.requestID v.vdr
              else Effect.pollsVote v.requestID v.vdr v.response) ∧
          ((v.Update t).filter Effect.isPolls).length = 1 ∧
          ((v.Update t).filter Effect.isRecordPoll).length =
            (if t.pollResult.2 then 1 else 0)) ∧
      ((∃ e ∈ v.Update t, e.isRecordPoll = true) →
        v.deps.length = 0 ∧ t.errored = false ∧ t.pollResult.2 = true) ∧
      (Effect.repoll ∈ v.Update t ↔
        v.deps.length = 0 ∧ t.errored = false ∧ t.pollResult.2 = true ∧
          t.recordPollErr = none ∧ t.finalized = false) := by
  by_cases hd : v.deps.length ≠ 0 ∨ t.errored = true
  · have hU : v.Update t = [] := by
      unfold voter.Update
      rw [if_pos hd]
    refine ⟨fun _ => hU, fun h => ?_, fun h => ?_, ?_⟩
    · rcases hd with hd | hd
      · exact absurd h.1 hd
      · rw [h.2] at hd
        cases hd
    · rw [hU] at h
      obtain ⟨e, he, _⟩ := h
      cases he
    · rw [hU]
      constructor
      · intro h
        cases h
      · rintro ⟨h1, h2, _⟩
        rcases hd with hd | hd
        · exact absurd h1 hd
        · rw [h2] at hd
          cases hd
  · have hd1 : v.deps.length = 0 := by
      by_contra h
      exact hd (Or.inl h)
    have hd2 : t.errored = false := by
      cases he : t.errored
      · rfl
      · exact absurd (Or.inr he) hd
    refine ⟨fun h => absurd h hd, ?_⟩
    by_cases hr : v.response = Empty
    · cases hf : t.pollResult.2
      · have hU : v.Update t = [Effect.pollsDrop v.requestID v.vdr] := by
          unfold voter.Update
          simp [hd1, hd2, hr, hf]
        rw [hU]
        simp [hr, hd1, hd2, Effect.isPolls, Effect.isRecordPoll]
      · cases hrp : t.recordPollErr with
        | some cause =>
          have hU : v.Update t = [Effect.pollsDrop v.requestID v.vdr,
              Effect.recordPoll (bubbleVotes t.getBlock t.issued t.pollResult.1),
              Effect.errsAdd cause] := by
            unfold voter.Update
            simp [hd1, hd2, hr, hf, hrp]
          rw [hU]
          simp [hr, hd1, hd2, Effect.isPolls, Effect.isRecordPoll]
        | none =>
          cases hfin : t.finalized
          · have hU : v.Update t = [Effect.pollsDrop v.requestID v.vdr,
                Effect.recordPoll (bubbleVotes t.getBlock t.issued t.pollResult.1),
                Effect.setPreference, Effect.repoll] := by
              unfold voter.Update
              simp [hd1, hd2, hr, hf, hrp, hfin]
            rw [hU]
            simp [hr, hd1, hd2, Effect.isPolls, Effect.isRecordPoll]
          · have hU : v.Update t = [Effect.pollsDrop v.requestID v.vdr,
                Effect.recordPoll (bubbleVotes t.getBlock t.issued t.pollResult.1),
                Effect.setPreference] := by
              unfold voter.Update
              simp [hd1, hd2, hr, hf, hrp, hfin]
            rw [hU]
            simp [hr, hd1, hd2, Effect.isPolls, Effect.isRecordPoll]
    · cases hf : t.pollResult.2
      · have hU : v.Update t = [Effect.pollsVote v.requestID v.vdr v.response] := by
          unfold voter.Update
          simp [hd1, hd2, hr, hf]
        rw [hU]
        simp [hr, hd1, hd2, Effect.isPolls, Effect.isRecordPoll]
      · cases hrp : t.recordPollErr with
        | some cause =>
          have hU : v.Update t = [Effect.pollsVote v.requestID v.vdr v.response,
              Effect.recordPoll (bubbleVotes t.getBlock t.issued t.pollResult.1),
              Effect.errsAdd cause] := by
            unfold voter.Update
            simp [hd1, hd2, hr, hf, hrp]
          rw [hU]
          simp [hr, hd1, hd2, Effect.isPolls, Effect.isRecordPoll]
        | none =>
          cases hfin : t.finalized
          · have hU : v.Update t = [Effect.pollsVote v.requestID v.vdr v.response,
                Effect.recordPoll (bubbleVotes t.getBlock t.issued t.pollResult.1),
                Effect.setPreference, Effect.repoll] := by
              unfold voter.Update
              simp [hd1, hd2, hr, hf, hrp, hfin]
            rw [hU]
            simp [hr, hd1, hd2, Effect.isPolls, Effect.isRecordPoll]
          · have hU : v.Update t = [Effect.pollsVote v.requestID v.vdr v.response,
                Effect.recordPoll (bubbleVotes t.getBlock t.issued t.pollResult.1),
                Effect.setPreference] := by
              unfold voter.Update
              simp [hd1, hd2, hr, hf, hrp, hfin]
            rw [hU]
            simp [hr, hd1, hd2, Effect.isPolls, Effect.isRecordPoll]

end SnowmanVoter

namespace Sampler

theorem Sub_le_max (t u : Int) : Sub t u ≤ MaxInt64 := by
  unfold Sub MaxInt64 MinInt64
  split
  · exact le_refl _
  · split <;> omega

theorem benchmark_iff (c : Uniform) (size : Int) : ∀ (n k : Nat),
    benchmark c size n k = true ↔ ∀ i < n, c.SampleErr size (k + i) = false := by
  intro n
  induction n with
  | zero =>
    intro k
    simp [benchmark]
  | succ n ih =>
    intro k
    unfold benchmark
    cases h0 : c.SampleErr size k
    · simp only [Bool.false_eq_true, if_false]
      rw [ih (k + 1)]
      constructor
      · intro h i hi
        rcases Nat.eq_zero_or_pos i with hz | hp
        · rw [hz]
          exact h0
        · have := h (i - 1) (by omega)
          have he : k + 1 + (i - 1) = k + i := by omega
          rw [he] at this
          exact this
      · intro h i hi
        have := h (i + 1) (by omega)
        have he : k + (i + 1) = k + 1 + i := by omega
        rw [he] at this
        exact this
    · simp only [if_true]
      constructor
      · intro h
        cases h
      · intro h
        have := h 0 (by omega)
        rw [Nat.add_zero, h0] at this
        cases this

theorem sampleSizeOf_eq_min (maxSampleSize : Int) (length : Nat) (h0 : 0 ≤ maxSampleSize)
    (hmax : maxSampleSize ≤ MaxInt64) (hlen : length < 2 ^ 64) :
    sampleSizeOf maxSampleSize length = min maxSampleSize (length : Int) := by
  unfold sampleSizeOf
  unfold MaxInt64 at hmax
  have hm : maxSampleSize % 2 ^ 64 = maxSampleSize := Int.emod_eq_of_lt h0 (by omega)
  rw [hm]
  by_cases hlt : (length : Int) < maxSampleSize
  · rw [if_pos hlt, min_eq_right (le_of_lt hlt)]
    have : ((length : Int) + 2 ^ 63) % 2 ^ 64 = (length : Int) + 2 ^ 63 :=
      Int.emod_eq_of_lt (by omega) (by omega)
    rw [this]
    omega
  · rw [if_neg hlt, min_eq_left (by omega)]

theorem samplerLoop_spec (clock : Nat → Int × Int) (length : Nat) (size : Int)
    (iterations : Int) : ∀ (l : List Uniform) (idx : Nat) (bd : Int) (best : Option Nat),
    (samplerLoop clock length size iterations l idx bd best).1 ≤ bd ∧
      (∀ j c, l.get? j = some c → qualifies length size iterations c →
        (samplerLoop clock length size iterations l idx bd best).1 ≤ measured clock (idx + j)) ∧
      (samplerLoop clock length size iterations l idx bd best = (bd, best) ∨
        ∃ j c, l.get? j = some c ∧ qualifies length size iterations c ∧
          (samplerLoop clock length size iterations l idx bd best).2 = some (idx + j) ∧
          (samplerLoop clock length size iterations l idx bd best).1 = measured clock (idx + j) ∧
          measured clock (idx + j) < bd ∧
          ∀ j1 c1, j1 < j → l.get? j1 = some c1 → qualifies length size iterations c1 →
            measured clock (idx + j) < measured clock (idx + j1)) := by
  intro l
  induction l with
  | nil =>
    intro idx bd best
    refine ⟨le_refl _, ?_, Or.inl rfl⟩
    intro j c hj
    simp at hj
  | cons c rest ih =>
    intro idx bd best
    have hq : qualifies length size iterations c ↔
        (c.InitializeErr length = false ∧ benchmark c size iterations.toNat 0 = true) := by
      unfold qualifies
      rw [benchmark_iff]
      simp
    have hshift : ∀ j : Nat, idx + 1 + j = idx + (j + 1) := fun j => by omega
    by_cases hqc : qualifies length size iterations c
    · have hq1 := hq.mp hqc
      by_cases hlt : measured clock idx < bd
      · have hloop : samplerLoop clock length size iterations (c :: rest) idx bd best =
            samplerLoop clock length size iterations rest (idx + 1) (measured clock idx)
              (some idx) := by
          rw [samplerLoop]
          simp only [hq1.1, hq1.2, Bool.false_eq_true, if_false, not_true_eq_false]
          rw [show Sub (clock idx).2 (clock idx).1 = measured clock idx from rfl, if_pos hlt]
        rw [hloop]
        obtain ⟨g1, g2, g3⟩ := ih (idx + 1) (measured clock idx) (some idx)
        refine ⟨by omega, ?_, ?_⟩
        · intro j c1 hj hc1
          cases j with
          | zero => exact g1
          | succ j =>
            have := g2 j c1 (by simpa using hj) hc1
            rw [hshift] at this
            exact this
        · right
          rcases g3 with g3 | ⟨j, c1, k1, k2, k3, k4, k5, k6⟩
          · refine ⟨0, c, rfl, hqc, ?_, ?_, hlt, ?_⟩
            · rw [g3]
              rfl
            · rw [g3]
              rfl
            · intro j1 c1 hj1
              omega
          · refine ⟨j + 1, c1, by simpa using k1, k2, ?_, ?_, ?_, ?_⟩
            · rw [k3, hshift]
            · rw [k4, hshift]
            · rw [← hshift]
              omega
            · intro j1 c2 hj1 hc2 hq2
              rw [← hshift]
              cases j1 with
              | zero => exact k5
              | succ j1 =>
                have := k6 j1 c2 (by omega) (by simpa using hc2) hq2
                rw [hshift j1] at this
                exact this
      · have hloop : samplerLoop clock length size iterations (c :: rest) idx bd best =
            samplerLoop clock length size iterations rest (idx + 1) bd best := by
          rw [samplerLoop]
          simp only [hq1.1, hq1.2, Bool.false_eq_true, if_false, not_true_eq_false]
          rw [show Sub (clock idx).2 (clock idx).1 = measured clock idx from rfl, if_neg hlt]
        rw [hloop]
        obtain ⟨g1, g2, g3⟩ := ih (idx + 1) bd best
        refine ⟨g1, ?_, ?_⟩
        · intro j c1 hj hc1
          cases j with
          | zero =>
            show _ ≤ measured clock idx
            omega
          | succ j =>
            have := g2 j c1 (by simpa using hj) hc1
            rw [hshift] at this
            exact this
        · rcases g3 with g3 | ⟨j, c1, k1, k2, k3, k4, k5, k6⟩
          · left
            exact g3
          · right
            refine ⟨j + 1, c1, by simpa using k1, k2, ?_, ?_, ?_, ?_⟩
            · rw [k3, hshift]
            · rw [k4, hshift]
            · rw [← hshift]
              exact k5
            · intro j1 c2 hj1 hc2 hq2
              rw [← hshift]
              cases j1 with
              | zero =>
                show _ < measured clock idx
                omega
              | succ j1 =>
                have := k6 j1 c2 (by omega) (by simpa using hc2) hq2
                rw [hshift j1] at this
                exact this
    · have hloop : samplerLoop clock length size iterations (c :: rest) idx bd best =
          samplerLoop clock length size iterations rest (idx + 1) bd best := by
        rw [samplerLoop]
        cases hi : c.InitializeErr length
        · have hb : benchmark c size iterations.toNat 0 = false := by
            cases hb : benchmark c size iterations.toNat 0
            · rfl
            · exact absurd (hq.mpr ⟨hi, hb⟩) hqc
          simp [hb]
        · simp
      rw [hloop]
      obtain ⟨g1, g2, g3⟩ := ih (idx + 1) bd best
      refine ⟨g1, ?_, ?_⟩
      · intro j c1 hj hc1
        cases j with
        | zero =>
          simp at hj
          rw [← hj] at hc1
          exact absurd hc1 hqc
        | succ j =>
          have := g2 j c1 (by simpa using hj) hc1
          rw [hshift] at this
          exact this
      · rcases g3 with g3 | ⟨j, c1, k1, k2, k3, k4, k5, k6⟩
        · left
          exact g3
        · right
          refine ⟨j + 1, c1, by simpa using k1, k2, ?_, ?_, ?_, ?_⟩
          · rw [k3, hshift]
          · rw [k4, hshift]
          · rw [← hshift]
            exact k5
          · intro j1 c2 hj1 hc2 hq2
            rw [← hshift]
            cases j1 with
            | zero =>
              simp at hc2
              rw [← hc2] at hq2
              exact absurd hq2 hqc
            | succ j1 =>
              have := k6 j1 c2 (by omega) (by simpa using hc2) hq2
              rw [hshift j1] at this
              exact this

/-- Counterexample to C21 as stated. The candidate of `slowBest` initialises
and completes its benchmark, and its measured duration is the largest duration;
`Initialize` returns errNoValidUniformSamplers. The candidate of `negativeBest`
fails `Sample(min(maxSampleSize, length))` = `Sample(-1)`, so no candidate
qualifies; `Initialize` benchmarks `Sample(10)`, selects it and returns nil. -/
theorem Initialize_picks_fastest_counterexample :
    (steady.InitializeErr 10 = false ∧
        (∀ i < (100 : Int).toNat, steady.SampleErr (min 1 10) i = false) ∧
        (slowBest.Initialize 10).2 = some Error.errNoValidUniformSamplers) ∧
      (strict.SampleErr (min (-1) 10) 0 = true ∧
        (negativeBest.Initialize 10).2 = none ∧
        (negativeBest.Initialize 10).1.Uniform = some 0) := by
  decide

/-- C21, amended. For a non-negative `maxSampleSize` (and a `uint64` length):
`Initialize` returns errNoValidUniformSamplers if and only if every candidate
that initialises for the length and completes all benchmark iterations of
`Sample(min(maxSampleSize, length))` without error has the largest duration as
its measured benchmark duration (in particular when no candidate qualifies),
and it returns nil exactly when it selects a sampler; the sampler selected is a
candidate that qualifies, its measured duration is at most that of every
candidate that qualifies and strictly below that of every earlier one. -/
theorem Initialize_picks_fastest (s : uniformBest) (length : Nat)
    (hsize : 0 ≤ s.maxSampleSize) (hint : s.maxSampleSize ≤ MaxInt64)
    (hlen : length < 2 ^ 64) :
    ((s.Initialize length).2 = some Error.errNoValidUniformSamplers ↔
        ∀ j c, s.samplers.get? j = some c →
          qualifies length (min s.maxSampleSize (length : Int)) s.benchmarkIterations c →
          measured s.clock j = MaxInt64) ∧
      ((s.Initialize length).2 = none ↔ ∃ idx, (s.Initialize length).1.Uniform = some idx) ∧
      (∀ idx, (s.Initialize length).1.Uniform = some idx →
        (∃ c, s.samplers.get? idx = some c ∧
          qualifies length (min s.maxSampleSize (length : Int)) s.benchmarkIterations c) ∧
        (∀ j c, s.samplers.get? j = some c →
          qualifies length (min s.maxSampleSize (length : Int)) s.benchmarkIterations c →
          measured s.clock idx ≤ measured s.clock j) ∧
        (∀ j c, j < idx → s.samplers.get? j = some c →
          qualifies length (min s.maxSampleSize (length : Int)) s.benchmarkIterations c →
          measured s.clock idx < measured s.clock j)) := by
  have hmin := sampleSizeOf_eq_min s.maxSampleSize length hsize hint hlen
  obtain ⟨g1, g2, g3⟩ := samplerLoop_spec s.clock length
    (min s.maxSampleSize (length : Int)) s.benchmarkIterations s.samplers 0 MaxInt64 none
  simp only [Nat.zero_add] at g2 g3
  have hI : s.Initialize length =
      match (samplerLoop s.clock length (min s.maxSampleSize (length : Int))
        s.benchmarkIterations s.samplers 0 MaxInt64 none).2 with
      | none => ({ s with Uniform := none }, some Error.errNoValidUniformSamplers)
      | some idx => ({ s with Uniform := some idx }, none) := by
    unfold uniformBest.Initialize
    rw [hmin]
  rcases g3 with g3 | ⟨j, c, k1, k2, k3, k4, k5, k6⟩
  · rw [g3] at g2
    have hI2 : s.Initialize length =
        ({ s with Uniform := none }, some Error.errNoValidUniformSamplers) := by
      rw [hI, g3]
    rw [hI2]
    refine ⟨⟨fun _ j c hj hq => ?_, fun _ => rfl⟩, ⟨fun h => (by cases h), fun h => ?_⟩,
      fun idx h => (by cases h)⟩
    · have h1 := g2 j c hj hq
      have h2 : measured s.clock j ≤ MaxInt64 := Sub_le_max _ _
      exact le_antisymm h2 h1
    · obtain ⟨idx, h⟩ := h
      cases h
  · rw [k4] at g2
    have hI2 : s.Initialize length = ({ s with Uniform := some j }, none) := by
      rw [hI, k3]
    rw [hI2]
    refine ⟨⟨fun h => (by cases h), fun h => ?_⟩, ⟨fun _ => ⟨j, rfl⟩, fun _ => rfl⟩,
      fun idx h => ?_⟩
    · have := h j c k1 k2
      omega
    · have hidx : j = idx := Option.some.inj h
      subst hidx
      exact ⟨⟨c, k1, k2⟩, g2, fun j1 c1 hj1 hc1 hq1 => k6 j1 c1 hj1 hc1 hq1⟩

/-- Witness of C21: of the three candidates of `sampleBest` the first fails to
initialise, the second takes 7 time units and the third 5; the third is
selected. -/
theorem Initialize_picks_fastest_witness :
    (sampleBest.Initialize 10).1.Uniform = some 2 ∧
      ((sampleBest.Initialize 10).2 = none ↔
        ∃ idx, (sampleBest.Initialize 10).1.Uniform = some idx) ∧
      (∀ j c, sampleBest.samplers.get? j = some c →
        qualifies 10 (min sampleBest.maxSampleSize ((10 : Nat) : Int))
          sampleBest.benchmarkIterations c →
        measured sampleBest.clock 2 ≤ measured sampleBest.clock j) :=
  ⟨by decide,
    (Initialize_picks_fastest sampleBest 10 (by decide) (by decide) (by decide)).2.1,
    ((Initialize_picks_fastest sampleBest 10 (by decide) (by decide) (by decide)).2.2 2
      (by decide)).2.1⟩

end Sampler
